import Mathlib

/-!
Verification development for a set of vscode source fragments:
the release-notes manager (`gettingStartedContent.ts`), the notebook webview
preload script (`webviewPreloads.ts`), and the editor override service
(`editorOverrideService.ts`).  Each TypeScript function relevant to the
stated properties is shallowly embedded as an executable Lean definition;
asynchronous behaviour (promise queues, in-flight fetches) is embedded as an
explicit labelled transition system driven by a command list, so that every
interleaving the JavaScript event loop can produce corresponds to some
command list.
-/

/-! ## Generic association-list helpers

JavaScript `Map` objects preserve insertion order; they are embedded as
association lists.  `lookupKey` is `Map.get`, `removeKey` is `Map.delete`
(keys are never duplicated by the embedded code, so removing every matching
entry coincides with deleting the single one), `setKey` is `Map.set` on an
existing key. -/

def lookupKey {α : Type} : List (String × α) → String → Option α
  | [], _ => none
  | (k, v) :: rest, key => if k = key then some v else lookupKey rest key

def removeKey {α : Type} : List (String × α) → String → List (String × α)
  | [], _ => []
  | (k, v) :: rest, key =>
    if k = key then removeKey rest key else (k, v) :: removeKey rest key

def setKey {α : Type} : List (String × α) → String → α → List (String × α)
  | [], _, _ => []
  | (k, v) :: rest, key, nv =>
    if k = key then (key, nv) :: rest else (k, v) :: setKey rest key nv

def setAt {α : Type} : List α → Nat → α → List α
  | [], _, _ => []
  | _ :: rest, 0, nv => nv :: rest
  | x :: rest, n + 1, nv => x :: setAt rest n nv

namespace ReleaseNotes

/-! ## ReleaseNotesManager (gettingStartedContent.ts)

The manager keeps `_releaseNotesCache : Map<string, Promise<string>>`.
Promises are embedded as indices into a list of promise states; issuing the
network request is recorded in a `requests` log.  The asynchronous completion
of a fetch is a separate `settle` transition carrying the network outcome. -/

inductive PromState
  | pending
  | fulfilled (value : String)
  | rejected (err : String)
deriving Repr, DecidableEq

structure CacheState where
  cache : List (String × Nat)
  promises : List PromState
  requests : List String
deriving Repr, DecidableEq

def initCache : CacheState := ⟨[], [], []⟩

/-- Greedy run of `\d+` at the head of a character list, as in the regex
`/^(\d+\.\d+)\./` of `loadReleaseNotes`. -/
def takeDigits : List Char → List Char × List Char
  | [] => ([], [])
  | c :: rest =>
    if c.isDigit then
      let (d, r) := takeDigits rest
      (c :: d, r)
    else ([], c :: rest)

/-- Match of `/^(\d+\.\d+)\./` against the version, returning the capture
group with `.` already replaced by `_` (the `versionLabel` computation of
`loadReleaseNotes`). -/
def versionLabelOf (version : String) : Option String :=
  let (d1, r1) := takeDigits version.data
  if d1.isEmpty then none
  else
    match r1 with
    | '.' :: r2 =>
      let (d2, r3) := takeDigits r2
      if d2.isEmpty then none
      else
        match r3 with
        | '.' :: _ => some (String.mk (d1 ++ '_' :: d2))
        | _ => none
    | _ => none

def releaseNotesUrl (label : String) : String :=
  "https://code.visualstudio.com/raw/v" ++ label ++ ".md"

/-- The `loadReleaseNotes` method.  It throws `not found` when the version
does not match the regex; otherwise, when no promise is cached for the
version it creates one (whose underlying fetch issues the network request
synchronously up to the first await) and caches it, and it returns the cached
promise. -/
def loadReleaseNotes (version : String) (st : CacheState) :
    CacheState × Except String Nat :=
  match versionLabelOf version with
  | none => (st, Except.error "not found")
  | some label =>
    match lookupKey st.cache version with
    | some pid => (st, Except.ok pid)
    | none =>
      let pid := st.promises.length
      ({ cache := st.cache ++ [(version, pid)],
         promises := st.promises ++ [PromState.pending],
         requests := st.requests ++ [releaseNotesUrl label] },
       Except.ok pid)

/-- Outcome of the network request behind `fetchReleaseNotes`: either the
request itself threw, or it produced a body (`asText` may yield `null`,
embedded as `none`). -/
inductive FetchOutcome
  | failure
  | fetched (text : Option String)
deriving Repr, DecidableEq

/-- Character class `\s` of JavaScript regular expressions. -/
def isJsWhitespace (c : Char) : Bool :=
  c = ' ' || c = '\t' || c = '\n' || c = '\x0b' || c = '\x0c' || c = '\r' ||
  c.toNat = 0xa0 || c.toNat = 0x1680 ||
  (0x2000 ≤ c.toNat && c.toNat ≤ 0x200a) ||
  c.toNat = 0x2028 || c.toNat = 0x2029 || c.toNat = 0x202f ||
  c.toNat = 0x205f || c.toNat = 0x3000 || c.toNat = 0xfeff

/-- Test `/^#\s/.test(text)` from `fetchReleaseNotes`. -/
def startsHashWhitespace (s : String) : Bool :=
  match s.data with
  | '#' :: c :: _ => isJsWhitespace c
  | _ => false

/-- Validity check of `fetchReleaseNotes`: `!text || !/^#\s/.test(text)`
rejects a `null` body, and any body that does not start with `#` followed by
whitespace (the empty body is among those). -/
def validReleaseNotes : Option String → Bool
  | none => false
  | some t => startsHashWhitespace t

def badOutcome : FetchOutcome → Bool
  | FetchOutcome.failure => true
  | FetchOutcome.fetched t => !validReleaseNotes t

/-- Asynchronous completion of the cached fetch for `version`, mirroring the
async closure in `loadReleaseNotes`: a request failure rethrows as
`Failed to fetch release notes`, an invalid body as `Invalid release notes`;
either rejection deletes the cache entry before the promise rejects, while a
valid body fulfills the promise with the keybinding-patched text (`patch`
stands for the `patchKeybindings` post-processing, embedded separately). -/
def settle (patch : String → String) (version : String)
    (outcome : FetchOutcome) (st : CacheState) : CacheState :=
  match lookupKey st.cache version with
  | none => st
  | some pid =>
    if st.promises.get? pid = some PromState.pending then
      match outcome with
      | FetchOutcome.failure =>
        { st with
          promises := setAt st.promises pid
            (PromState.rejected "Failed to fetch release notes"),
          cache := removeKey st.cache version }
      | FetchOutcome.fetched text =>
        if validReleaseNotes text then
          { st with
            promises := setAt st.promises pid
              (PromState.fulfilled (patch ((text).getD ""))) }
        else
          { st with
            promises := setAt st.promises pid
              (PromState.rejected "Invalid release notes"),
            cache := removeKey st.cache version }
    else st

/-- Interleavings of `loadReleaseNotes` calls and fetch completions. -/
inductive CacheOp
  | load (version : String)
  | complete (version : String) (outcome : FetchOutcome)
deriving Repr, DecidableEq

def cacheStep (patch : String → String) (st : CacheState) : CacheOp → CacheState
  | CacheOp.load v => (loadReleaseNotes v st).1
  | CacheOp.complete v outcome => settle patch v outcome st

def execCache (patch : String → String) (ops : List CacheOp) : CacheState :=
  ops.foldl (cacheStep patch) initCache

/-- The constant condition `false ? await this.loadReleaseNotes(version) : ...`
guarding the network path of `ReleaseNotesManager.show`. -/
def showUsesNetwork : Bool := false

/-- The built-in markdown shown by `show`: the template literal for the
January 2021 (version 1.53) release notes, reproduced verbatim. -/
def builtinReleaseNotesText : String :=
  String.intercalate "\n" [
"",
"",
"\t\t# January 2021 (version 1.53)",
"",
"**Update 1.53.1**: The update addresses these security [issues](https://github.com/microsoft/vscode/milestone/143).",
"",
"<!-- DOWNLOAD_LINKS_PLACEHOLDER -->",
"",
"---",
"",
"Welcome to the January 2021 release of Visual Studio Code. There are a number of updates in this version that we hope you will like, some of the key highlights include:",
"",
"* **[Wrap tabs](#wrap-tabs)** - Wrap editor tabs in the workbench instead of having a scrollbar.",
"* **[Configure tab decorations](#tab-decorations)** - Add editor tab status decorations.",
"* **[Customize search mode](#default-search-mode)** - Use the Search view or open a new Search editor.",
"* **[JavaScript debugging](#javascript-debugger)** - Support for conditional exception breakpoints and Node.js worker_threads.",
"* **[Notebook UX updates](#notebooks)** - Outline view for Notebook cells, and breadcrumbs for improved navigation.",
"* **[Markdown preview image auto update](#markdown-preview-auto-updates-when-images-are-changed-on-disk)** - Preview automatically updates when images change.",
"* **[Emmet improvements](#emmet-performance-and-feature-improvements)** - Faster performance and supporting the latest features.",
"* **[Extension guidelines](#extension-guidelines)** - Documented best practices for extension authors.",
"* **[Remote Development video series](#documentation)** - Learn to create and configure container-based environments.",
"",
">If you'd like to read these release notes online, go to [Updates](https://code.visualstudio.com/updates) on [code.visualstudio.com](https://code.visualstudio.com).",
"",
"**Join us live** at the [VS Code team's livestream](https://code.visualstudio.com/livestream) on Tuesday, February 9 at 8am Pacific (4pm London) to see a demo of what's new in this release, and ask us questions live.",
"",
"**Insiders:** Want to try new features as soon as possible? You can download the nightly [Insiders](https://code.visualstudio.com/insiders) build and try the latest updates as soon as they are available.",
"",
"## Workbench",
"",
"### Wrap tabs",
"",
"A new setting 'workbench.editor.wrapTabs' lets editor tabs wrap instead of showing a scrollbar.",
"",
"![Wrapping tabs in editor](images/1_53/tabs-wrap.gif)",
"*Theme: [GitHub Dark Theme](https://marketplace.visualstudio.com/items?itemName=GitHub.github-vscode-theme)*",
"",
"If the available space for the tabs is too small, wrapping will temporarily turn off, and you will see the old experience with a scrollbar.",
"\t\t"]

/-- The text-selection and return of `ReleaseNotesManager.show` (named
`showMethod` here because `show` is reserved in Lean): the release
note text is the network fetch only under the constant-`false` condition and
the built-in markdown otherwise, the cache state is only touched on the
network path, and the method resolves to `true`.  (Webview construction and
markdown rendering have no effect on the studied state.) -/
def showMethod (version : String) (st : CacheState) : CacheState × Bool × String :=
  if showUsesNetwork then
    ((loadReleaseNotes version st).1, true, "")
  else
    (st, true, builtinReleaseNotesText)

end ReleaseNotes

namespace PatchKb

/-! ## patchKeybindings (gettingStartedContent.ts)

The four global regex replacements of `patchKeybindings` substitute each
matched keybinding reference independently of the surrounding text, so the
text is embedded as a list of tokens: literal fragments and the four matched
reference shapes.  The keybinding service and parser are not under `src/`,
so they enter as parameters: `lookupKeybinding` returns `none` when no
keybinding exists and otherwise the `getLabel()` result (`none` for a `null`
label), `parse` is `KeybindingParser.parseKeybinding` and `resolve` is
`IKeybindingService.resolveKeybinding` returning the `getLabel()` result of
each resolved keybinding. -/

/-- Result of `nls.localize('unassigned', "unassigned")`. -/
def unassigned : String := "unassigned"

/-- JavaScript `x || y` on a possibly-null string `x`. -/
def jsOrElse (label : Option String) (dflt : String) : String :=
  match label with
  | some l => if l = "" then dflt else l
  | none => dflt

/-- Modelled from the spec: `escape` of `vs/base/common/strings` is not under
`src/`; it HTML-escapes the characters `<`, `>` and `&`. -/
def escapeHtmlChar (c : Char) : String :=
  if c = '<' then "&lt;"
  else if c = '>' then "&gt;"
  else if c = '&' then "&amp;"
  else String.singleton c

def escapeHtml (s : String) : String :=
  String.join (s.data.map escapeHtmlChar)

/-- The local `escapeMdHtml` helper: `escape(text).replace(/\\/g, '\\\\')`. -/
def escapeMdHtml (s : String) : String :=
  String.join ((escapeHtml s).data.map
    (fun c => if c = '\\' then "\\\\" else String.singleton c))

/-- Modelled from the spec: `escapeMarkdownSyntaxTokens` of
`vs/base/common/htmlContent` is not under `src/`; it prefixes each markdown
syntax character with a backslash. -/
def isMdSyntaxToken (c : Char) : Bool :=
  ['\\', Char.ofNat 96, '*', '_', Char.ofNat 123, Char.ofNat 125, '[', ']',
   '(', ')', '#', '+', '-', '.', '!'].contains c

def escapeMarkdownSyntaxTokens (s : String) : String :=
  String.join (s.data.map
    (fun c => if isMdSyntaxToken c then "\\" ++ String.singleton c
              else String.singleton c))

/-- The `kb` replacer: looks the binding up in the keybinding service and
falls back to `unassigned` when there is no keybinding or no label. -/
def kb (lookupKeybinding : String → Option (Option String))
    (binding : String) : String :=
  match lookupKeybinding binding with
  | none => unassigned
  | some label => jsOrElse label unassigned

/-- The `kbstyle` replacer: parses the binding, resolves it, and falls back
to `unassigned` when parsing fails, resolution is empty, or the first
resolution has no label. -/
def kbstyle {K : Type} (parse : String → Option K)
    (resolve : K → List (Option String)) (binding : String) : String :=
  match parse binding with
  | none => unassigned
  | some keybinding =>
    match resolve keybinding with
    | [] => unassigned
    | label :: _ => jsOrElse label unassigned

/-- The `kbCode` replacer used for backticked references:
`resolved ? `<code title="..">..</code>` : resolved`. -/
def kbCode (lookupKeybinding : String → Option (Option String))
    (binding : String) : String :=
  let resolved := kb lookupKeybinding binding
  if resolved = "" then resolved
  else "<code title=\"" ++ binding ++ "\">" ++ escapeMdHtml resolved ++ "</code>"

def kbstyleCode {K : Type} (parse : String → Option K)
    (resolve : K → List (Option String)) (binding : String) : String :=
  let resolved := kbstyle parse resolve binding
  if resolved = "" then resolved
  else "<code title=\"" ++ binding ++ "\">" ++ escapeMdHtml resolved ++ "</code>"

/-- One token of the release-notes text, as carved up by the four regexes of
`patchKeybindings`: a literal fragment, or one of the reference shapes
(backticked or plain, `kb(...)` or `kbstyle(...)`). -/
inductive KbToken
  | plain (s : String)
  | kbTick (binding : String)
  | kbstyleTick (binding : String)
  | kbRef (binding : String)
  | kbstyleRef (binding : String)
deriving Repr, DecidableEq

/-- Substitution applied by `patchKeybindings` to one token. -/
def substToken {K : Type} (lookupKeybinding : String → Option (Option String))
    (parse : String → Option K) (resolve : K → List (Option String)) :
    KbToken → String
  | KbToken.plain s => s
  | KbToken.kbTick b => kbCode lookupKeybinding b
  | KbToken.kbstyleTick b => kbstyleCode parse resolve b
  | KbToken.kbRef b => escapeMarkdownSyntaxTokens (kb lookupKeybinding b)
  | KbToken.kbstyleRef b => escapeMarkdownSyntaxTokens (kbstyle parse resolve b)

/-- The whole `patchKeybindings` transformation over the tokenised text. -/
def patchKeybindings {K : Type}
    (lookupKeybinding : String → Option (Option String))
    (parse : String → Option K) (resolve : K → List (Option String))
    (toks : List KbToken) : String :=
  String.join (toks.map (substToken lookupKeybinding parse resolve))

/-- A reference whose keybinding cannot be looked up (`kb` forms), or cannot
be parsed or resolved (`kbstyle` forms). -/
def unresolvable {K : Type} (lookupKeybinding : String → Option (Option String))
    (parse : String → Option K) (resolve : K → List (Option String)) :
    KbToken → Bool
  | KbToken.plain _ => false
  | KbToken.kbTick b => (lookupKeybinding b).isNone
  | KbToken.kbRef b => (lookupKeybinding b).isNone
  | KbToken.kbstyleTick b =>
    match parse b with
    | none => true
    | some k => (resolve k).isEmpty
  | KbToken.kbstyleRef b =>
    match parse b with
    | none => true
    | some k => (resolve k).isEmpty

def bindingOf : KbToken → Option String
  | KbToken.plain _ => none
  | KbToken.kbTick b => some b
  | KbToken.kbstyleTick b => some b
  | KbToken.kbRef b => some b
  | KbToken.kbstyleRef b => some b

end PatchKb

namespace WebviewHtml

/-! ## The html message case of the webview preload script

For an `html` message the enqueued action awaits the renderer and the
required kernel preloads with every rejection mapped to its error
(`p?.catch(err => err)`), then builds the output node.  The DOM node is
embedded as the fields the handler writes; `renderCell` is the call into the
renderer api, which may throw. -/

inductive PreloadResult
  | loaded
  | err (message : String)
deriving Repr, DecidableEq

def PreloadResult.isErr : PreloadResult → Bool
  | PreloadResult.err _ => true
  | PreloadResult.loaded => false

structure OutputNode where
  text : String
  items : List String
  innerHtml : Option String
  rendered : Bool
deriving Repr, DecidableEq

def emptyNode : OutputNode :=
  { text := "", items := [], innerHtml := none, rendered := false }

/-- The `showPreloadErrors` helper: sets the node text and appends one list
item per error message. -/
def showPreloadErrors (messages : List String) : OutputNode :=
  { text := "Error loading preloads:", items := messages, innerHtml := none,
    rendered := false }

/-- Output payload kind: `RenderOutputType.Html` carries raw html, otherwise
the content is rendered through the renderer api. -/
inductive RenderContent
  | html (htmlContent : String)
  | extensionOutput (mimeType : String)
deriving Repr, DecidableEq

def RenderContent.isHtml : RenderContent → Bool
  | RenderContent.html _ => true
  | RenderContent.extensionOutput _ => false

def errorMessages (rs : List PreloadResult) : List String :=
  rs.filterMap (fun r =>
    match r with
    | PreloadResult.err m => some m
    | PreloadResult.loaded => none)

/-- The output-node construction of the `case 'html'` action after the
preloads settled: raw html is assigned directly; otherwise preload errors are
shown via `showPreloadErrors`; otherwise `rendererApi.renderCell` runs inside
`try`/`catch` with the catch showing the thrown error.  The whole action
returns a node (it never rethrows); a cancelled action returns before
touching the DOM. -/
def handleHtmlOutput (content : RenderContent)
    (preloadsAndErrors : List PreloadResult)
    (renderCell : Except String Unit) (cancelled : Bool) : Option OutputNode :=
  if cancelled then none
  else some
    (match content with
     | RenderContent.html htmlContent =>
       { emptyNode with innerHtml := some htmlContent }
     | RenderContent.extensionOutput _ =>
       if preloadsAndErrors.any PreloadResult.isErr then
         showPreloadErrors (errorMessages preloadsAndErrors)
       else
         match renderCell with
         | Except.ok _ => { emptyNode with rendered := true }
         | Except.error e => showPreloadErrors [e])

end WebviewHtml

namespace EditorOverrideSvc

/-! ## EditorOverrideService (editorOverrideService.ts)

Resources and glob patterns are embedded as strings; the glob matcher
`globMatchesResource` lives outside `src/` and therefore enters every
definition as a parameter `globMatches`.  The `editors associations` user
setting enters as its `Object.entries` list `raw` (pattern, view type).
The contribution-point map is an insertion-ordered association list built by
`registerContributionPoint`. -/

/-- The `ContributedEditorPriority` enumeration. -/
inductive Priority
  | exclusive
  | defaultPriority
  | builtin
  | optionPriority
deriving Repr, DecidableEq

/-- Modelled from the spec: `priorityToRank` of the common
`editorOverrideService` module is not under `src/`.  The spec ranks
priorities with `exclusive` above `default` above `builtin` above `option`;
the embedded ranks realise exactly that strict ordering. -/
def priorityToRank : Priority → Nat
  | Priority.exclusive => 5
  | Priority.defaultPriority => 4
  | Priority.builtin => 3
  | Priority.optionPriority => 1

/-- An editor input: a plain input with an optional resource and view type,
or a diff input with modified and original resources. -/
inductive EditorInput
  | normal (resource : Option String) (viewType : Option String)
  | diff (modified : Option String) (original : Option String)
         (viewType : Option String)
deriving Repr, DecidableEq

structure ContributedEditorInfo where
  id : String
  priority : Priority
  describes : EditorInput → Bool

structure ContributionPointOptions where
  canHandleDiff : Option Bool := none
  canSupportResource : Option (String → Bool) := none

/-- A registered contribution point.  The editor-input factory functions are
irrelevant to the studied properties and enter `resolveEditorOverride` as the
`doOverride` parameter instead. -/
structure ContributionPoint where
  globPattern : String
  editorInfo : ContributedEditorInfo
  options : Option ContributionPointOptions := none

abbrev CMap := List (String × List ContributionPoint)

/-- The map update of `registerContributionPoint`: a fresh glob pattern gets
a fresh key (JavaScript maps append new keys in insertion order), an existing
one has the contribution pushed onto its array. -/
def registerContributionPoint (m : CMap) (pt : ContributionPoint) : CMap :=
  match lookupKey m pt.globPattern with
  | none => m ++ [(pt.globPattern, [pt])]
  | some l => setKey m pt.globPattern (l ++ [pt])

def registerAll (pts : List ContributionPoint) : CMap :=
  pts.foldl registerContributionPoint []

/-- The `_allContributions` getter: `flatten(Array.from(values))`. -/
def allContributions (m : CMap) : List ContributionPoint :=
  (m.map Prod.snd).flatten

structure EditorAssociation where
  filenamePattern : String
  viewType : String
deriving Repr, DecidableEq

/-- `getAllUserAssociations`: one association per entry of the setting. -/
def getAllUserAssociations (raw : List (String × String)) :
    List EditorAssociation :=
  raw.map (fun kv => { filenamePattern := kv.1, viewType := kv.2 })

/-- `getAssociationsForResource`: the associations whose (truthy) pattern
glob-matches the resource and whose view type names a registered
contribution. -/
def getAssociationsForResource (globMatches : String → String → Bool)
    (raw : List (String × String)) (m : CMap) (resource : String) :
    List EditorAssociation :=
  (((getAllUserAssociations raw).filter
      (fun a => a.filenamePattern != "" && globMatches a.filenamePattern resource)).filter
    (fun a => (allContributions m).any (fun c => c.editorInfo.id == a.viewType)))

/-- The collection loop of `findMatchingContributions`: every contribution of
every key is kept when a user association for the resource names its id or
its key glob-matches the resource. -/
def collectMatching (globMatches : String → String → Bool)
    (userSettings : List EditorAssociation) (resource : String) :
    CMap → List ContributionPoint
  | [] => []
  | (key, pts) :: rest =>
    pts.filter
      (fun pt =>
        (userSettings.find? (fun s => s.viewType == pt.editorInfo.id)).isSome
          || globMatches key resource)
      ++ collectMatching globMatches userSettings resource rest

/-- `findMatchingContributions`: collect, then stable-sort with the
JavaScript comparator `priorityToRank(b) - priorityToRank(a)`
(`Array.prototype.sort` is stable, and a stable sort is unique, so any stable
sort embeds it; insertion sort is stable). -/
def findMatchingContributions (globMatches : String → String → Bool)
    (raw : List (String × String)) (m : CMap) (resource : String) :
    List ContributionPoint :=
  (collectMatching globMatches
      (getAssociationsForResource globMatches raw m resource) resource m).insertionSort
    (fun a b => priorityToRank b.editorInfo.priority ≤
      priorityToRank a.editorInfo.priority)

/-- `getEditorIds`: the ids of the matching contributions. -/
def getEditorIds (globMatches : String → String → Bool)
    (raw : List (String × String)) (m : CMap) (resource : String) :
    List String :=
  (findMatchingContributions globMatches raw m resource).map
    (fun c => c.editorInfo.id)

/-- The inner `findMatchingContribPoint` closure of `getContributionPoint`:
first contribution with the given view type, additionally consulting
`canSupportResource` when present. -/
def findMatchingContribPoint (resource : String)
    (contributionPoints : List ContributionPoint) (viewType : String) :
    Option ContributionPoint :=
  contributionPoints.find? (fun contribPoint =>
    match contribPoint.options with
    | some o =>
      match o.canSupportResource with
      | some canSupport => contribPoint.editorInfo.id == viewType && canSupport resource
      | none => contribPoint.editorInfo.id == viewType
    | none => contribPoint.editorInfo.id == viewType)

/-- The `possibleContributionPoints` filter: at least builtin rank and not
the default text editor id. -/
def possibleContributionPoints (defaultEditorId : String)
    (contributionPoints : List ContributionPoint) : List ContributionPoint :=
  contributionPoints.filter (fun contribPoint =>
    decide (priorityToRank Priority.builtin ≤ priorityToRank contribPoint.editorInfo.priority)
      && contribPoint.editorInfo.id != defaultEditorId)

/-- JavaScript `x || y` over possibly-undefined strings. -/
def jsOrUndef (x : Option String) (y : Option String) : Option String :=
  match x with
  | some s => if s = "" then y else some s
  | none => y

/-- The `selectedViewType` computation of `getContributionPoint` in the
no-override path: the head of `possibleContributionPoints` when it is
exclusive, else the first user association view type, falling back (through
JavaScript `||`) to the head of `possibleContributionPoints`. -/
def selectedViewTypeFor (globMatches : String → String → Bool)
    (raw : List (String × String)) (m : CMap) (resource : String)
    (defaultEditorId : String) : Option String :=
  let contributionPoints := findMatchingContributions globMatches raw m resource
  let associationsFromSetting := getAssociationsForResource globMatches raw m resource
  let possible := possibleContributionPoints defaultEditorId contributionPoints
  if (possible.head?.map (fun c => c.editorInfo.priority)) = some Priority.exclusive
  then possible.head?.map (fun c => c.editorInfo.id)
  else
    jsOrUndef (associationsFromSetting.head?.map (fun a => a.viewType))
      (possible.head?.map (fun c => c.editorInfo.id))

/-- `getContributionPoint`: with an override string the contribution is
looked up among all contributions; otherwise the selected view type is looked
up among the matching ones, with the conflicting-default flag as in the
source. -/
def getContributionPoint (globMatches : String → String → Bool)
    (raw : List (String × String)) (m : CMap) (resource : String)
    (overrideArg : Option String) (defaultEditorId : String) :
    Option ContributionPoint × Bool :=
  match overrideArg with
  | some viewType =>
    (findMatchingContribPoint resource (allContributions m) viewType, false)
  | none =>
    let contributionPoints := findMatchingContributions globMatches raw m resource
    let associationsFromSetting := getAssociationsForResource globMatches raw m resource
    let possible := possibleContributionPoints defaultEditorId contributionPoints
    let selected := selectedViewTypeFor globMatches raw m resource defaultEditorId
    (match selected with
     | some viewType => findMatchingContribPoint resource contributionPoints viewType
     | none => none,
     associationsFromSetting.isEmpty && decide (1 < possible.length))

/-- The `options?.override` value handed to `resolveEditorOverride`. -/
inductive OverrideSetting
  | undef
  | disabled
  | pick
  | viewId (viewType : String)
deriving Repr, DecidableEq

structure ResolveOptions where
  override : OverrideSetting := OverrideSetting.undef
deriving Repr, DecidableEq

def EditorInput.resourceOf : EditorInput → Option String
  | EditorInput.normal r _ => r
  | EditorInput.diff m _ _ => m

def EditorInput.viewTypeOf : EditorInput → Option String
  | EditorInput.normal _ v => v
  | EditorInput.diff _ _ v => v

def EditorInput.isDiff : EditorInput → Bool
  | EditorInput.diff _ _ _ => true
  | EditorInput.normal _ _ => false

/-- `resolveEditorOverride`.  The waits on the extension host have no effect
on the studied state; the quick pick and the editor-input factories are
host-side effects and enter as the `pick` and `doOverride` parameters
(`pick = none` is a cancelled picker).  A thrown error is the `Except.error`
case; `Except.ok none` is a `return undefined`/`return`; `Except.ok (some _)`
carries the returned editor and group. -/
def resolveEditorOverride {G : Type} (globMatches : String → String → Bool)
    (raw : List (String × String)) (m : CMap) (defaultEditorId : String)
    (pick : Option (ResolveOptions × Option G))
    (doOverride : ContributionPoint → EditorInput → G → Option EditorInput)
    (editor : EditorInput) (options : Option ResolveOptions) (group : G) :
    Except String (Option (EditorInput × G)) :=
  if (options.map (fun o => o.override)) = some OverrideSetting.disabled then
    Except.error "Calling resolve editor override when override is explicitly disabled!"
  else
    match editor with
    | EditorInput.diff none _ _ => Except.ok (some (editor, group))
    | EditorInput.diff _ none _ => Except.ok (some (editor, group))
    | EditorInput.normal none _ => Except.ok (some (editor, group))
    | _ =>
      let override0 :=
        match options.map (fun o => o.override) with
        | some (OverrideSetting.viewId s) => some s
        | _ => none
      let override1 :=
        match override0 with
        | some s => some s
        | none => editor.viewTypeOf
      let pickStep :
          Option (Option String × G) :=
        if (options.map (fun o => o.override)) = some OverrideSetting.pick then
          match pick with
          | none => none
          | some (pickedOptions, pickedGroup) =>
            some
              ((match pickedOptions.override with
                | OverrideSetting.viewId s => some s
                | _ => none),
               pickedGroup.getD group)
        else some (override1, group)
      match pickStep with
      | none => Except.ok none
      | some (override2, group2) =>
        match getContributionPoint globMatches raw m
            ((editor.resourceOf).getD "") override2 defaultEditorId with
        | (none, _) => Except.ok (some (editor, group2))
        | (some selectedContribution, conflictingDefault) =>
          let handlesDiff := (selectedContribution.options.bind
            (fun o => o.canHandleDiff))
          if editor.isDiff && handlesDiff = some false then
            Except.ok (some (editor, group2))
          else if selectedContribution.editorInfo.describes editor then
            Except.ok none
          else
            match doOverride selectedContribution editor group2 with
            | some input =>
              let _ := conflictingDefault
              Except.ok (some (input, group2))
            | none => Except.ok none

/-- Stated from the claim of `getEditorIds`: a registered contribution point
matches when its glob pattern matches the resource, or a user association
matching the resource names its id. -/
def claimMatches (globMatches : String → String → Bool)
    (raw : List (String × String)) (resource : String)
    (pt : ContributionPoint) : Bool :=
  globMatches pt.globPattern resource
    || (getAllUserAssociations raw).any
        (fun a => globMatches a.filenamePattern resource
          && a.viewType == pt.editorInfo.id)

/-- Stated from the claim of `getContributionPoint`: its precedence, read
literally.  The highest-ranked matching contribution (first of maximal rank)
is selected when exclusive; otherwise the first user-setting association
matching the resource; otherwise the highest-ranked matching contribution of
at least builtin priority whose id is not the default text editor id. -/
def firstMaxRank : List ContributionPoint → Option ContributionPoint
  | [] => none
  | pt :: rest =>
    match firstMaxRank rest with
    | none => some pt
    | some best =>
      if priorityToRank best.editorInfo.priority > priorityToRank pt.editorInfo.priority
      then some best
      else some pt

def claimSelectedViewType (globMatches : String → String → Bool)
    (raw : List (String × String)) (pts : List ContributionPoint)
    (resource : String) (defaultEditorId : String) : Option String :=
  let matching := pts.filter (claimMatches globMatches raw resource)
  match firstMaxRank matching with
  | some top =>
    if top.editorInfo.priority = Priority.exclusive then some top.editorInfo.id
    else
      match ((getAllUserAssociations raw).filter
          (fun a => globMatches a.filenamePattern resource)).head? with
      | some a => some a.viewType
      | none =>
        (firstMaxRank (matching.filter (fun c =>
          decide (priorityToRank Priority.builtin ≤ priorityToRank c.editorInfo.priority)
            && c.editorInfo.id != defaultEditorId))).map (fun c => c.editorInfo.id)
  | none =>
    match ((getAllUserAssociations raw).filter
        (fun a => globMatches a.filenamePattern resource)).head? with
    | some a => some a.viewType
    | none => none

/-- Concrete sample registrations and settings used by closed evaluations. -/
def sampleGlobMatches : String → String → Bool := fun p r => p == r

def sampleNotebookContribution : ContributionPoint :=
  { globPattern := "a.ipynb",
    editorInfo :=
      { id := "notebook",
        priority := Priority.defaultPriority,
        describes := fun _ => false } }

def sampleTextContribution : ContributionPoint :=
  { globPattern := "b.txt",
    editorInfo :=
      { id := "text",
        priority := Priority.builtin,
        describes := fun _ => false } }

def samplePoints : List ContributionPoint :=
  [sampleNotebookContribution, sampleTextContribution]

def sampleRaw : List (String × String) := [("a.ipynb", "text")]

def exclusiveDefaultContribution : ContributionPoint :=
  { globPattern := "a.ipynb",
    editorInfo :=
      { id := "default",
        priority := Priority.exclusive,
        describes := fun _ => false } }

def builtinOtherContribution : ContributionPoint :=
  { globPattern := "a.ipynb",
    editorInfo :=
      { id := "other",
        priority := Priority.builtin,
        describes := fun _ => false } }

def emptyIdContribution : ContributionPoint :=
  { globPattern := "zzz",
    editorInfo :=
      { id := "",
        priority := Priority.optionPriority,
        describes := fun _ => false } }

def ghostAssociationRaw : List (String × String) := [("a.ipynb", "ghost")]

def emptyAssociationRaw : List (String × String) := [("a.ipynb", "")]

end EditorOverrideSvc

namespace OutputsQueue

/-! ## The `outputs` queue of the webview preload script

`outputs` keeps `Map<string, { cancelled: boolean; queue: Promise<unknown> }>`.
`enqueue` runs the action synchronously inside a fresh record when the output
id is unknown, and otherwise chains `record.queue.then(r => !record.cancelled
&& action(record))`; `cancelOutput`/`cancelAll` set the `cancelled` flag and
drop the record from the map, so later enqueues start a fresh record while
the chained continuations of the old one still observe its flag.

The embedding makes the promise chains explicit.  Actions are numbered in
enqueue order (`nextAct`).  Every record ever created stays in `recs` (the
closures keep it alive after the map entry is deleted); `index` is the map.
A record holds the finished prefix of its chain (`doneActs`), the action
currently running, and the queued continuations (`pending`).  The scheduler
nondeterminism of the event loop is a command list: `finish` settles the
promise of the running action (`ok := false` is a rejection, after which the
`.then` continuations of that chain never fire), `next` fires the next
continuation, which skips the action when the record is cancelled.  Events
record what is observable: enqueues, starts, skips, completions and
cancellations. -/

structure QRec where
  oid : String
  cancelled : Bool
  rejected : Bool
  running : Option Nat
  pending : List Nat
  doneActs : List Nat
deriving Repr, DecidableEq

/-- Actions of a record in enqueue order: finished prefix, then the running
action, then the queued continuations. -/
def QRec.acts (r : QRec) : List Nat :=
  r.doneActs ++ r.running.toList ++ r.pending

inductive Ev
  | enq (oid : String) (a : Nat)
  | start (a : Nat)
  | skip (a : Nat)
  | complete (a : Nat) (ok : Bool)
  | cancelOutput (oid : String)
  | cancelAll
deriving Repr, DecidableEq

/-- Action ids an event mentions. -/
def Ev.acts : Ev → List Nat
  | Ev.enq _ a => [a]
  | Ev.start a => [a]
  | Ev.skip a => [a]
  | Ev.complete a _ => [a]
  | Ev.cancelOutput _ => []
  | Ev.cancelAll => []

structure QState where
  recs : List QRec
  index : List (String × Nat)
  nextAct : Nat
  hist : List Ev
deriving Repr, DecidableEq

def initQ : QState := ⟨[], [], 0, []⟩

def modifyAt (f : QRec → QRec) : List QRec → Nat → List QRec
  | [], _ => []
  | r :: rest, 0 => f r :: rest
  | r :: rest, n + 1 => r :: modifyAt f rest n

/-- `outputs.enqueue(outputId, action)`: no record means a fresh record whose
first action starts synchronously (`new Promise(r => r(action({cancelled:
false})))`); an existing record has the action chained onto its queue. -/
def enqueue (oid : String) (s : QState) : QState :=
  let a := s.nextAct
  match lookupKey s.index oid with
  | none =>
    { recs := s.recs ++
        [{ oid := oid, cancelled := false, rejected := false,
           running := some a, pending := [], doneActs := [] }],
      index := s.index ++ [(oid, s.recs.length)],
      nextAct := a + 1,
      hist := s.hist ++ [Ev.enq oid a, Ev.start a] }
  | some ri =>
    { recs := modifyAt (fun r => { r with pending := r.pending ++ [a] }) s.recs ri,
      index := s.index,
      nextAct := a + 1,
      hist := s.hist ++ [Ev.enq oid a] }

/-- The promise of the running action of record `ri` settles; a rejection
leaves the whole chain rejected, so its remaining continuations never fire. -/
def finish (ri : Nat) (ok : Bool) (s : QState) : QState :=
  match s.recs.get? ri with
  | some r =>
    match r.running with
    | some a =>
      { s with
        recs := modifyAt
          (fun r => { r with
              running := none,
              rejected := (r.rejected || !ok),
              doneActs := r.doneActs ++ [a] }) s.recs ri,
        hist := s.hist ++ [Ev.complete a ok] }
    | none => s
  | none => s

/-- The next continuation `r => !record.cancelled && action(record)` of
record `ri` fires: with the record cancelled the action is skipped (the
continuation resolves to `false` at once), otherwise the action starts. -/
def next (ri : Nat) (s : QState) : QState :=
  match s.recs.get? ri with
  | some r =>
    if r.running = none ∧ r.rejected = false then
      match r.pending with
      | [] => s
      | a :: rest =>
        if r.cancelled then
          { s with
            recs := modifyAt
              (fun r => { r with pending := rest, doneActs := r.doneActs ++ [a] })
              s.recs ri,
            hist := s.hist ++ [Ev.skip a] }
        else
          { s with
            recs := modifyAt
              (fun r => { r with running := some a, pending := rest }) s.recs ri,
            hist := s.hist ++ [Ev.start a] }
    else s
  | none => s

/-- `outputs.cancelOutput(outputId)`: flag the mapped record as cancelled and
drop it from the map. -/
def cancelOutput (oid : String) (s : QState) : QState :=
  match lookupKey s.index oid with
  | some ri =>
    { s with
      recs := modifyAt (fun r => { r with cancelled := true }) s.recs ri,
      index := removeKey s.index oid,
      hist := s.hist ++ [Ev.cancelOutput oid] }
  | none => { s with hist := s.hist ++ [Ev.cancelOutput oid] }

/-- `outputs.cancelAll()`: flag every mapped record and clear the map. -/
def cancelAll (s : QState) : QState :=
  { s with
    recs := s.index.foldl
      (fun rs kv => modifyAt (fun r => { r with cancelled := true }) rs kv.2)
      s.recs,
    index := [],
    hist := s.hist ++ [Ev.cancelAll] }

/-- One scheduler or client step. -/
inductive Cmd
  | enqueue (oid : String)
  | finish (ri : Nat) (ok : Bool)
  | next (ri : Nat)
  | cancelOutput (oid : String)
  | cancelAll
deriving Repr, DecidableEq

def step (s : QState) : Cmd → QState
  | Cmd.enqueue oid => enqueue oid s
  | Cmd.finish ri ok => finish ri ok s
  | Cmd.next ri => next ri s
  | Cmd.cancelOutput oid => cancelOutput oid s
  | Cmd.cancelAll => cancelAll s

def run (cmds : List Cmd) : QState := cmds.foldl step initQ

/-- Inductive invariant of the queue system, tying the record structure to
the event history.  `acts` of a record lists its actions in enqueue order;
flags are monotone; the map points exactly at the non-cancelled records; the
history events of an action agree with its position in its record; a start
event can only follow the completion or skip of every earlier action of the
same record; and once an output id is cancelled, its not-yet-started actions
can never start. -/
structure QInv (s : QState) : Prop where
  actsLt : ∀ r ∈ s.recs, ∀ a ∈ r.acts, a < s.nextAct
  histLt : ∀ e ∈ s.hist, ∀ a ∈ e.acts, a < s.nextAct
  actsSorted : ∀ r ∈ s.recs, List.Pairwise (fun x y => x < y) r.acts
  actsUnique : ∀ ri rj r r2, s.recs.get? ri = some r → s.recs.get? rj = some r2 →
    ∀ x, x ∈ r.acts → x ∈ r2.acts → ri = rj
  enqOwner : ∀ oid a, Ev.enq oid a ∈ s.hist →
    ∃ ri r, s.recs.get? ri = some r ∧ r.oid = oid ∧ a ∈ r.acts
  mapsTo : ∀ oid ri, lookupKey s.index oid = some ri →
    ∃ r, s.recs.get? ri = some r ∧ r.oid = oid ∧ r.cancelled = false
  inMap : ∀ ri r, s.recs.get? ri = some r → r.cancelled = false →
    lookupKey s.index r.oid = some ri
  sameOid : ∀ ri rj r r2, ri < rj → s.recs.get? ri = some r →
    s.recs.get? rj = some r2 → r.oid = r2.oid →
    r.cancelled = true ∧ ∀ x ∈ r.acts, ∀ y ∈ r2.acts, x < y
  doneEv : ∀ r ∈ s.recs, ∀ x ∈ r.doneActs,
    (∃ ok, Ev.complete x ok ∈ s.hist) ∨ Ev.skip x ∈ s.hist
  runningEv : ∀ r ∈ s.recs, ∀ x, r.running = some x → Ev.start x ∈ s.hist
  skipCancelled : ∀ x, Ev.skip x ∈ s.hist →
    ∀ ri r, s.recs.get? ri = some r → x ∈ r.acts → r.cancelled = true
  completeStarted : ∀ x ok, Ev.complete x ok ∈ s.hist → Ev.start x ∈ s.hist
  startOrder : ∀ p b, s.hist.get? p = some (Ev.start b) →
    ∀ ri r, s.recs.get? ri = some r → b ∈ r.acts →
    ∀ x ∈ r.acts, x < b →
      ∃ i < p, (∃ ok, s.hist.get? i = some (Ev.complete x ok)) ∨
        s.hist.get? i = some (Ev.skip x)
  enqIncreasing : ∀ p q oid oid2 x y, p < q →
    s.hist.get? p = some (Ev.enq oid x) →
    s.hist.get? q = some (Ev.enq oid2 y) → x < y
  cancelSafety : ∀ p oid a,
    (s.hist.get? p = some (Ev.cancelOutput oid) ∨
      s.hist.get? p = some Ev.cancelAll) →
    (∃ q < p, s.hist.get? q = some (Ev.enq oid a)) →
    (∀ i < p, s.hist.get? i ≠ some (Ev.start a)) →
    (∀ ri r, s.recs.get? ri = some r → a ∈ r.acts → r.cancelled = true) ∧
    (∀ j, s.hist.get? j ≠ some (Ev.start a))

end OutputsQueue


/-! ## Association-list lemmas -/

theorem lookupKey_append_of_none {α : Type} {l₁ : List (String × α)}
    (l₂ : List (String × α)) {k : String} (h : lookupKey l₁ k = none) :
    lookupKey (l₁ ++ l₂) k = lookupKey l₂ k := by
  induction l₁ with
  | nil => simp
  | cons kv rest ih =>
    simp only [lookupKey] at h ⊢
    by_cases hk : kv.1 = k
    · simp [hk] at h
    · rw [if_neg hk] at h ⊢
      exact ih h

theorem lookupKey_singleton {α : Type} (k key : String) (v : α) :
    lookupKey [(k, v)] key = if k = key then some v else none := by
  simp [lookupKey]

theorem lookupKey_removeKey_self {α : Type} (l : List (String × α)) (k : String) :
    lookupKey (removeKey l k) k = none := by
  induction l with
  | nil => simp [removeKey, lookupKey]
  | cons kv rest ih =>
    by_cases hk : kv.1 = k
    · simp [removeKey, hk, ih]
    · simp [removeKey, hk, lookupKey, ih]

theorem lookupKey_removeKey_ne {α : Type} (l : List (String × α)) (k k' : String)
    (h : k' ≠ k) : lookupKey (removeKey l k) k' = lookupKey l k' := by
  induction l with
  | nil => simp [removeKey]
  | cons kv rest ih =>
    by_cases hk : kv.1 = k
    · have hne : kv.1 ≠ k' := by
        rw [hk]
        exact fun hc => h hc.symm
      simp [removeKey, hk, lookupKey, hne, Ne.symm h, ih]
    · simp [removeKey, hk, lookupKey, ih]

theorem setAt_get?_self {α : Type} (l : List α) (n : Nat) (x : α)
    (h : n < l.length) : (setAt l n x).get? n = some x := by
  induction l generalizing n with
  | nil => simp at h
  | cons y rest ih =>
    cases n with
    | zero => simp [setAt]
    | succ m =>
      simp only [setAt, List.get?]
      exact ih m (by simpa using h)

namespace ReleaseNotes

/-! ## Release-notes theorems -/

theorem cacheWF_step (patch : String → String) (st : CacheState) (op : CacheOp)
    (hwf : ∀ v pid, lookupKey st.cache v = some pid → (versionLabelOf v).isSome) :
    ∀ v pid, lookupKey (cacheStep patch st op).cache v = some pid →
      (versionLabelOf v).isSome := by
  intro v pid h
  cases op with
  | load w =>
    simp only [cacheStep, loadReleaseNotes] at h
    cases hw : versionLabelOf w with
    | none => rw [hw] at h; exact hwf v pid h
    | some label =>
      rw [hw] at h
      simp only at h
      cases hc : lookupKey st.cache w with
      | some q => rw [hc] at h; exact hwf v pid h
      | none =>
        rw [hc] at h
        simp only at h
        cases hv : lookupKey st.cache v with
        | some q => exact hwf v q hv
        | none =>
          rw [lookupKey_append_of_none _ hv, lookupKey_singleton] at h
          by_cases hwv : w = v
          · subst hwv; simp [hw]
          · simp [hwv] at h
  | complete w outcome =>
    simp only [cacheStep, settle] at h
    cases hc : lookupKey st.cache w with
    | none => rw [hc] at h; exact hwf v pid h
    | some q =>
      rw [hc] at h
      simp only at h
      by_cases hvw : v = w
      · subst hvw
        split at h
        · split at h
          · rw [lookupKey_removeKey_self] at h; exact absurd h (by simp)
          · split at h
            · exact hwf v pid h
            · rw [lookupKey_removeKey_self] at h; exact absurd h (by simp)
        · exact hwf v pid h
      · split at h
        · split at h
          · rw [lookupKey_removeKey_ne _ _ _ hvw] at h; exact hwf v pid h
          · split at h
            · exact hwf v pid h
            · rw [lookupKey_removeKey_ne _ _ _ hvw] at h; exact hwf v pid h
        · exact hwf v pid h

theorem cacheWF_exec (patch : String → String) (ops : List CacheOp) :
    ∀ v pid, lookupKey (execCache patch ops).cache v = some pid →
      (versionLabelOf v).isSome := by
  suffices h : ∀ st, (∀ v pid, lookupKey st.cache v = some pid → (versionLabelOf v).isSome) →
      ∀ v pid, lookupKey (ops.foldl (cacheStep patch) st).cache v = some pid →
        (versionLabelOf v).isSome by
    exact h initCache (by intro v pid hc; simp [initCache, lookupKey] at hc)
  induction ops with
  | nil => intro st hst; simpa using hst
  | cons op rest ih =>
    intro st hst
    exact ih (cacheStep patch st op) (cacheWF_step patch st op hst)

/-- Claim C3: with a promise already cached for the version, in any reachable
state, `loadReleaseNotes` returns that same cached promise and leaves the
state — in particular the request log — untouched, so no second network
request is issued for the version. -/
theorem loadReleaseNotes_cached (patch : String → String) (ops : List CacheOp)
    (version : String) (pid : Nat)
    (h : lookupKey (execCache patch ops).cache version = some pid) :
    loadReleaseNotes version (execCache patch ops) =
      (execCache patch ops, Except.ok pid) := by
  have hv := cacheWF_exec patch ops version pid h
  cases hl : versionLabelOf version with
  | none => rw [hl] at hv; simp at hv
  | some label => simp [loadReleaseNotes, hl, h]

theorem loadReleaseNotes_cached_witness :
    lookupKey (execCache id [CacheOp.load "1.53.2"]).cache "1.53.2" = some 0 ∧
    loadReleaseNotes "1.53.2" (execCache id [CacheOp.load "1.53.2"]) =
      (execCache id [CacheOp.load "1.53.2"], Except.ok 0) :=
  ⟨by decide, loadReleaseNotes_cached id [CacheOp.load "1.53.2"] "1.53.2" 0 (by decide)⟩

/-- Claim C6: when the fetch outcome is a network failure or a body that does
not start with `#` followed by whitespace, the cached promise rejects, the
cache entry for the version is removed, and a subsequent `loadReleaseNotes`
for the same version issues a fresh network request. -/
theorem settle_failure_rejects (patch : String → String) (ops : List CacheOp)
    (version : String) (pid : Nat) (outcome : FetchOutcome)
    (hc : lookupKey (execCache patch ops).cache version = some pid)
    (hp : (execCache patch ops).promises.get? pid = some PromState.pending)
    (hbad : badOutcome outcome = true) :
    (∃ msg, (settle patch version outcome (execCache patch ops)).promises.get? pid =
        some (PromState.rejected msg)) ∧
    lookupKey (settle patch version outcome (execCache patch ops)).cache version = none ∧
    ∃ label, versionLabelOf version = some label ∧
      (loadReleaseNotes version
          (settle patch version outcome (execCache patch ops))).1.requests =
        (settle patch version outcome (execCache patch ops)).requests ++
          [releaseNotesUrl label] := by
  have hv := cacheWF_exec patch ops version pid hc
  obtain ⟨label, hl⟩ : ∃ label, versionLabelOf version = some label := by
    cases hx : versionLabelOf version with
    | none => rw [hx] at hv; simp at hv
    | some l => exact ⟨l, rfl⟩
  have hlen : pid < (execCache patch ops).promises.length :=
    List.get?_eq_some.mp hp |>.1
  have hset : ∀ ps : PromState,
      (setAt (execCache patch ops).promises pid ps).get? pid = some ps :=
    fun ps => setAt_get?_self _ _ _ hlen
  have hrem : lookupKey (removeKey (execCache patch ops).cache version) version = none :=
    lookupKey_removeKey_self _ _
  cases outcome with
  | failure =>
    have hst : settle patch version FetchOutcome.failure (execCache patch ops) =
        { execCache patch ops with
          promises := setAt (execCache patch ops).promises pid
            (PromState.rejected "Failed to fetch release notes"),
          cache := removeKey (execCache patch ops).cache version } := by
      simp only [settle, hc]
      rw [if_pos hp]
    refine ⟨⟨"Failed to fetch release notes", ?_⟩, ?_, label, hl, ?_⟩
    · rw [hst]; exact hset _
    · rw [hst]; exact hrem
    · rw [hst]
      simp only [loadReleaseNotes, hl]
      rw [hrem]
  | fetched text =>
    have hval : ¬(validReleaseNotes text = true) := by
      simp only [badOutcome, Bool.not_eq_true'] at hbad
      simp [hbad]
    have hst : settle patch version (FetchOutcome.fetched text) (execCache patch ops) =
        { execCache patch ops with
          promises := setAt (execCache patch ops).promises pid
            (PromState.rejected "Invalid release notes"),
          cache := removeKey (execCache patch ops).cache version } := by
      simp only [settle, hc]
      rw [if_pos hp]
      simp only [if_neg hval]
    refine ⟨⟨"Invalid release notes", ?_⟩, ?_, label, hl, ?_⟩
    · rw [hst]; exact hset _
    · rw [hst]; exact hrem
    · rw [hst]
      simp only [loadReleaseNotes, hl]
      rw [hrem]

theorem settle_failure_rejects_witness :
    (lookupKey (execCache id [CacheOp.load "1.53.2"]).cache "1.53.2" = some 0 ∧
     (execCache id [CacheOp.load "1.53.2"]).promises.get? 0 = some PromState.pending ∧
     badOutcome (FetchOutcome.fetched (some "no heading")) = true) ∧
    ((∃ msg, (settle id "1.53.2" (FetchOutcome.fetched (some "no heading"))
        (execCache id [CacheOp.load "1.53.2"])).promises.get? 0 =
        some (PromState.rejected msg)) ∧
     lookupKey (settle id "1.53.2" (FetchOutcome.fetched (some "no heading"))
        (execCache id [CacheOp.load "1.53.2"])).cache "1.53.2" = none ∧
     ∃ label, versionLabelOf "1.53.2" = some label ∧
       (loadReleaseNotes "1.53.2"
           (settle id "1.53.2" (FetchOutcome.fetched (some "no heading"))
             (execCache id [CacheOp.load "1.53.2"]))).1.requests =
         (settle id "1.53.2" (FetchOutcome.fetched (some "no heading"))
             (execCache id [CacheOp.load "1.53.2"])).requests ++
           [releaseNotesUrl label]) :=
  ⟨⟨by decide, by decide, by decide⟩,
   settle_failure_rejects id [CacheOp.load "1.53.2"] "1.53.2" 0
     (FetchOutcome.fetched (some "no heading")) (by decide) (by decide) (by decide)⟩

/-- Claim C9: `ReleaseNotesManager.show` never takes the network path — the
guard is the constant `false` — so for every version and state it leaves the
state untouched (no request is issued), resolves to `true`, and renders the
fixed built-in January 2021 release-notes markdown. -/
theorem showMethod_builtin (version : String) (st : CacheState) :
    showMethod version st = (st, true, builtinReleaseNotesText) := by
  simp [showMethod, showUsesNetwork]

end ReleaseNotes

namespace PatchKb

/-! ## patchKeybindings theorems -/

theorem foldlAppend_shift (l : List String) (a : String) :
    l.foldl (fun r s => r ++ s) a = a ++ l.foldl (fun r s => r ++ s) "" := by
  induction l generalizing a with
  | nil => simp
  | cons s rest ih =>
    simp only [List.foldl]
    rw [ih (a ++ s), ih ("" ++ s)]
    simp [String.append_assoc]

theorem stringJoin_append (l₁ l₂ : List String) :
    String.join (l₁ ++ l₂) = String.join l₁ ++ String.join l₂ := by
  induction l₁ with
  | nil => simp [String.join]
  | cons s rest ih =>
    simp only [String.join, List.foldl, List.cons_append] at *
    rw [foldlAppend_shift _ ("" ++ s), foldlAppend_shift _ ("" ++ s)]
    simp only [List.append_eq] at *
    rw [ih]
    simp [String.append_assoc]

theorem kb_unresolved (lookupKeybinding : String → Option (Option String))
    (binding : String) (h : (lookupKeybinding binding).isNone = true) :
    kb lookupKeybinding binding = unassigned := by
  simp only [Option.isNone_iff_eq_none] at h
  simp [kb, h]

theorem kbstyle_unresolved {K : Type} (parse : String → Option K)
    (resolve : K → List (Option String)) (binding : String)
    (h : (match parse binding with
          | none => true
          | some k => (resolve k).isEmpty) = true) :
    kbstyle parse resolve binding = unassigned := by
  cases hp : parse binding with
  | none => simp [kbstyle, hp]
  | some k =>
    rw [hp] at h
    simp only [List.isEmpty_iff] at h
    simp [kbstyle, hp, h]

theorem escapeMarkdownSyntaxTokens_unassigned :
    escapeMarkdownSyntaxTokens unassigned = unassigned := by decide

theorem escapeMdHtml_unassigned : escapeMdHtml unassigned = unassigned := by decide

theorem unassigned_ne_empty : unassigned ≠ "" := by decide

/-- Claim C7: a `kb(...)` or `kbstyle(...)` reference whose keybinding cannot
be looked up, parsed, or resolved is replaced — without any error — by the
localized `unassigned` placeholder: bare in the plain forms, wrapped in the
`<code>` tag of the backticked forms. -/
theorem patchKeybindings_unresolved {K : Type}
    (lookupKeybinding : String → Option (Option String))
    (parse : String → Option K) (resolve : K → List (Option String))
    (pre post : List KbToken) (t : KbToken)
    (h : unresolvable lookupKeybinding parse resolve t = true) :
    patchKeybindings lookupKeybinding parse resolve (pre ++ t :: post) =
      patchKeybindings lookupKeybinding parse resolve pre ++
        substToken lookupKeybinding parse resolve t ++
        patchKeybindings lookupKeybinding parse resolve post ∧
    (substToken lookupKeybinding parse resolve t = unassigned ∨
     ∃ b, bindingOf t = some b ∧
       substToken lookupKeybinding parse resolve t =
         "<code title=\"" ++ b ++ "\">" ++ unassigned ++ "</code>") := by
  constructor
  · simp only [patchKeybindings, List.map_append, List.map_cons]
    rw [stringJoin_append]
    have : String.join (substToken lookupKeybinding parse resolve t ::
        post.map (substToken lookupKeybinding parse resolve)) =
        substToken lookupKeybinding parse resolve t ++
          String.join (post.map (substToken lookupKeybinding parse resolve)) := by
      simp only [String.join, List.foldl]
      rw [foldlAppend_shift]
      simp
    rw [this, String.append_assoc]
  · cases t with
    | plain s => simp [unresolvable] at h
    | kbRef b =>
      left
      simp only [substToken]
      rw [kb_unresolved lookupKeybinding b (by simpa [unresolvable] using h)]
      exact escapeMarkdownSyntaxTokens_unassigned
    | kbstyleRef b =>
      left
      simp only [substToken]
      rw [kbstyle_unresolved parse resolve b (by simpa [unresolvable] using h)]
      exact escapeMarkdownSyntaxTokens_unassigned
    | kbTick b =>
      right
      refine ⟨b, rfl, ?_⟩
      simp only [substToken, kbCode]
      rw [kb_unresolved lookupKeybinding b (by simpa [unresolvable] using h)]
      rw [if_neg unassigned_ne_empty, escapeMdHtml_unassigned]
    | kbstyleTick b =>
      right
      refine ⟨b, rfl, ?_⟩
      simp only [substToken, kbstyleCode]
      rw [kbstyle_unresolved parse resolve b (by simpa [unresolvable] using h)]
      rw [if_neg unassigned_ne_empty, escapeMdHtml_unassigned]

theorem patchKeybindings_unresolved_witness :
    (unresolvable (K := Unit) (fun _ => none) (fun _ => none) (fun _ => [])
        (KbToken.kbTick "workbench.action.findInFiles") = true) ∧
    (patchKeybindings (K := Unit) (fun _ => none) (fun _ => none) (fun _ => [])
        ([KbToken.plain "Press "] ++ KbToken.kbTick "workbench.action.findInFiles" ::
          [KbToken.plain " now"]) =
      patchKeybindings (K := Unit) (fun _ => none) (fun _ => none) (fun _ => [])
          [KbToken.plain "Press "] ++
        substToken (K := Unit) (fun _ => none) (fun _ => none) (fun _ => [])
          (KbToken.kbTick "workbench.action.findInFiles") ++
        patchKeybindings (K := Unit) (fun _ => none) (fun _ => none) (fun _ => [])
          [KbToken.plain " now"] ∧
     (substToken (K := Unit) (fun _ => none) (fun _ => none) (fun _ => [])
          (KbToken.kbTick "workbench.action.findInFiles") = unassigned ∨
      ∃ b, bindingOf (KbToken.kbTick "workbench.action.findInFiles") = some b ∧
        substToken (K := Unit) (fun _ => none) (fun _ => none) (fun _ => [])
            (KbToken.kbTick "workbench.action.findInFiles") =
          "<code title=\"" ++ b ++ "\">" ++ unassigned ++ "</code>")) :=
  ⟨by decide,
   patchKeybindings_unresolved (K := Unit) (fun _ => none) (fun _ => none)
     (fun _ => []) [KbToken.plain "Press "] [KbToken.plain " now"]
     (KbToken.kbTick "workbench.action.findInFiles") (by decide)⟩

end PatchKb

namespace WebviewHtml

/-! ## Webview html-handler theorems -/

/-- Counterexample to claim C8 as stated: for a raw-html output
(`RenderOutputType.Html`) the handler assigns the html and ignores renderer
and preload errors entirely, so the error is neither propagated nor displayed
in the output node. -/
theorem handleHtmlOutput_rawHtml_counterexample :
    handleHtmlOutput (RenderContent.html "<b>ok</b>")
        [PreloadResult.err "renderer failed"] (Except.ok ()) false =
      some { text := "", items := [], innerHtml := some "<b>ok</b>",
             rendered := false } ∧
    some { text := "", items := [], innerHtml := some "<b>ok</b>",
           rendered := false } ≠
      some (showPreloadErrors ["renderer failed"]) := by
  constructor
  · rfl
  · decide

/-- Claim C8 amended: for an output that is not of the raw-html kind, a
renderer-load or kernel-preload error makes the handler return a node showing
`Error loading preloads:` with one item per error message, and a throwing
`renderCell` makes it return a node showing that error; in both cases the
handler returns normally instead of propagating. -/
theorem handleHtmlOutput_shows_errors (content : RenderContent)
    (preloads : List PreloadResult) (renderCell : Except String Unit)
    (hn : content.isHtml = false) :
    (preloads.any PreloadResult.isErr = true →
      handleHtmlOutput content preloads renderCell false =
        some (showPreloadErrors (errorMessages preloads))) ∧
    (preloads.any PreloadResult.isErr = false → ∀ e, renderCell = Except.error e →
      handleHtmlOutput content preloads renderCell false =
        some (showPreloadErrors [e])) := by
  cases content with
  | html htmlContent => simp [RenderContent.isHtml] at hn
  | extensionOutput mime =>
    constructor
    · intro herr
      simp [handleHtmlOutput, herr]
    · intro herr e hre
      simp [handleHtmlOutput, herr, hre]

theorem handleHtmlOutput_shows_errors_witness :
    ((RenderContent.extensionOutput "application/json").isHtml = false) ∧
    (([PreloadResult.err "cannot find renderer"].any PreloadResult.isErr = true →
      handleHtmlOutput (RenderContent.extensionOutput "application/json")
          [PreloadResult.err "cannot find renderer"] (Except.ok ()) false =
        some (showPreloadErrors
          (errorMessages [PreloadResult.err "cannot find renderer"]))) ∧
     ([PreloadResult.err "cannot find renderer"].any PreloadResult.isErr = false →
      ∀ e, Except.ok () = Except.error e →
      handleHtmlOutput (RenderContent.extensionOutput "application/json")
          [PreloadResult.err "cannot find renderer"] (Except.ok ()) false =
        some (showPreloadErrors [e]))) :=
  ⟨by decide,
   handleHtmlOutput_shows_errors (RenderContent.extensionOutput "application/json")
     [PreloadResult.err "cannot find renderer"] (Except.ok ()) (by decide)⟩

end WebviewHtml

namespace EditorOverrideSvc

/-! ## resolveEditorOverride theorems -/

/-- Claim C10: for every editor input, group and service configuration,
calling `resolveEditorOverride` with `options.override` equal to
`EditorOverride.DISABLED` throws. -/
theorem resolveEditorOverride_disabled {G : Type}
    (globMatches : String → String → Bool) (raw : List (String × String))
    (m : CMap) (defaultEditorId : String)
    (pick : Option (ResolveOptions × Option G))
    (doOverride : ContributionPoint → EditorInput → G → Option EditorInput)
    (editor : EditorInput) (options : Option ResolveOptions) (group : G)
    (h : options.map (fun o => o.override) = some OverrideSetting.disabled) :
    resolveEditorOverride globMatches raw m defaultEditorId pick doOverride
        editor options group =
      Except.error "Calling resolve editor override when override is explicitly disabled!" := by
  unfold resolveEditorOverride
  rw [if_pos h]

theorem resolveEditorOverride_disabled_witness :
    ((some { override := OverrideSetting.disabled } : Option ResolveOptions).map
        (fun o => o.override) = some OverrideSetting.disabled) ∧
    resolveEditorOverride (G := Unit) (fun _ _ => false) [] [] "default" none
        (fun _ _ _ => none) (EditorInput.normal (some "file.txt") none)
        (some { override := OverrideSetting.disabled }) () =
      Except.error "Calling resolve editor override when override is explicitly disabled!" :=
  ⟨by decide,
   resolveEditorOverride_disabled (G := Unit) (fun _ _ => false) [] [] "default"
     none (fun _ _ _ => none) (EditorInput.normal (some "file.txt") none)
     (some { override := OverrideSetting.disabled }) () (by decide)⟩

end EditorOverrideSvc

namespace EditorOverrideSvc

/-! ## getEditorIds theorems -/

theorem lookupKey_mem {α : Type} {m : List (String × α)} {k : String} {v : α}
    (h : lookupKey m k = some v) : (k, v) ∈ m := by
  induction m with
  | nil => simp [lookupKey] at h
  | cons kv rest ih =>
    obtain ⟨k0, v0⟩ := kv
    simp only [lookupKey] at h
    by_cases hk : k0 = k
    · rw [if_pos hk] at h
      injection h with h
      subst hk
      subst h
      exact List.mem_cons_self _ _
    · rw [if_neg hk] at h
      exact List.mem_cons_of_mem _ (ih h)

theorem mem_setKey {α : Type} {m : List (String × α)} {k : String} {nv : α}
    {kl : String × α} (h : kl ∈ setKey m k nv) : kl ∈ m ∨ kl = (k, nv) := by
  induction m with
  | nil => simp [setKey] at h
  | cons kv rest ih =>
    obtain ⟨k0, v0⟩ := kv
    simp only [setKey] at h
    by_cases hk : k0 = k
    · rw [if_pos hk] at h
      rcases List.mem_cons.mp h with h1 | h1
      · right; exact h1
      · left; exact List.mem_cons_of_mem _ h1
    · rw [if_neg hk] at h
      rcases List.mem_cons.mp h with h1 | h1
      · left; rw [h1]; exact List.mem_cons_self _ _
      · rcases ih h1 with h2 | h2
        · left; exact List.mem_cons_of_mem _ h2
        · right; exact h2

theorem registerContributionPoint_keyConsistent (m : CMap) (pt : ContributionPoint)
    (hm : ∀ kl ∈ m, ∀ p ∈ kl.2, p.globPattern = kl.1) :
    ∀ kl ∈ registerContributionPoint m pt, ∀ p ∈ kl.2, p.globPattern = kl.1 := by
  intro kl hkl p hp
  unfold registerContributionPoint at hkl
  cases h : lookupKey m pt.globPattern with
  | none =>
    rw [h] at hkl
    rcases List.mem_append.mp hkl with h1 | h1
    · exact hm kl h1 p hp
    · simp only [List.mem_singleton] at h1
      subst h1
      simp only [List.mem_singleton] at hp
      subst hp
      rfl
  | some l =>
    rw [h] at hkl
    rcases mem_setKey hkl with h1 | h1
    · exact hm kl h1 p hp
    · subst h1
      rcases List.mem_append.mp hp with h2 | h2
      · exact hm _ (lookupKey_mem h) p h2
      · simp only [List.mem_singleton] at h2
        subst h2
        rfl

theorem registerAll_keyConsistent (pts : List ContributionPoint) :
    ∀ kl ∈ registerAll pts, ∀ p ∈ kl.2, p.globPattern = kl.1 := by
  suffices hgen : ∀ m : CMap, (∀ kl ∈ m, ∀ p ∈ kl.2, p.globPattern = kl.1) →
      ∀ kl ∈ pts.foldl registerContributionPoint m, ∀ p ∈ kl.2, p.globPattern = kl.1 by
    exact hgen [] (by simp)
  induction pts with
  | nil => intro m hm; simpa using hm
  | cons pt rest ih =>
    intro m hm
    exact ih (registerContributionPoint m pt)
      (registerContributionPoint_keyConsistent m pt hm)

theorem allContributions_setKey_perm (m : CMap) (k : String)
    (l : List ContributionPoint) (pt : ContributionPoint)
    (h : lookupKey m k = some l) :
    (allContributions (setKey m k (l ++ [pt]))).Perm (allContributions m ++ [pt]) := by
  induction m with
  | nil => simp [lookupKey] at h
  | cons kv rest ih =>
    obtain ⟨k0, l0⟩ := kv
    simp only [lookupKey] at h
    by_cases hk : k0 = k
    · rw [if_pos hk] at h
      injection h with h
      subst hk
      subst h
      have hs : setKey ((k0, l0) :: rest) k0 (l0 ++ [pt]) =
          (k0, l0 ++ [pt]) :: rest := by
        simp [setKey]
      rw [hs]
      simp only [allContributions, List.map_cons, List.flatten_cons,
        List.append_assoc]
      exact List.Perm.append_left l0 List.perm_append_comm
    · have hs : setKey ((k0, l0) :: rest) k (l ++ [pt]) =
          (k0, l0) :: setKey rest k (l ++ [pt]) := by
        simp [setKey, hk]
      rw [if_neg hk] at h
      rw [hs]
      simp only [allContributions, List.map_cons, List.flatten_cons]
      have hrec := ih h
      simp only [allContributions] at hrec
      rw [List.append_assoc]
      exact List.Perm.append_left l0 hrec

theorem allContributions_register_perm (m : CMap) (pt : ContributionPoint) :
    (allContributions (registerContributionPoint m pt)).Perm
      (allContributions m ++ [pt]) := by
  unfold registerContributionPoint
  cases h : lookupKey m pt.globPattern with
  | none =>
    simp [allContributions]
  | some l =>
    exact allContributions_setKey_perm m pt.globPattern l pt h

theorem allContributions_registerAll_perm (pts : List ContributionPoint) :
    (allContributions (registerAll pts)).Perm pts := by
  suffices hgen : ∀ m : CMap,
      (allContributions (pts.foldl registerContributionPoint m)).Perm
        (allContributions m ++ pts) by
    have := hgen []
    simpa [allContributions] using this
  induction pts with
  | nil => intro m; simp
  | cons pt rest ih =>
    intro m
    have h1 := ih (registerContributionPoint m pt)
    have h2 : (allContributions (registerContributionPoint m pt) ++ rest).Perm
        ((allContributions m ++ [pt]) ++ rest) :=
      (allContributions_register_perm m pt).append (List.Perm.refl rest)
    have h3 := h1.trans h2
    simpa [List.append_assoc] using h3

theorem collectMatching_eq_filter (gm : String → String → Bool)
    (us : List EditorAssociation) (res : String) (m : CMap)
    (hkey : ∀ kl ∈ m, ∀ p ∈ kl.2, p.globPattern = kl.1) :
    collectMatching gm us res m = (allContributions m).filter
      (fun pt => (us.find? (fun s => s.viewType == pt.editorInfo.id)).isSome
        || gm pt.globPattern res) := by
  induction m with
  | nil => simp [collectMatching, allContributions]
  | cons kl rest ih =>
    obtain ⟨key, pts0⟩ := kl
    simp only [collectMatching, allContributions, List.map_cons, List.flatten_cons,
      List.filter_append]
    have hfc : pts0.filter
        (fun pt => (us.find? (fun s => s.viewType == pt.editorInfo.id)).isSome
          || gm key res) = pts0.filter
        (fun pt => (us.find? (fun s => s.viewType == pt.editorInfo.id)).isSome
          || gm pt.globPattern res) := by
      apply List.filter_congr
      intro pt hpt
      rw [hkey (key, pts0) (List.mem_cons_self _ _) pt hpt]
    rw [hfc, ih (fun kl hkl => hkey kl (List.mem_cons_of_mem _ hkl))]
    rfl

theorem codeCond_eq_claimMatches (gm : String → String → Bool)
    (raw : List (String × String)) (res : String) (m : CMap)
    (pt : ContributionPoint) (hglob : gm "" res = false)
    (hmem : pt ∈ allContributions m) :
    (((getAssociationsForResource gm raw m res).find?
        (fun s => s.viewType == pt.editorInfo.id)).isSome
      || gm pt.globPattern res) = claimMatches gm raw res pt := by
  rw [Bool.eq_iff_iff]
  simp only [Bool.or_eq_true, List.find?_isSome, claimMatches, List.any_eq_true,
    Bool.and_eq_true, getAssociationsForResource, List.mem_filter]
  constructor
  · rintro (⟨a, ⟨⟨hmem1, hpn, hgm⟩, hreg⟩, hvt⟩ | hg)
    · right
      exact ⟨a, hmem1, hgm, hvt⟩
    · left
      exact hg
  · rintro (hg | ⟨a, hamem, hgm, hvt⟩)
    · right
      exact hg
    · left
      refine ⟨a, ⟨⟨hamem, ?_, hgm⟩, ?_⟩, hvt⟩
      · by_cases hp : a.filenamePattern = ""
        · rw [hp] at hgm
          rw [hgm] at hglob
          exact absurd hglob (by simp)
        · simpa [bne_iff_ne] using hp
      · refine ⟨pt, hmem, ?_⟩
        have := beq_iff_eq.mp hvt
        simp [this]

theorem findMatchingContributions_perm (gm : String → String → Bool)
    (raw : List (String × String)) (pts : List ContributionPoint)
    (resource : String) (hglob : gm "" resource = false) :
    (findMatchingContributions gm raw (registerAll pts) resource).Perm
      (pts.filter (claimMatches gm raw resource)) := by
  have hkey := registerAll_keyConsistent pts
  have hcol := collectMatching_eq_filter gm
    (getAssociationsForResource gm raw (registerAll pts) resource)
    resource (registerAll pts) hkey
  have hms := List.perm_insertionSort
    (fun a b : ContributionPoint =>
      priorityToRank b.editorInfo.priority ≤ priorityToRank a.editorInfo.priority)
    (collectMatching gm
      (getAssociationsForResource gm raw (registerAll pts) resource)
      resource (registerAll pts))
  unfold findMatchingContributions
  refine hms.trans ?_
  rw [hcol]
  rw [List.filter_congr (fun pt hpt =>
    codeCond_eq_claimMatches gm raw resource (registerAll pts) pt hglob hpt)]
  exact (allContributions_registerAll_perm pts).filter _

theorem findMatchingContributions_sorted (gm : String → String → Bool)
    (raw : List (String × String)) (m : CMap) (resource : String) :
    List.Pairwise
      (fun a b => priorityToRank b.editorInfo.priority ≤
        priorityToRank a.editorInfo.priority)
      (findMatchingContributions gm raw m resource) := by
  unfold findMatchingContributions
  haveI : IsTotal ContributionPoint
      (fun a b => priorityToRank b.editorInfo.priority ≤
        priorityToRank a.editorInfo.priority) :=
    ⟨fun a b => Nat.le_total _ _⟩
  haveI : IsTrans ContributionPoint
      (fun a b => priorityToRank b.editorInfo.priority ≤
        priorityToRank a.editorInfo.priority) :=
    ⟨fun a b c h1 h2 => Nat.le_trans h2 h1⟩
  exact List.sorted_insertionSort _
    (collectMatching gm (getAssociationsForResource gm raw m resource) resource m)

theorem perm_any_eq {α : Type} {l₁ l₂ : List α} (p : α → Bool)
    (h : l₁.Perm l₂) : l₁.any p = l₂.any p := by
  rw [Bool.eq_iff_iff]
  simp only [List.any_eq_true]
  constructor
  · rintro ⟨x, hx, hp⟩
    exact ⟨x, h.mem_iff.mp hx, hp⟩
  · rintro ⟨x, hx, hp⟩
    exact ⟨x, h.mem_iff.mpr hx, hp⟩

theorem getAssociationsForResource_registerAll (gm : String → String → Bool)
    (raw : List (String × String)) (pts : List ContributionPoint)
    (resource : String) (hglob : gm "" resource = false) :
    getAssociationsForResource gm raw (registerAll pts) resource =
      (getAllUserAssociations raw).filter
        (fun a => gm a.filenamePattern resource
          && pts.any (fun c => c.editorInfo.id == a.viewType)) := by
  unfold getAssociationsForResource
  rw [List.filter_filter]
  apply List.filter_congr
  intro a _
  have hany : (allContributions (registerAll pts)).any
      (fun c => c.editorInfo.id == a.viewType) =
      pts.any (fun c => c.editorInfo.id == a.viewType) :=
    perm_any_eq _ (allContributions_registerAll_perm pts)
  rw [hany]
  by_cases hp : a.filenamePattern = ""
  · rw [hp]
    simp [hglob]
  · have : (a.filenamePattern != "") = true := by simpa [bne_iff_ne] using hp
    rw [this]
    cases pts.any (fun c => c.editorInfo.id == a.viewType) <;>
      cases gm a.filenamePattern resource <;> rfl

/-- Claim C4: `getEditorIds` returns exactly the ids of the registered
contribution points that glob-match the resource or are named by a user
association matching the resource (as a permutation witnessing multiset
equality), listed along the matching contributions sorted by non-increasing
priority rank.  The hypothesis that the empty glob pattern matches no
resource is a property of the host glob library. -/
theorem getEditorIds_spec (globMatches : String → String → Bool)
    (raw : List (String × String)) (pts : List ContributionPoint)
    (resource : String) (hglob : globMatches "" resource = false) :
    getEditorIds globMatches raw (registerAll pts) resource =
      (findMatchingContributions globMatches raw (registerAll pts) resource).map
        (fun c => c.editorInfo.id) ∧
    (findMatchingContributions globMatches raw (registerAll pts) resource).Perm
      (pts.filter (claimMatches globMatches raw resource)) ∧
    List.Pairwise
      (fun a b => priorityToRank b.editorInfo.priority ≤
        priorityToRank a.editorInfo.priority)
      (findMatchingContributions globMatches raw (registerAll pts) resource) :=
  ⟨rfl, findMatchingContributions_perm globMatches raw pts resource hglob,
   findMatchingContributions_sorted globMatches raw (registerAll pts) resource⟩

theorem getEditorIds_spec_witness :
    (sampleGlobMatches "" "a.ipynb" = false) ∧
    (getEditorIds sampleGlobMatches sampleRaw (registerAll samplePoints) "a.ipynb" =
      (findMatchingContributions sampleGlobMatches sampleRaw
          (registerAll samplePoints) "a.ipynb").map (fun c => c.editorInfo.id) ∧
    (findMatchingContributions sampleGlobMatches sampleRaw
        (registerAll samplePoints) "a.ipynb").Perm
      (samplePoints.filter (claimMatches sampleGlobMatches sampleRaw "a.ipynb")) ∧
    List.Pairwise
      (fun a b => priorityToRank b.editorInfo.priority ≤
        priorityToRank a.editorInfo.priority)
      (findMatchingContributions sampleGlobMatches sampleRaw
        (registerAll samplePoints) "a.ipynb")) :=
  ⟨by decide,
   getEditorIds_spec sampleGlobMatches sampleRaw samplePoints "a.ipynb" (by decide)⟩

/-! ## getContributionPoint precedence (no-override path) -/

/-- Counterexample to claim C5 as stated, at three concrete inputs.  First: a
registered exclusive contribution carrying the default text editor id is the
highest-ranked matching contribution, yet the code tests exclusivity on the
head of the already-filtered list and selects `other`.  Second: a user
association naming an unregistered editor is the first matching association,
yet the code drops it (associations are validated against registered ids) and
selects `other`.  Third: a matching association whose view type is the empty
string is selected by the claim, while JavaScript `||` treats it as falsy and
the code selects `other`. -/
theorem selectedViewType_claim_counterexample :
    (selectedViewTypeFor sampleGlobMatches []
        (registerAll [exclusiveDefaultContribution, builtinOtherContribution])
        "a.ipynb" "default" = some "other" ∧
     claimSelectedViewType sampleGlobMatches []
        [exclusiveDefaultContribution, builtinOtherContribution]
        "a.ipynb" "default" = some "default") ∧
    (selectedViewTypeFor sampleGlobMatches ghostAssociationRaw
        (registerAll [builtinOtherContribution]) "a.ipynb" "default" =
          some "other" ∧
     claimSelectedViewType sampleGlobMatches ghostAssociationRaw
        [builtinOtherContribution] "a.ipynb" "default" = some "ghost") ∧
    (selectedViewTypeFor sampleGlobMatches emptyAssociationRaw
        (registerAll [emptyIdContribution, builtinOtherContribution])
        "a.ipynb" "default" = some "other" ∧
     claimSelectedViewType sampleGlobMatches emptyAssociationRaw
        [emptyIdContribution, builtinOtherContribution] "a.ipynb" "default" =
          some "") := by
  refine ⟨⟨?_, ?_⟩, ⟨?_, ?_⟩, ⟨?_, ?_⟩⟩ <;> decide

theorem selectedViewTypeFor_eq (gm : String → String → Bool)
    (raw : List (String × String)) (m : CMap) (resource : String)
    (defaultEditorId : String) :
    selectedViewTypeFor gm raw m resource defaultEditorId =
      if ((possibleContributionPoints defaultEditorId
            (findMatchingContributions gm raw m resource)).head?.map
          (fun c => c.editorInfo.priority)) = some Priority.exclusive
      then (possibleContributionPoints defaultEditorId
             (findMatchingContributions gm raw m resource)).head?.map
           (fun c => c.editorInfo.id)
      else jsOrUndef
             ((getAssociationsForResource gm raw m resource).head?.map
               (fun a => a.viewType))
             ((possibleContributionPoints defaultEditorId
                (findMatchingContributions gm raw m resource)).head?.map
              (fun c => c.editorInfo.id)) := rfl

theorem priorityToRank_le_five (p : Priority) : priorityToRank p ≤ 5 := by
  cases p <;> simp [priorityToRank]

theorem priorityToRank_five (p : Priority) (h : 5 ≤ priorityToRank p) :
    p = Priority.exclusive := by
  cases p with
  | exclusive => rfl
  | defaultPriority => simp [priorityToRank] at h
  | builtin => simp [priorityToRank] at h
  | optionPriority => simp [priorityToRank] at h

/-- Claim C5 amended: with no explicit override, writing `S` for the matching
contributions of at least builtin priority whose id is not the default text
editor's, and `A` for the matching user associations naming a registered
editor, the selected view type is: the id of a highest-ranked exclusive
member of `S` when `S` contains an exclusive contribution; otherwise the view
type of the first association of `A` when it is nonempty; otherwise the id of
a maximal-rank member of `S`, and `none` when `S` is empty. -/
theorem selectedViewType_precedence (gm : String → String → Bool)
    (raw : List (String × String)) (pts : List ContributionPoint)
    (resource : String) (defaultEditorId : String)
    (hglob : gm "" resource = false)
    (S : List ContributionPoint)
    (hS : S = (pts.filter (claimMatches gm raw resource)).filter
        (fun contribPoint =>
          decide (priorityToRank Priority.builtin ≤
            priorityToRank contribPoint.editorInfo.priority)
            && contribPoint.editorInfo.id != defaultEditorId))
    (A : List EditorAssociation)
    (hA : A = (getAllUserAssociations raw).filter
        (fun a => gm a.filenamePattern resource
          && pts.any (fun c => c.editorInfo.id == a.viewType))) :
    ((∃ c ∈ S, c.editorInfo.priority = Priority.exclusive) →
      ∃ c ∈ S, c.editorInfo.priority = Priority.exclusive ∧
        selectedViewTypeFor gm raw (registerAll pts) resource defaultEditorId =
          some c.editorInfo.id) ∧
    ((∀ c ∈ S, c.editorInfo.priority ≠ Priority.exclusive) →
      (∀ a, A.head? = some a → a.viewType ≠ "" →
        selectedViewTypeFor gm raw (registerAll pts) resource defaultEditorId =
          some a.viewType) ∧
      ((A = [] ∨ (∃ a, A.head? = some a ∧ a.viewType = "")) →
        (S ≠ [] → ∃ c ∈ S,
          selectedViewTypeFor gm raw (registerAll pts) resource defaultEditorId =
            some c.editorInfo.id ∧
          ∀ c' ∈ S, priorityToRank c'.editorInfo.priority ≤
            priorityToRank c.editorInfo.priority) ∧
        (S = [] →
          selectedViewTypeFor gm raw (registerAll pts) resource defaultEditorId =
            none))) := by
  have hperm := findMatchingContributions_perm gm raw pts resource hglob
  have hsorted := findMatchingContributions_sorted gm raw (registerAll pts) resource
  have hposs : (possibleContributionPoints defaultEditorId
      (findMatchingContributions gm raw (registerAll pts) resource)).Perm S := by
    rw [hS]
    exact hperm.filter _
  have hsortedposs : List.Pairwise
      (fun a b => priorityToRank b.editorInfo.priority ≤
        priorityToRank a.editorInfo.priority)
      (possibleContributionPoints defaultEditorId
        (findMatchingContributions gm raw (registerAll pts) resource)) :=
    hsorted.filter _
  have hassoc : getAssociationsForResource gm raw (registerAll pts) resource = A := by
    rw [hA]
    exact getAssociationsForResource_registerAll gm raw pts resource hglob
  constructor
  · rintro ⟨c, hcS, hcx⟩
    have hcposs := hposs.mem_iff.mpr hcS
    cases hplist : possibleContributionPoints defaultEditorId
        (findMatchingContributions gm raw (registerAll pts) resource) with
    | nil => rw [hplist] at hcposs; simp at hcposs
    | cons h0 t =>
      rw [hplist] at hcposs hposs hsortedposs
      have hrank0 : 5 ≤ priorityToRank h0.editorInfo.priority := by
        rcases List.mem_cons.mp hcposs with hch | hct
        · subst hch
          rw [hcx]
          exact Nat.le_refl 5
        · have := (List.pairwise_cons.mp hsortedposs).1 c hct
          calc (5 : Nat) = priorityToRank c.editorInfo.priority := by
                simp [hcx, priorityToRank]
            _ ≤ priorityToRank h0.editorInfo.priority := this
      have hx0 : h0.editorInfo.priority = Priority.exclusive :=
        priorityToRank_five _ hrank0
      refine ⟨h0, hposs.mem_iff.mp (List.mem_cons_self _ _), hx0, ?_⟩
      rw [selectedViewTypeFor_eq, hplist]
      simp [hx0]
  · intro hnoexc
    have hiff : ¬(((possibleContributionPoints defaultEditorId
        (findMatchingContributions gm raw (registerAll pts) resource)).head?.map
          (fun c => c.editorInfo.priority)) = some Priority.exclusive) := by
      cases hplist : possibleContributionPoints defaultEditorId
          (findMatchingContributions gm raw (registerAll pts) resource) with
      | nil => simp
      | cons h0 t =>
        have hh0S : h0 ∈ S := by
          rw [hplist] at hposs
          exact hposs.mem_iff.mp (List.mem_cons_self _ _)
        have := hnoexc h0 hh0S
        simpa using this
    rw [selectedViewTypeFor_eq, if_neg hiff, hassoc]
    constructor
    · intro a hha hvne
      rw [hha]
      simp [jsOrUndef, hvne]
    · intro hAe
      have hjs : jsOrUndef (A.head?.map (fun a => a.viewType))
          ((possibleContributionPoints defaultEditorId
            (findMatchingContributions gm raw (registerAll pts) resource)).head?.map
            (fun c => c.editorInfo.id)) =
          ((possibleContributionPoints defaultEditorId
            (findMatchingContributions gm raw (registerAll pts) resource)).head?.map
            (fun c => c.editorInfo.id)) := by
        rcases hAe with hAnil | ⟨a, hha, hve⟩
        · rw [hAnil]
          rfl
        · rw [hha]
          simp [jsOrUndef, hve]
      rw [hjs]
      constructor
      · intro hSne
        cases hplist : possibleContributionPoints defaultEditorId
            (findMatchingContributions gm raw (registerAll pts) resource) with
        | nil =>
          rw [hplist] at hposs
          exact absurd hposs.symm.eq_nil hSne
        | cons h0 t =>
          rw [hplist] at hposs hsortedposs
          refine ⟨h0, hposs.mem_iff.mp (List.mem_cons_self _ _), rfl, ?_⟩
          intro c' hc'S
          rcases List.mem_cons.mp (hposs.mem_iff.mpr hc'S) with hch | hct
          · subst hch; exact Nat.le_refl _
          · exact (List.pairwise_cons.mp hsortedposs).1 c' hct
      · intro hSnil
        rw [hSnil] at hposs
        rw [hposs.eq_nil]
        rfl

theorem selectedViewType_precedence_witness :
    (sampleGlobMatches "" "a.ipynb" = false) ∧
    ([sampleNotebookContribution, sampleTextContribution] =
      (samplePoints.filter
          (claimMatches sampleGlobMatches sampleRaw "a.ipynb")).filter
        (fun contribPoint =>
          decide (priorityToRank Priority.builtin ≤
            priorityToRank contribPoint.editorInfo.priority)
            && contribPoint.editorInfo.id != "default")) ∧
    ([{ filenamePattern := "a.ipynb", viewType := "text" }] =
      (getAllUserAssociations sampleRaw).filter
        (fun a => sampleGlobMatches a.filenamePattern "a.ipynb"
          && samplePoints.any (fun c => c.editorInfo.id == a.viewType))) ∧
    (((∃ c ∈ [sampleNotebookContribution, sampleTextContribution],
        c.editorInfo.priority = Priority.exclusive) →
      ∃ c ∈ [sampleNotebookContribution, sampleTextContribution],
        c.editorInfo.priority = Priority.exclusive ∧
        selectedViewTypeFor sampleGlobMatches sampleRaw (registerAll samplePoints)
            "a.ipynb" "default" = some c.editorInfo.id) ∧
    ((∀ c ∈ [sampleNotebookContribution, sampleTextContribution],
        c.editorInfo.priority ≠ Priority.exclusive) →
      (∀ a, ([{ filenamePattern := "a.ipynb", viewType := "text" }] :
          List EditorAssociation).head? = some a → a.viewType ≠ "" →
        selectedViewTypeFor sampleGlobMatches sampleRaw (registerAll samplePoints)
            "a.ipynb" "default" = some a.viewType) ∧
      ((([{ filenamePattern := "a.ipynb", viewType := "text" }] :
          List EditorAssociation) = [] ∨
        (∃ a, ([{ filenamePattern := "a.ipynb", viewType := "text" }] :
          List EditorAssociation).head? = some a ∧ a.viewType = "")) →
        (([sampleNotebookContribution, sampleTextContribution] :
            List ContributionPoint) ≠ [] → ∃ c ∈
              [sampleNotebookContribution, sampleTextContribution],
          selectedViewTypeFor sampleGlobMatches sampleRaw (registerAll samplePoints)
              "a.ipynb" "default" = some c.editorInfo.id ∧
          ∀ c' ∈ [sampleNotebookContribution, sampleTextContribution],
            priorityToRank c'.editorInfo.priority ≤
              priorityToRank c.editorInfo.priority) ∧
        (([sampleNotebookContribution, sampleTextContribution] :
            List ContributionPoint) = [] →
          selectedViewTypeFor sampleGlobMatches sampleRaw (registerAll samplePoints)
              "a.ipynb" "default" = none)))) :=
  ⟨by decide, by rfl, by rfl,
   selectedViewType_precedence sampleGlobMatches sampleRaw samplePoints
     "a.ipynb" "default" (by decide)
     [sampleNotebookContribution, sampleTextContribution] (by rfl)
     [{ filenamePattern := "a.ipynb", viewType := "text" }] (by rfl)⟩

end EditorOverrideSvc

namespace OutputsQueue

/-! ## Queue invariant: auxiliary lemmas -/

theorem modifyAt_get? (f : QRec → QRec) (l : List QRec) (i j : Nat) :
    (modifyAt f l i).get? j = if i = j then (l.get? j).map f else l.get? j := by
  induction l generalizing i j with
  | nil => simp [modifyAt]
  | cons r rest ih =>
    cases i with
    | zero =>
      cases j with
      | zero => simp [modifyAt]
      | succ m => simp [modifyAt]
    | succ n =>
      cases j with
      | zero => simp [modifyAt, Nat.succ_ne_zero]
      | succ m =>
        simp only [modifyAt, List.get?]
        rw [ih n m]
        by_cases h : n = m
        · simp [h]
        · simp [h, fun hc : n + 1 = m + 1 => h (Nat.succ_injective hc)]

theorem get?_append_cases {α : Type} (h t : List α) (p : Nat) (e : α)
    (hp : (h ++ t).get? p = some e) :
    (p < h.length ∧ h.get? p = some e) ∨
    (∃ i, p = h.length + i ∧ t.get? i = some e) := by
  by_cases hlt : p < h.length
  · left
    exact ⟨hlt, by rwa [List.get?_append hlt] at hp⟩
  · right
    refine ⟨p - h.length, by omega, ?_⟩
    rwa [List.get?_append_right (Nat.le_of_not_lt hlt)] at hp

theorem get?_append_left_of_lt {α : Type} {h : List α} (t : List α) {p : Nat}
    {e : α} (hp : h.get? p = some e) : (h ++ t).get? p = some e := by
  rw [List.get?_append (List.get?_eq_some.mp hp).1]
  exact hp

theorem acts_set_done (r : QRec) (x : Nat) (rej : Bool) (h : r.running = some x) :
    (QRec.acts { r with
       running := none,
       rejected := rej,
       doneActs := r.doneActs ++ [x] }) = r.acts := by
  simp [QRec.acts, h, List.append_assoc]

theorem acts_skip_step (r : QRec) (a : Nat) (rest : List Nat)
    (hrun : r.running = none) (hp : r.pending = a :: rest) :
    (QRec.acts { r with pending := rest, doneActs := r.doneActs ++ [a] }) =
      r.acts := by
  simp [QRec.acts, hrun, hp, List.append_assoc]

theorem acts_start_step (r : QRec) (a : Nat) (rest : List Nat)
    (hrun : r.running = none) (hp : r.pending = a :: rest) :
    (QRec.acts { r with running := some a, pending := rest }) = r.acts := by
  simp [QRec.acts, hrun, hp, List.append_assoc]

theorem acts_cancel_step (r : QRec) :
    (QRec.acts { r with cancelled := true }) = r.acts := rfl

theorem acts_chain_step (r : QRec) (a : Nat) :
    (QRec.acts { r with pending := r.pending ++ [a] }) = r.acts ++ [a] := by
  simp [QRec.acts, List.append_assoc]

theorem qinv_init : QInv initQ := by
  constructor <;> simp [initQ, lookupKey]

end OutputsQueue

namespace OutputsQueue

theorem modifyAt_get?_cases (f : QRec → QRec) (l : List QRec) (i : Nat)
    {j : Nat} {r' : QRec} (h : (modifyAt f l i).get? j = some r') :
    l.get? j = some r' ∨ (i = j ∧ ∃ r, l.get? j = some r ∧ r' = f r) := by
  rw [modifyAt_get? f l i j] at h
  by_cases hij : i = j
  · right
    rw [if_pos hij] at h
    rcases Option.map_eq_some'.mp h with ⟨r, hr, hfr⟩
    exact ⟨hij, r, hr, hfr.symm⟩
  · left
    rwa [if_neg hij] at h

theorem modifyAt_get?_self (f : QRec → QRec) (l : List QRec) (i : Nat)
    {r : QRec} (h : l.get? i = some r) :
    (modifyAt f l i).get? i = some (f r) := by
  rw [modifyAt_get? f l i i, if_pos rfl, h]
  rfl

theorem modifyAt_get?_other (f : QRec → QRec) (l : List QRec) {i j : Nat}
    (hij : i ≠ j) : (modifyAt f l i).get? j = l.get? j := by
  rw [modifyAt_get? f l i j, if_neg hij]

theorem running_mem_acts (r : QRec) {x : Nat} (h : r.running = some x) :
    x ∈ r.acts := by
  simp [QRec.acts, h]

theorem done_mem_acts (r : QRec) {x : Nat} (h : x ∈ r.doneActs) :
    x ∈ r.acts := by
  simp only [QRec.acts, List.mem_append]
  tauto

theorem pending_mem_acts (r : QRec) {x : Nat} (h : x ∈ r.pending) :
    x ∈ r.acts := by
  simp only [QRec.acts, List.mem_append]
  tauto

theorem no_start_lift (h : List Ev) (e : Ev) (a : Nat)
    (hold : ∀ j, h.get? j ≠ some (Ev.start a)) (hne : e ≠ Ev.start a) :
    ∀ j, (h ++ [e]).get? j ≠ some (Ev.start a) := by
  intro j hj
  rcases get?_append_cases h [e] j _ hj with ⟨_, hjj⟩ | ⟨i, _, hi⟩
  · exact hold j hjj
  · cases i with
    | zero =>
      simp only [List.get?] at hi
      injection hi with hi
      exact hne hi
    | succ m => simp [List.get?] at hi

theorem qinv_finish (s : QState) (ri0 : Nat) (ok : Bool) (hinv : QInv s) :
    QInv (finish ri0 ok s) := by
  cases hr0 : s.recs.get? ri0 with
  | none =>
    have hstep : finish ri0 ok s = s := by
      unfold finish
      rw [hr0]
    rw [hstep]
    exact hinv
  | some r0 =>
    cases hrun : r0.running with
    | none =>
      have hstep : finish ri0 ok s = s := by
        unfold finish
        rw [hr0]
        dsimp only
        rw [hrun]
      rw [hstep]
      exact hinv
    | some x =>
      set f : QRec → QRec := fun r =>
        { r with
          running := none,
          rejected := (r.rejected || !ok),
          doneActs := r.doneActs ++ [x] } with hf
      have hstep : finish ri0 ok s =
          { s with
            recs := modifyAt f s.recs ri0,
            hist := s.hist ++ [Ev.complete x ok] } := by
        unfold finish
        rw [hr0]
        dsimp only
        rw [hrun, hf]
      rw [hstep]
      have hacts : (f r0).acts = r0.acts := acts_set_done r0 x _ hrun
      have hxmem : x ∈ r0.acts := running_mem_acts r0 hrun
      have hr0mem : r0 ∈ s.recs := List.get?_mem hr0
      have hgetc : ∀ {j : Nat} {r' : QRec},
          (modifyAt f s.recs ri0).get? j = some r' →
          (s.recs.get? j = some r' ∧ (r'.acts = r'.acts)) ∨
          (j = ri0 ∧ r' = f r0) := by
        intro j r' h
        rcases modifyAt_get?_cases f s.recs ri0 h with h1 | ⟨hij, r, hr, hfr⟩
        · exact Or.inl ⟨h1, rfl⟩
        · subst hij
          rw [hr0] at hr
          injection hr with hr
          subst hr
          exact Or.inr ⟨rfl, hfr⟩
      refine ⟨?_, ?_, ?_, ?_, ?_, ?_, ?_, ?_, ?_, ?_, ?_, ?_, ?_, ?_, ?_⟩
      · -- actsLt
        intro r' hr' a ha
        rcases List.mem_iff_get?.mp hr' with ⟨j, hj⟩
        rcases hgetc hj with ⟨h1, _⟩ | ⟨_, h2⟩
        · exact hinv.actsLt r' (List.get?_mem h1) a ha
        · subst h2
          rw [hacts] at ha
          exact hinv.actsLt r0 hr0mem a ha
      · -- histLt
        intro e he a ha
        rcases List.mem_append.mp he with he | he
        · exact hinv.histLt e he a ha
        · simp only [List.mem_singleton] at he
          subst he
          simp only [Ev.acts, List.mem_singleton] at ha
          subst ha
          exact hinv.actsLt r0 hr0mem a hxmem
      · -- actsSorted
        intro r' hr'
        rcases List.mem_iff_get?.mp hr' with ⟨j, hj⟩
        rcases hgetc hj with ⟨h1, _⟩ | ⟨_, h2⟩
        · exact hinv.actsSorted r' (List.get?_mem h1)
        · subst h2
          rw [hacts]
          exact hinv.actsSorted r0 hr0mem
      · -- actsUnique
        intro ri rj r r2 h1 h2 x0 hx1 hx2
        rcases hgetc h1 with ⟨g1, _⟩ | ⟨hij, hfr⟩
        · rcases hgetc h2 with ⟨g2, _⟩ | ⟨hij2, hfr2⟩
          · exact hinv.actsUnique ri rj r r2 g1 g2 x0 hx1 hx2
          · subst hij2; subst hfr2
            rw [hacts] at hx2
            exact hinv.actsUnique ri _ r r0 g1 hr0 x0 hx1 hx2
        · subst hij; subst hfr
          rw [hacts] at hx1
          rcases hgetc h2 with ⟨g2, _⟩ | ⟨hij2, hfr2⟩
          · exact hinv.actsUnique _ rj r0 r2 hr0 g2 x0 hx1 hx2
          · subst hij2
            rfl
      · -- enqOwner
        intro oid a he
        rcases List.mem_append.mp he with he | he
        · rcases hinv.enqOwner oid a he with ⟨ri, r, hr, hoid, hmem⟩
          by_cases hri : ri = ri0
          · subst hri
            rw [hr0] at hr
            injection hr with hr
            subst hr
            refine ⟨ri, f r0, modifyAt_get?_self f s.recs ri hr0, hoid, ?_⟩
            rw [hacts]
            exact hmem
          · exact ⟨ri, r, by rw [modifyAt_get?_other f s.recs (fun h => hri h.symm)]; exact hr,
              hoid, hmem⟩
        · simp at he
      · -- mapsTo
        intro oid ri hl
        rcases hinv.mapsTo oid ri hl with ⟨r, hr, hoid, hcanc⟩
        by_cases hri : ri0 = ri
        · subst hri
          rw [hr0] at hr
          injection hr with hr
          subst hr
          exact ⟨f r0, modifyAt_get?_self f s.recs _ hr0, hoid, hcanc⟩
        · exact ⟨r, by rw [modifyAt_get?_other f s.recs hri]; exact hr, hoid, hcanc⟩
      · -- inMap
        intro ri r' hr' hcanc
        rcases hgetc hr' with ⟨g1, _⟩ | ⟨hij, hfr⟩
        · exact hinv.inMap ri r' g1 hcanc
        · subst hij; subst hfr
          exact hinv.inMap _ r0 hr0 hcanc
      · -- sameOid
        intro ri rj r r2 hij h1 h2 hoid
        rcases hgetc h1 with ⟨g1, _⟩ | ⟨hi1, hf1⟩
        · rcases hgetc h2 with ⟨g2, _⟩ | ⟨hi2, hf2⟩
          · exact hinv.sameOid ri rj r r2 hij g1 g2 hoid
          · subst hi2; subst hf2
            have := hinv.sameOid ri _ r r0 hij g1 hr0 hoid
            refine ⟨this.1, ?_⟩
            intro x0 hx0 y hy
            rw [hacts] at hy
            exact this.2 x0 hx0 y hy
        · subst hi1; subst hf1
          rcases hgetc h2 with ⟨g2, _⟩ | ⟨hi2, hf2⟩
          · have := hinv.sameOid _ rj r0 r2 hij hr0 g2 hoid
            refine ⟨this.1, ?_⟩
            intro x0 hx0 y hy
            rw [hacts] at hx0
            exact this.2 x0 hx0 y hy
          · omega
      · -- doneEv
        intro r' hr' x0 hx0
        rcases List.mem_iff_get?.mp hr' with ⟨j, hj⟩
        rcases hgetc hj with ⟨h1, _⟩ | ⟨_, h2⟩
        · rcases hinv.doneEv r' (List.get?_mem h1) x0 hx0 with ⟨ok2, hc⟩ | hsk
          · exact Or.inl ⟨ok2, List.mem_append.mpr (Or.inl hc)⟩
          · exact Or.inr (List.mem_append.mpr (Or.inl hsk))
        · subst h2
          simp only at hx0
          rcases List.mem_append.mp hx0 with hx0 | hx0
          · rcases hinv.doneEv r0 hr0mem x0 hx0 with ⟨ok2, hc⟩ | hsk
            · exact Or.inl ⟨ok2, List.mem_append.mpr (Or.inl hc)⟩
            · exact Or.inr (List.mem_append.mpr (Or.inl hsk))
          · simp only [List.mem_singleton] at hx0
            subst hx0
            exact Or.inl ⟨ok, List.mem_append.mpr (Or.inr (List.mem_singleton.mpr rfl))⟩
      · -- runningEv
        intro r' hr' x0 hx0
        rcases List.mem_iff_get?.mp hr' with ⟨j, hj⟩
        rcases hgetc hj with ⟨h1, _⟩ | ⟨_, h2⟩
        · exact List.mem_append.mpr
            (Or.inl (hinv.runningEv r' (List.get?_mem h1) x0 hx0))
        · subst h2
          simp at hx0
      · -- skipCancelled
        intro x0 hsk ri r' hr' hx0
        have hskold : Ev.skip x0 ∈ s.hist := by
          rcases List.mem_append.mp hsk with h | h
          · exact h
          · simp at h
        rcases hgetc hr' with ⟨g1, _⟩ | ⟨hij, hfr⟩
        · exact hinv.skipCancelled x0 hskold ri r' g1 hx0
        · subst hij; subst hfr
          rw [hacts] at hx0
          exact hinv.skipCancelled x0 hskold _ r0 hr0 hx0
      · -- completeStarted
        intro x0 ok0 hc
        rcases List.mem_append.mp hc with h | h
        · exact List.mem_append.mpr (Or.inl (hinv.completeStarted x0 ok0 h))
        · simp only [List.mem_singleton] at h
          injection h with h1 h2
          subst h1
          exact List.mem_append.mpr (Or.inl (hinv.runningEv r0 hr0mem _ hrun))
      · -- startOrder
        intro p b hp ri r' hr' hb x0 hx0 hlt
        rcases get?_append_cases s.hist [Ev.complete x ok] p _ hp with
          ⟨hplen, hpold⟩ | ⟨i, hpi, hi⟩
        · have hbold : ∀ (ract : QRec), s.recs.get? ri = some ract → b ∈ ract.acts →
              x0 ∈ ract.acts →
              ∃ i < p, (∃ ok2, s.hist.get? i = some (Ev.complete x0 ok2)) ∨
                s.hist.get? i = some (Ev.skip x0) := by
            intro ract hra hba hxa
            exact hinv.startOrder p b hpold ri ract hra hba x0 hxa hlt
          rcases hgetc hr' with ⟨g1, _⟩ | ⟨hij, hfr⟩
          · rcases hbold r' g1 hb hx0 with ⟨i, hip, hcase⟩
            refine ⟨i, hip, ?_⟩
            rcases hcase with ⟨ok2, hc⟩ | hs
            · exact Or.inl ⟨ok2, get?_append_left_of_lt _ hc⟩
            · exact Or.inr (get?_append_left_of_lt _ hs)
          · subst hij
            subst hfr
            rw [hacts] at hb hx0
            rcases hbold r0 hr0 hb hx0 with ⟨i, hip, hcase⟩
            refine ⟨i, hip, ?_⟩
            rcases hcase with ⟨ok2, hc⟩ | hs
            · exact Or.inl ⟨ok2, get?_append_left_of_lt _ hc⟩
            · exact Or.inr (get?_append_left_of_lt _ hs)
        · cases i with
          | zero => simp [List.get?] at hi
          | succ m => simp [List.get?] at hi
      · -- enqIncreasing
        intro p q oid oid2 x0 y hpq hp hq
        rcases get?_append_cases s.hist [Ev.complete x ok] p _ hp with
          ⟨_, hpold⟩ | ⟨i, _, hi⟩
        · rcases get?_append_cases s.hist [Ev.complete x ok] q _ hq with
            ⟨_, hqold⟩ | ⟨i, _, hi⟩
          · exact hinv.enqIncreasing p q oid oid2 x0 y hpq hpold hqold
          · cases i with
            | zero => simp [List.get?] at hi
            | succ m => simp [List.get?] at hi
        · cases i with
          | zero => simp [List.get?] at hi
          | succ m => simp [List.get?] at hi
      · -- cancelSafety
        intro p oid a hcanc henq hnostart
        have hplen : p < s.hist.length := by
          rcases hcanc with hc | hc
          all_goals {
            rcases get?_append_cases s.hist [Ev.complete x ok] p _ hc with
              ⟨h1, _⟩ | ⟨i, _, hi⟩
            · exact h1
            · cases i with
              | zero => simp [List.get?] at hi
              | succ m => simp [List.get?] at hi
          }
        have hcancold : s.hist.get? p = some (Ev.cancelOutput oid) ∨
            s.hist.get? p = some Ev.cancelAll := by
          rcases hcanc with hc | hc
          · left
            rwa [List.get?_append hplen] at hc
          · right
            rwa [List.get?_append hplen] at hc
        have henqold : ∃ q < p, s.hist.get? q = some (Ev.enq oid a) := by
          rcases henq with ⟨q, hqp, hq⟩
          refine ⟨q, hqp, ?_⟩
          rwa [List.get?_append (Nat.lt_trans hqp hplen)] at hq
        have hnostartold : ∀ i < p, s.hist.get? i ≠ some (Ev.start a) := by
          intro i hip his
          exact hnostart i hip (get?_append_left_of_lt _ his)
        have hold := hinv.cancelSafety p oid a hcancold henqold hnostartold
        constructor
        · intro ri r' hr' ha
          rcases hgetc hr' with ⟨g1, _⟩ | ⟨hij, hfr⟩
          · exact hold.1 ri r' g1 ha
          · subst hij; subst hfr
            rw [hacts] at ha
            exact hold.1 _ r0 hr0 ha
        · exact no_start_lift s.hist (Ev.complete x ok) a hold.2 (by simp)

end OutputsQueue

namespace OutputsQueue

theorem lt_head_pending_mem_done (r : QRec) (a : Nat) (rest : List Nat)
    (hrun : r.running = none) (hpend : r.pending = a :: rest)
    (hsorted : List.Pairwise (fun x y => x < y) r.acts) (x : Nat)
    (hx : x ∈ r.acts) (hlt : x < a) : x ∈ r.doneActs := by
  have hacts : r.acts = r.doneActs ++ a :: rest := by
    simp [QRec.acts, hrun, hpend]
  rw [hacts] at hx hsorted
  rcases List.mem_append.mp hx with hx | hx
  · exact hx
  · exfalso
    rcases List.mem_cons.mp hx with hx | hx
    · subst hx
      exact Nat.lt_irrefl x hlt
    · have := ((List.pairwise_append.mp hsorted).2.1)
      have hax := (List.pairwise_cons.mp this).1 x hx
      exact Nat.lt_irrefl x (Nat.lt_trans hlt hax)

theorem qinv_next (s : QState) (ri0 : Nat) (hinv : QInv s) :
    QInv (next ri0 s) := by
  cases hr0 : s.recs.get? ri0 with
  | none =>
    have hstep : next ri0 s = s := by
      unfold next
      rw [hr0]
    rw [hstep]
    exact hinv
  | some r0 =>
    by_cases hgate : r0.running = none ∧ r0.rejected = false
    · cases hpend : r0.pending with
      | nil =>
        have hstep : next ri0 s = s := by
          unfold next
          rw [hr0]
          dsimp only
          rw [if_pos hgate, hpend]
        rw [hstep]
        exact hinv
      | cons a rest =>
        have hr0mem : r0 ∈ s.recs := List.get?_mem hr0
        have hamem : a ∈ r0.acts :=
          pending_mem_acts r0 (by rw [hpend]; exact List.mem_cons_self _ _)
        by_cases hcanc : r0.cancelled = true
        · -- the continuation fires with the record cancelled: the action is skipped
          set f : QRec → QRec := fun r =>
            { r with pending := rest, doneActs := r.doneActs ++ [a] } with hf
          have hstep : next ri0 s =
              { s with
                recs := modifyAt f s.recs ri0,
                hist := s.hist ++ [Ev.skip a] } := by
            unfold next
            rw [hr0]
            dsimp only
            rw [if_pos hgate, hpend]
            dsimp only
            rw [if_pos hcanc, hf]
          rw [hstep]
          have hacts : (f r0).acts = r0.acts := acts_skip_step r0 a rest hgate.1 hpend
          have hgetc : ∀ {j : Nat} {r' : QRec},
              (modifyAt f s.recs ri0).get? j = some r' →
              s.recs.get? j = some r' ∨ (j = ri0 ∧ r' = f r0) := by
            intro j r' h
            rcases modifyAt_get?_cases f s.recs ri0 h with h1 | ⟨hij, r, hr, hfr⟩
            · exact Or.inl h1
            · subst hij
              rw [hr0] at hr
              injection hr with hr
              subst hr
              exact Or.inr ⟨rfl, hfr⟩
          refine ⟨?_, ?_, ?_, ?_, ?_, ?_, ?_, ?_, ?_, ?_, ?_, ?_, ?_, ?_, ?_⟩
          · intro r' hr' a0 ha0
            rcases List.mem_iff_get?.mp hr' with ⟨j, hj⟩
            rcases hgetc hj with h1 | ⟨_, h2⟩
            · exact hinv.actsLt r' (List.get?_mem h1) a0 ha0
            · subst h2
              rw [hacts] at ha0
              exact hinv.actsLt r0 hr0mem a0 ha0
          · intro e he a0 ha0
            rcases List.mem_append.mp he with he | he
            · exact hinv.histLt e he a0 ha0
            · simp only [List.mem_singleton] at he
              subst he
              simp only [Ev.acts, List.mem_singleton] at ha0
              subst ha0
              exact hinv.actsLt r0 hr0mem a0 hamem
          · intro r' hr'
            rcases List.mem_iff_get?.mp hr' with ⟨j, hj⟩
            rcases hgetc hj with h1 | ⟨_, h2⟩
            · exact hinv.actsSorted r' (List.get?_mem h1)
            · subst h2
              rw [hacts]
              exact hinv.actsSorted r0 hr0mem
          · intro ri rj r r2 h1 h2 x0 hx1 hx2
            rcases hgetc h1 with g1 | ⟨hij, hfr⟩
            · rcases hgetc h2 with g2 | ⟨hij2, hfr2⟩
              · exact hinv.actsUnique ri rj r r2 g1 g2 x0 hx1 hx2
              · subst hij2; subst hfr2
                rw [hacts] at hx2
                exact hinv.actsUnique ri _ r r0 g1 hr0 x0 hx1 hx2
            · subst hij; subst hfr
              rw [hacts] at hx1
              rcases hgetc h2 with g2 | ⟨hij2, hfr2⟩
              · exact hinv.actsUnique _ rj r0 r2 hr0 g2 x0 hx1 hx2
              · subst hij2
                rfl
          · intro oid a0 he
            rcases List.mem_append.mp he with he | he
            · rcases hinv.enqOwner oid a0 he with ⟨ri, r, hr, hoid, hmem⟩
              by_cases hri : ri = ri0
              · subst hri
                rw [hr0] at hr
                injection hr with hr
                subst hr
                refine ⟨ri, f r0, modifyAt_get?_self f s.recs ri hr0, hoid, ?_⟩
                rw [hacts]
                exact hmem
              · exact ⟨ri, r,
                  by rw [modifyAt_get?_other f s.recs (fun h => hri h.symm)]; exact hr,
                  hoid, hmem⟩
            · simp at he
          · intro oid ri hl
            rcases hinv.mapsTo oid ri hl with ⟨r, hr, hoid, hcanc2⟩
            by_cases hri : ri0 = ri
            · subst hri
              rw [hr0] at hr
              injection hr with hr
              subst hr
              exact ⟨f r0, modifyAt_get?_self f s.recs _ hr0, hoid, hcanc2⟩
            · exact ⟨r, by rw [modifyAt_get?_other f s.recs hri]; exact hr, hoid, hcanc2⟩
          · intro ri r' hr' hcanc2
            rcases hgetc hr' with g1 | ⟨hij, hfr⟩
            · exact hinv.inMap ri r' g1 hcanc2
            · subst hij; subst hfr
              exact hinv.inMap _ r0 hr0 hcanc2
          · intro ri rj r r2 hij h1 h2 hoid
            rcases hgetc h1 with g1 | ⟨hi1, hf1⟩
            · rcases hgetc h2 with g2 | ⟨hi2, hf2⟩
              · exact hinv.sameOid ri rj r r2 hij g1 g2 hoid
              · subst hi2; subst hf2
                have := hinv.sameOid ri _ r r0 hij g1 hr0 hoid
                refine ⟨this.1, ?_⟩
                intro x0 hx0 y hy
                rw [hacts] at hy
                exact this.2 x0 hx0 y hy
            · subst hi1; subst hf1
              rcases hgetc h2 with g2 | ⟨hi2, hf2⟩
              · have := hinv.sameOid _ rj r0 r2 hij hr0 g2 hoid
                refine ⟨this.1, ?_⟩
                intro x0 hx0 y hy
                rw [hacts] at hx0
                exact this.2 x0 hx0 y hy
              · omega
          · intro r' hr' x0 hx0
            rcases List.mem_iff_get?.mp hr' with ⟨j, hj⟩
            rcases hgetc hj with h1 | ⟨_, h2⟩
            · rcases hinv.doneEv r' (List.get?_mem h1) x0 hx0 with ⟨ok2, hc⟩ | hsk
              · exact Or.inl ⟨ok2, List.mem_append.mpr (Or.inl hc)⟩
              · exact Or.inr (List.mem_append.mpr (Or.inl hsk))
            · subst h2
              simp only at hx0
              rcases List.mem_append.mp hx0 with hx0 | hx0
              · rcases hinv.doneEv r0 hr0mem x0 hx0 with ⟨ok2, hc⟩ | hsk
                · exact Or.inl ⟨ok2, List.mem_append.mpr (Or.inl hc)⟩
                · exact Or.inr (List.mem_append.mpr (Or.inl hsk))
              · simp only [List.mem_singleton] at hx0
                subst hx0
                exact Or.inr (List.mem_append.mpr (Or.inr (List.mem_singleton.mpr rfl)))
          · intro r' hr' x0 hx0
            rcases List.mem_iff_get?.mp hr' with ⟨j, hj⟩
            rcases hgetc hj with h1 | ⟨_, h2⟩
            · exact List.mem_append.mpr
                (Or.inl (hinv.runningEv r' (List.get?_mem h1) x0 hx0))
            · subst h2
              simp only at hx0
              exact List.mem_append.mpr
                (Or.inl (hinv.runningEv r0 hr0mem x0 (by simpa using hx0)))
          · intro x0 hsk ri r' hr' hx0
            rcases List.mem_append.mp hsk with hskold | hsknew
            · rcases hgetc hr' with g1 | ⟨hij, hfr⟩
              · exact hinv.skipCancelled x0 hskold ri r' g1 hx0
              · subst hij; subst hfr
                rw [hacts] at hx0
                exact hinv.skipCancelled x0 hskold _ r0 hr0 hx0
            · simp only [List.mem_singleton] at hsknew
              injection hsknew with hx0a
              subst hx0a
              rcases hgetc hr' with g1 | ⟨hij, hfr⟩
              · have hri : ri = ri0 := hinv.actsUnique ri ri0 r' r0 g1 hr0 x0 hx0 hamem
                subst hri
                rw [hr0] at g1
                injection g1 with g1
                subst g1
                exact hcanc
              · subst hfr
                exact hcanc
          · intro x0 ok0 hc
            rcases List.mem_append.mp hc with h | h
            · exact List.mem_append.mpr (Or.inl (hinv.completeStarted x0 ok0 h))
            · simp at h
          · intro p b hp ri r' hr' hb x0 hx0 hlt
            rcases get?_append_cases s.hist [Ev.skip a] p _ hp with
              ⟨hplen, hpold⟩ | ⟨i, hpi, hi⟩
            · rcases hgetc hr' with g1 | ⟨hij, hfr⟩
              · rcases hinv.startOrder p b hpold ri r' g1 hb x0 hx0 hlt with
                  ⟨i, hip, hcase⟩
                refine ⟨i, hip, ?_⟩
                rcases hcase with ⟨ok2, hc⟩ | hs
                · exact Or.inl ⟨ok2, get?_append_left_of_lt _ hc⟩
                · exact Or.inr (get?_append_left_of_lt _ hs)
              · subst hij
                subst hfr
                rw [hacts] at hb hx0
                rcases hinv.startOrder p b hpold _ r0 hr0 hb x0 hx0 hlt with
                  ⟨i, hip, hcase⟩
                refine ⟨i, hip, ?_⟩
                rcases hcase with ⟨ok2, hc⟩ | hs
                · exact Or.inl ⟨ok2, get?_append_left_of_lt _ hc⟩
                · exact Or.inr (get?_append_left_of_lt _ hs)
            · cases i with
              | zero => simp [List.get?] at hi
              | succ m => simp [List.get?] at hi
          · intro p q oid oid2 x0 y hpq hp hq
            rcases get?_append_cases s.hist [Ev.skip a] p _ hp with
              ⟨_, hpold⟩ | ⟨i, _, hi⟩
            · rcases get?_append_cases s.hist [Ev.skip a] q _ hq with
                ⟨_, hqold⟩ | ⟨i, _, hi⟩
              · exact hinv.enqIncreasing p q oid oid2 x0 y hpq hpold hqold
              · cases i with
                | zero => simp [List.get?] at hi
                | succ m => simp [List.get?] at hi
            · cases i with
              | zero => simp [List.get?] at hi
              | succ m => simp [List.get?] at hi
          · intro p oid a0 hcancev henq hnostart
            have hplen : p < s.hist.length := by
              rcases hcancev with hc | hc
              all_goals {
                rcases get?_append_cases s.hist [Ev.skip a] p _ hc with
                  ⟨h1, _⟩ | ⟨i, _, hi⟩
                · exact h1
                · cases i with
                  | zero => simp [List.get?] at hi
                  | succ m => simp [List.get?] at hi
              }
            have hcancold : s.hist.get? p = some (Ev.cancelOutput oid) ∨
                s.hist.get? p = some Ev.cancelAll := by
              rcases hcancev with hc | hc
              · left
                rwa [List.get?_append hplen] at hc
              · right
                rwa [List.get?_append hplen] at hc
            have henqold : ∃ q < p, s.hist.get? q = some (Ev.enq oid a0) := by
              rcases henq with ⟨q, hqp, hq⟩
              exact ⟨q, hqp, by rwa [List.get?_append (Nat.lt_trans hqp hplen)] at hq⟩
            have hnostartold : ∀ i < p, s.hist.get? i ≠ some (Ev.start a0) := by
              intro i hip his
              exact hnostart i hip (get?_append_left_of_lt _ his)
            have hold := hinv.cancelSafety p oid a0 hcancold henqold hnostartold
            constructor
            · intro ri r' hr' ha
              rcases hgetc hr' with g1 | ⟨hij, hfr⟩
              · exact hold.1 ri r' g1 ha
              · subst hij; subst hfr
                rw [hacts] at ha
                exact hold.1 _ r0 hr0 ha
            · exact no_start_lift s.hist (Ev.skip a) a0 hold.2 (by simp)
        · -- the continuation fires on a live record: the action starts
          set f : QRec → QRec := fun r =>
            { r with running := some a, pending := rest } with hf
          have hstep : next ri0 s =
              { s with
                recs := modifyAt f s.recs ri0,
                hist := s.hist ++ [Ev.start a] } := by
            unfold next
            rw [hr0]
            dsimp only
            rw [if_pos hgate, hpend]
            dsimp only
            rw [if_neg hcanc, hf]
          rw [hstep]
          have hacts : (f r0).acts = r0.acts := acts_start_step r0 a rest hgate.1 hpend
          have hcancf : r0.cancelled = false := by
            cases h : r0.cancelled
            · rfl
            · exact absurd h hcanc
          have hgetc : ∀ {j : Nat} {r' : QRec},
              (modifyAt f s.recs ri0).get? j = some r' →
              s.recs.get? j = some r' ∨ (j = ri0 ∧ r' = f r0) := by
            intro j r' h
            rcases modifyAt_get?_cases f s.recs ri0 h with h1 | ⟨hij, r, hr, hfr⟩
            · exact Or.inl h1
            · subst hij
              rw [hr0] at hr
              injection hr with hr
              subst hr
              exact Or.inr ⟨rfl, hfr⟩
          refine ⟨?_, ?_, ?_, ?_, ?_, ?_, ?_, ?_, ?_, ?_, ?_, ?_, ?_, ?_, ?_⟩
          · intro r' hr' a0 ha0
            rcases List.mem_iff_get?.mp hr' with ⟨j, hj⟩
            rcases hgetc hj with h1 | ⟨_, h2⟩
            · exact hinv.actsLt r' (List.get?_mem h1) a0 ha0
            · subst h2
              rw [hacts] at ha0
              exact hinv.actsLt r0 hr0mem a0 ha0
          · intro e he a0 ha0
            rcases List.mem_append.mp he with he | he
            · exact hinv.histLt e he a0 ha0
            · simp only [List.mem_singleton] at he
              subst he
              simp only [Ev.acts, List.mem_singleton] at ha0
              subst ha0
              exact hinv.actsLt r0 hr0mem a0 hamem
          · intro r' hr'
            rcases List.mem_iff_get?.mp hr' with ⟨j, hj⟩
            rcases hgetc hj with h1 | ⟨_, h2⟩
            · exact hinv.actsSorted r' (List.get?_mem h1)
            · subst h2
              rw [hacts]
              exact hinv.actsSorted r0 hr0mem
          · intro ri rj r r2 h1 h2 x0 hx1 hx2
            rcases hgetc h1 with g1 | ⟨hij, hfr⟩
            · rcases hgetc h2 with g2 | ⟨hij2, hfr2⟩
              · exact hinv.actsUnique ri rj r r2 g1 g2 x0 hx1 hx2
              · subst hij2; subst hfr2
                rw [hacts] at hx2
                exact hinv.actsUnique ri _ r r0 g1 hr0 x0 hx1 hx2
            · subst hij; subst hfr
              rw [hacts] at hx1
              rcases hgetc h2 with g2 | ⟨hij2, hfr2⟩
              · exact hinv.actsUnique _ rj r0 r2 hr0 g2 x0 hx1 hx2
              · subst hij2
                rfl
          · intro oid a0 he
            rcases List.mem_append.mp he with he | he
            · rcases hinv.enqOwner oid a0 he with ⟨ri, r, hr, hoid, hmem⟩
              by_cases hri : ri = ri0
              · subst hri
                rw [hr0] at hr
                injection hr with hr
                subst hr
                refine ⟨ri, f r0, modifyAt_get?_self f s.recs ri hr0, hoid, ?_⟩
                rw [hacts]
                exact hmem
              · exact ⟨ri, r,
                  by rw [modifyAt_get?_other f s.recs (fun h => hri h.symm)]; exact hr,
                  hoid, hmem⟩
            · simp at he
          · intro oid ri hl
            rcases hinv.mapsTo oid ri hl with ⟨r, hr, hoid, hcanc2⟩
            by_cases hri : ri0 = ri
            · subst hri
              rw [hr0] at hr
              injection hr with hr
              subst hr
              exact ⟨f r0, modifyAt_get?_self f s.recs _ hr0, hoid, hcanc2⟩
            · exact ⟨r, by rw [modifyAt_get?_other f s.recs hri]; exact hr, hoid, hcanc2⟩
          · intro ri r' hr' hcanc2
            rcases hgetc hr' with g1 | ⟨hij, hfr⟩
            · exact hinv.inMap ri r' g1 hcanc2
            · subst hij; subst hfr
              exact hinv.inMap _ r0 hr0 hcanc2
          · intro ri rj r r2 hij h1 h2 hoid
            rcases hgetc h1 with g1 | ⟨hi1, hf1⟩
            · rcases hgetc h2 with g2 | ⟨hi2, hf2⟩
              · exact hinv.sameOid ri rj r r2 hij g1 g2 hoid
              · subst hi2; subst hf2
                have := hinv.sameOid ri _ r r0 hij g1 hr0 hoid
                refine ⟨this.1, ?_⟩
                intro x0 hx0 y hy
                rw [hacts] at hy
                exact this.2 x0 hx0 y hy
            · subst hi1; subst hf1
              rcases hgetc h2 with g2 | ⟨hi2, hf2⟩
              · have := hinv.sameOid _ rj r0 r2 hij hr0 g2 hoid
                refine ⟨this.1, ?_⟩
                intro x0 hx0 y hy
                rw [hacts] at hx0
                exact this.2 x0 hx0 y hy
              · omega
          · intro r' hr' x0 hx0
            rcases List.mem_iff_get?.mp hr' with ⟨j, hj⟩
            rcases hgetc hj with h1 | ⟨_, h2⟩
            · rcases hinv.doneEv r' (List.get?_mem h1) x0 hx0 with ⟨ok2, hc⟩ | hsk
              · exact Or.inl ⟨ok2, List.mem_append.mpr (Or.inl hc)⟩
              · exact Or.inr (List.mem_append.mpr (Or.inl hsk))
            · subst h2
              simp only at hx0
              rcases hinv.doneEv r0 hr0mem x0 hx0 with ⟨ok2, hc⟩ | hsk
              · exact Or.inl ⟨ok2, List.mem_append.mpr (Or.inl hc)⟩
              · exact Or.inr (List.mem_append.mpr (Or.inl hsk))
          · intro r' hr' x0 hx0
            rcases List.mem_iff_get?.mp hr' with ⟨j, hj⟩
            rcases hgetc hj with h1 | ⟨_, h2⟩
            · exact List.mem_append.mpr
                (Or.inl (hinv.runningEv r' (List.get?_mem h1) x0 hx0))
            · subst h2
              simp only at hx0
              injection hx0 with hx0
              subst hx0
              exact List.mem_append.mpr (Or.inr (List.mem_singleton.mpr rfl))
          · intro x0 hsk ri r' hr' hx0
            have hskold : Ev.skip x0 ∈ s.hist := by
              rcases List.mem_append.mp hsk with h | h
              · exact h
              · simp at h
            rcases hgetc hr' with g1 | ⟨hij, hfr⟩
            · exact hinv.skipCancelled x0 hskold ri r' g1 hx0
            · subst hij; subst hfr
              rw [hacts] at hx0
              exact hinv.skipCancelled x0 hskold _ r0 hr0 hx0
          · intro x0 ok0 hc
            rcases List.mem_append.mp hc with h | h
            · exact List.mem_append.mpr (Or.inl (hinv.completeStarted x0 ok0 h))
            · simp at h
          · intro p b hp ri r' hr' hb x0 hx0 hlt
            rcases get?_append_cases s.hist [Ev.start a] p _ hp with
              ⟨hplen, hpold⟩ | ⟨i, hpi, hi⟩
            · rcases hgetc hr' with g1 | ⟨hij, hfr⟩
              · rcases hinv.startOrder p b hpold ri r' g1 hb x0 hx0 hlt with
                  ⟨i, hip, hcase⟩
                refine ⟨i, hip, ?_⟩
                rcases hcase with ⟨ok2, hc⟩ | hs
                · exact Or.inl ⟨ok2, get?_append_left_of_lt _ hc⟩
                · exact Or.inr (get?_append_left_of_lt _ hs)
              · subst hij
                subst hfr
                rw [hacts] at hb hx0
                rcases hinv.startOrder p b hpold _ r0 hr0 hb x0 hx0 hlt with
                  ⟨i, hip, hcase⟩
                refine ⟨i, hip, ?_⟩
                rcases hcase with ⟨ok2, hc⟩ | hs
                · exact Or.inl ⟨ok2, get?_append_left_of_lt _ hc⟩
                · exact Or.inr (get?_append_left_of_lt _ hs)
            · cases i with
              | zero =>
                simp only [List.get?] at hi
                injection hi with hi
                injection hi with hi
                subst hi
                have hplen2 : p = s.hist.length := by omega
                have hx0acts : x0 ∈ r0.acts := by
                  rcases hgetc hr' with g1 | ⟨hij, hfr⟩
                  · have hri : ri = ri0 :=
                      hinv.actsUnique ri ri0 r' r0 g1 hr0 a hb hamem
                    subst hri
                    rw [hr0] at g1
                    injection g1 with g1
                    subst g1
                    exact hx0
                  · subst hfr
                    rw [hacts] at hx0
                    exact hx0
                have hx0done : x0 ∈ r0.doneActs :=
                  lt_head_pending_mem_done r0 a rest hgate.1 hpend
                    (hinv.actsSorted r0 hr0mem) x0 hx0acts hlt
                rcases hinv.doneEv r0 hr0mem x0 hx0done with ⟨ok2, hc⟩ | hsk
                · rcases List.mem_iff_get?.mp hc with ⟨q, hq⟩
                  have hqlen : q < s.hist.length := (List.get?_eq_some.mp hq).1
                  refine ⟨q, by omega, Or.inl ⟨ok2, get?_append_left_of_lt _ hq⟩⟩
                · rcases List.mem_iff_get?.mp hsk with ⟨q, hq⟩
                  have hqlen : q < s.hist.length := (List.get?_eq_some.mp hq).1
                  refine ⟨q, by omega, Or.inr (get?_append_left_of_lt _ hq)⟩
              | succ m => simp [List.get?] at hi
          · intro p q oid oid2 x0 y hpq hp hq
            rcases get?_append_cases s.hist [Ev.start a] p _ hp with
              ⟨_, hpold⟩ | ⟨i, _, hi⟩
            · rcases get?_append_cases s.hist [Ev.start a] q _ hq with
                ⟨_, hqold⟩ | ⟨i, _, hi⟩
              · exact hinv.enqIncreasing p q oid oid2 x0 y hpq hpold hqold
              · cases i with
                | zero => simp [List.get?] at hi
                | succ m => simp [List.get?] at hi
            · cases i with
              | zero => simp [List.get?] at hi
              | succ m => simp [List.get?] at hi
          · intro p oid a0 hcancev henq hnostart
            have hplen : p < s.hist.length := by
              rcases hcancev with hc | hc
              all_goals {
                rcases get?_append_cases s.hist [Ev.start a] p _ hc with
                  ⟨h1, _⟩ | ⟨i, _, hi⟩
                · exact h1
                · cases i with
                  | zero => simp [List.get?] at hi
                  | succ m => simp [List.get?] at hi
              }
            have hcancold : s.hist.get? p = some (Ev.cancelOutput oid) ∨
                s.hist.get? p = some Ev.cancelAll := by
              rcases hcancev with hc | hc
              · left
                rwa [List.get?_append hplen] at hc
              · right
                rwa [List.get?_append hplen] at hc
            have henqold : ∃ q < p, s.hist.get? q = some (Ev.enq oid a0) := by
              rcases henq with ⟨q, hqp, hq⟩
              exact ⟨q, hqp, by rwa [List.get?_append (Nat.lt_trans hqp hplen)] at hq⟩
            have hnostartold : ∀ i < p, s.hist.get? i ≠ some (Ev.start a0) := by
              intro i hip his
              exact hnostart i hip (get?_append_left_of_lt _ his)
            have hold := hinv.cancelSafety p oid a0 hcancold henqold hnostartold
            have hne : Ev.start a ≠ Ev.start a0 := by
              intro h
              injection h with h
              subst h
              have hct := hold.1 ri0 r0 hr0 hamem
              rw [hct] at hcancf
              exact Bool.noConfusion hcancf
            constructor
            · intro ri r' hr' ha
              rcases hgetc hr' with g1 | ⟨hij, hfr⟩
              · exact hold.1 ri r' g1 ha
              · subst hij; subst hfr
                rw [hacts] at ha
                exact hold.1 _ r0 hr0 ha
            · exact no_start_lift s.hist (Ev.start a) a0 hold.2 hne
    · have hstep : next ri0 s = s := by
        unfold next
        rw [hr0]
        dsimp only
        rw [if_neg hgate]
      rw [hstep]
      exact hinv

end OutputsQueue

namespace OutputsQueue

theorem lookupKey_append_of_some {α : Type} (l₂ : List (String × α))
    {l₁ : List (String × α)} {k : String} {v : α} (h : lookupKey l₁ k = some v) :
    lookupKey (l₁ ++ l₂) k = some v := by
  induction l₁ with
  | nil => simp [lookupKey] at h
  | cons kv rest ih =>
    simp only [lookupKey] at h ⊢
    by_cases hk : kv.1 = k
    · rwa [if_pos hk] at h ⊢
    · rw [if_neg hk] at h ⊢
      exact ih h

theorem lookupKey_append_cases {α : Type} {l : List (String × α)}
    {k0 : String} {v0 : α} {k : String} {v : α}
    (h : lookupKey (l ++ [(k0, v0)]) k = some v) :
    lookupKey l k = some v ∨ (lookupKey l k = none ∧ k0 = k ∧ v = v0) := by
  cases h2 : lookupKey l k with
  | some w =>
    rw [lookupKey_append_of_some _ h2] at h
    injection h with h
    subst h
    exact Or.inl rfl
  | none =>
    rw [lookupKey_append_of_none _ h2, lookupKey_singleton] at h
    by_cases hk : k0 = k
    · rw [if_pos hk] at h
      injection h with h
      exact Or.inr ⟨rfl, hk, h.symm⟩
    · rw [if_neg hk] at h
      exact absurd h (by simp)

end OutputsQueue

namespace OutputsQueue

theorem no_start_lift2 (h : List Ev) (e1 e2 : Ev) (a : Nat)
    (hold : ∀ j, h.get? j ≠ some (Ev.start a)) (h1 : e1 ≠ Ev.start a)
    (h2 : e2 ≠ Ev.start a) :
    ∀ j, (h ++ [e1, e2]).get? j ≠ some (Ev.start a) := by
  have hsplit : h ++ [e1, e2] = (h ++ [e1]) ++ [e2] := by simp
  rw [hsplit]
  exact no_start_lift _ e2 a (no_start_lift h e1 a hold h1) h2

theorem qinv_enqueue (s : QState) (oid : String) (hinv : QInv s) :
    QInv (enqueue oid s) := by
  cases hc : lookupKey s.index oid with
  | none =>
    set R : QRec :=
      { oid := oid, cancelled := false, rejected := false,
        running := some s.nextAct, pending := [], doneActs := [] } with hR
    have hstep : enqueue oid s =
        { recs := s.recs ++ [R],
          index := s.index ++ [(oid, s.recs.length)],
          nextAct := s.nextAct + 1,
          hist := s.hist ++ [Ev.enq oid s.nextAct, Ev.start s.nextAct] } := by
      unfold enqueue
      dsimp only
      rw [hc, hR]
    rw [hstep]
    have hRacts : R.acts = [s.nextAct] := by simp [QRec.acts, hR]
    have hRget : (s.recs ++ [R]).get? s.recs.length = some R :=
      List.get?_concat_length s.recs R
    have hgetc : ∀ {j : Nat} {r' : QRec}, (s.recs ++ [R]).get? j = some r' →
        s.recs.get? j = some r' ∨ (j = s.recs.length ∧ r' = R) := by
      intro j r' h
      rcases get?_append_cases s.recs [R] j r' h with ⟨_, h1⟩ | ⟨i, hji, hi⟩
      · exact Or.inl h1
      · cases i with
        | zero =>
          simp only [List.get?] at hi
          injection hi with hi
          exact Or.inr ⟨by omega, hi.symm⟩
        | succ m => simp [List.get?] at hi
    have hfresh : ∀ r ∈ s.recs, ∀ x ∈ r.acts, x ≠ s.nextAct := by
      intro r hr x hx h
      have := hinv.actsLt r hr x hx
      omega
    refine ⟨?_, ?_, ?_, ?_, ?_, ?_, ?_, ?_, ?_, ?_, ?_, ?_, ?_, ?_, ?_⟩
    all_goals dsimp only
    · intro r' hr' a0 ha0
      rcases List.mem_append.mp hr' with h | h
      · have := hinv.actsLt r' h a0 ha0
        omega
      · simp only [List.mem_singleton] at h
        subst h
        rw [hRacts] at ha0
        simp only [List.mem_singleton] at ha0
        omega
    · intro e he a0 ha0
      rcases List.mem_append.mp he with h | h
      · have := hinv.histLt e h a0 ha0
        omega
      · rcases List.mem_cons.mp h with h | h
        · subst h
          simp only [Ev.acts, List.mem_singleton] at ha0
          omega
        · simp only [List.mem_singleton] at h
          subst h
          simp only [Ev.acts, List.mem_singleton] at ha0
          omega
    · intro r' hr'
      rcases List.mem_append.mp hr' with h | h
      · exact hinv.actsSorted r' h
      · simp only [List.mem_singleton] at h
        subst h
        rw [hRacts]
        simp
    · intro ri rj r r2 h1 h2 x0 hx1 hx2
      rcases hgetc h1 with g1 | ⟨hi1, hf1⟩
      · rcases hgetc h2 with g2 | ⟨hi2, hf2⟩
        · exact hinv.actsUnique ri rj r r2 g1 g2 x0 hx1 hx2
        · subst hf2
          rw [hRacts] at hx2
          simp only [List.mem_singleton] at hx2
          exact absurd hx2 (hfresh r (List.get?_mem g1) x0 hx1)
      · subst hf1
        rw [hRacts] at hx1
        simp only [List.mem_singleton] at hx1
        rcases hgetc h2 with g2 | ⟨hi2, hf2⟩
        · exact absurd hx1 (hfresh r2 (List.get?_mem g2) x0 hx2)
        · omega
    · intro oid2 a0 he
      rcases List.mem_append.mp he with h | h
      · rcases hinv.enqOwner oid2 a0 h with ⟨ri, r, hr, hoid, hmem⟩
        exact ⟨ri, r, get?_append_left_of_lt _ hr, hoid, hmem⟩
      · rcases List.mem_cons.mp h with h | h
        · injection h with ho ha
          subst ho
          subst ha
          refine ⟨s.recs.length, R, hRget, by simp [hR], ?_⟩
          rw [hRacts]
          simp
        · simp at h
    · intro oid2 ri hl
      rcases lookupKey_append_cases hl with h | ⟨hnone, hk, hv⟩
      · rcases hinv.mapsTo oid2 ri h with ⟨r, hr, hoid, hcanc⟩
        exact ⟨r, get?_append_left_of_lt _ hr, hoid, hcanc⟩
      · subst hk
        subst hv
        exact ⟨R, hRget, by simp [hR], by simp [hR]⟩
    · intro ri r' hr' hcanc
      rcases hgetc hr' with g1 | ⟨hi1, hf1⟩
      · exact lookupKey_append_of_some _ (hinv.inMap ri r' g1 hcanc)
      · subst hi1
        subst hf1
        have hRoid : R.oid = oid := by simp [hR]
        rw [hRoid, lookupKey_append_of_none _ hc, lookupKey_singleton, if_pos rfl]
    · intro ri rj r r2 hij h1 h2 hoid
      rcases hgetc h1 with g1 | ⟨hi1, hf1⟩
      · rcases hgetc h2 with g2 | ⟨hi2, hf2⟩
        · exact hinv.sameOid ri rj r r2 hij g1 g2 hoid
        · subst hf2
          have hroid : r.oid = oid := by rw [hoid]
          have hrc : r.cancelled = true := by
            cases hcr : r.cancelled
            · have := hinv.inMap ri r g1 hcr
              rw [hroid] at this
              rw [this] at hc
              exact absurd hc (by simp)
            · rfl
          refine ⟨hrc, ?_⟩
          intro x hx y hy
          rw [hRacts] at hy
          simp only [List.mem_singleton] at hy
          subst hy
          exact hinv.actsLt r (List.get?_mem g1) x hx
      · subst hi1
        exfalso
        have := (List.get?_eq_some.mp h2).1
        simp only [List.length_append, List.length_singleton] at this
        omega
    · intro r' hr' x0 hx0
      rcases List.mem_append.mp hr' with h | h
      · rcases hinv.doneEv r' h x0 hx0 with ⟨ok2, hcm⟩ | hsk
        · exact Or.inl ⟨ok2, List.mem_append.mpr (Or.inl hcm)⟩
        · exact Or.inr (List.mem_append.mpr (Or.inl hsk))
      · simp only [List.mem_singleton] at h
        subst h
        simp [hR] at hx0
    · intro r' hr' x0 hx0
      rcases List.mem_append.mp hr' with h | h
      · exact List.mem_append.mpr (Or.inl (hinv.runningEv r' h x0 hx0))
      · simp only [List.mem_singleton] at h
        subst h
        simp only [hR] at hx0
        injection hx0 with hx0
        subst hx0
        refine List.mem_append.mpr (Or.inr ?_)
        simp
    · intro x0 hsk ri r' hr' hx0
      have hskold : Ev.skip x0 ∈ s.hist := by
        rcases List.mem_append.mp hsk with h | h
        · exact h
        · rcases List.mem_cons.mp h with h | h
          · exact absurd h (by simp)
          · simp at h
      rcases hgetc hr' with g1 | ⟨hi1, hf1⟩
      · exact hinv.skipCancelled x0 hskold ri r' g1 hx0
      · subst hf1
        rw [hRacts] at hx0
        simp only [List.mem_singleton] at hx0
        have := hinv.histLt _ hskold x0 (by simp [Ev.acts])
        omega
    · intro x0 ok0 hcm
      rcases List.mem_append.mp hcm with h | h
      · exact List.mem_append.mpr (Or.inl (hinv.completeStarted x0 ok0 h))
      · rcases List.mem_cons.mp h with h | h
        · exact absurd h (by simp)
        · simp at h
    · intro p b hp ri r' hr' hb x0 hx0 hlt
      rcases get?_append_cases s.hist [Ev.enq oid s.nextAct, Ev.start s.nextAct]
          p _ hp with ⟨hplen, hpold⟩ | ⟨i, hpi, hi⟩
      · rcases hgetc hr' with g1 | ⟨hi1, hf1⟩
        · rcases hinv.startOrder p b hpold ri r' g1 hb x0 hx0 hlt with
            ⟨i, hip, hcase⟩
          refine ⟨i, hip, ?_⟩
          rcases hcase with ⟨ok2, hcm⟩ | hs
          · exact Or.inl ⟨ok2, get?_append_left_of_lt _ hcm⟩
          · exact Or.inr (get?_append_left_of_lt _ hs)
        · subst hf1
          rw [hRacts] at hb
          simp only [List.mem_singleton] at hb
          have := hinv.histLt _ (List.get?_mem hpold) b (by simp [Ev.acts])
          omega
      · cases i with
        | zero => simp [List.get?] at hi
        | succ m =>
          cases m with
          | zero =>
            simp only [List.get?] at hi
            injection hi with hi
            injection hi with hi
            rcases hgetc hr' with g1 | ⟨hi1, hf1⟩
            · exact absurd hi.symm (hfresh r' (List.get?_mem g1) b hb)
            · subst hf1
              rw [hRacts] at hx0
              simp only [List.mem_singleton] at hx0
              omega
          | succ m2 => simp [List.get?] at hi
    · intro p q oid1 oid2 x0 y hpq hp hq
      rcases get?_append_cases s.hist [Ev.enq oid s.nextAct, Ev.start s.nextAct]
          q _ hq with ⟨hqlen, hqold⟩ | ⟨i, hqi, hi⟩
      · have hplen : p < s.hist.length := Nat.lt_trans hpq hqlen
        rw [List.get?_append hplen] at hp
        exact hinv.enqIncreasing p q oid1 oid2 x0 y hpq hp hqold
      · cases i with
        | zero =>
          simp only [List.get?] at hi
          injection hi with hi
          injection hi with ho hy
          subst hy
          have hplen : p < s.hist.length := by
            have : q = s.hist.length := by omega
            omega
          rw [List.get?_append hplen] at hp
          have := hinv.histLt _ (List.get?_mem hp) x0 (by simp [Ev.acts])
          omega
        | succ m =>
          cases m with
          | zero => simp [List.get?] at hi
          | succ m2 => simp [List.get?] at hi
    · intro p oid2 a0 hcancev henq hnostart
      have hplen : p < s.hist.length := by
        rcases hcancev with hcv | hcv
        all_goals {
          rcases get?_append_cases s.hist
              [Ev.enq oid s.nextAct, Ev.start s.nextAct] p _ hcv with
            ⟨h1, _⟩ | ⟨i, _, hi⟩
          · exact h1
          · cases i with
            | zero => simp [List.get?] at hi
            | succ m =>
              cases m with
              | zero => simp [List.get?] at hi
              | succ m2 => simp [List.get?] at hi
        }
      have hcancold : s.hist.get? p = some (Ev.cancelOutput oid2) ∨
          s.hist.get? p = some Ev.cancelAll := by
        rcases hcancev with hcv | hcv
        · left
          rwa [List.get?_append hplen] at hcv
        · right
          rwa [List.get?_append hplen] at hcv
      have henqold : ∃ q < p, s.hist.get? q = some (Ev.enq oid2 a0) := by
        rcases henq with ⟨q, hqp, hq⟩
        exact ⟨q, hqp, by rwa [List.get?_append (Nat.lt_trans hqp hplen)] at hq⟩
      have hnostartold : ∀ i < p, s.hist.get? i ≠ some (Ev.start a0) := by
        intro i hip his
        exact hnostart i hip (get?_append_left_of_lt _ his)
      have hold := hinv.cancelSafety p oid2 a0 hcancold henqold hnostartold
      have ha0lt : a0 < s.nextAct := by
        rcases henqold with ⟨q, _, hq⟩
        exact hinv.histLt _ (List.get?_mem hq) a0 (by simp [Ev.acts])
      constructor
      · intro ri r' hr' ha
        rcases hgetc hr' with g1 | ⟨hi1, hf1⟩
        · exact hold.1 ri r' g1 ha
        · subst hf1
          rw [hRacts] at ha
          simp only [List.mem_singleton] at ha
          omega
      · refine no_start_lift2 s.hist _ _ a0 hold.2 (by simp) ?_
        intro h
        injection h with h
        omega
  | some ri1 =>
    rcases hinv.mapsTo oid ri1 hc with ⟨r1, hr1, hr1oid, hr1canc⟩
    set f : QRec → QRec := fun r =>
      { r with pending := r.pending ++ [s.nextAct] } with hf
    have hstep : enqueue oid s =
        { recs := modifyAt f s.recs ri1,
          index := s.index,
          nextAct := s.nextAct + 1,
          hist := s.hist ++ [Ev.enq oid s.nextAct] } := by
      unfold enqueue
      dsimp only
      rw [hc, hf]
    rw [hstep]
    have hacts : (f r1).acts = r1.acts ++ [s.nextAct] := acts_chain_step r1 s.nextAct
    have hgetc : ∀ {j : Nat} {r' : QRec},
        (modifyAt f s.recs ri1).get? j = some r' →
        s.recs.get? j = some r' ∨ (j = ri1 ∧ r' = f r1) := by
      intro j r' h
      rcases modifyAt_get?_cases f s.recs ri1 h with h1 | ⟨hij, r, hr, hfr⟩
      · exact Or.inl h1
      · subst hij
        rw [hr1] at hr
        injection hr with hr
        subst hr
        exact Or.inr ⟨rfl, hfr⟩
    have hr1mem : r1 ∈ s.recs := List.get?_mem hr1
    refine ⟨?_, ?_, ?_, ?_, ?_, ?_, ?_, ?_, ?_, ?_, ?_, ?_, ?_, ?_, ?_⟩
    all_goals dsimp only
    · intro r' hr' a0 ha0
      rcases List.mem_iff_get?.mp hr' with ⟨j, hj⟩
      rcases hgetc hj with h1 | ⟨_, h2⟩
      · have := hinv.actsLt r' (List.get?_mem h1) a0 ha0
        omega
      · subst h2
        rw [hacts] at ha0
        rcases List.mem_append.mp ha0 with h | h
        · have := hinv.actsLt r1 hr1mem a0 h
          omega
        · simp only [List.mem_singleton] at h
          omega
    · intro e he a0 ha0
      rcases List.mem_append.mp he with h | h
      · have := hinv.histLt e h a0 ha0
        omega
      · simp only [List.mem_singleton] at h
        subst h
        simp only [Ev.acts, List.mem_singleton] at ha0
        omega
    · intro r' hr'
      rcases List.mem_iff_get?.mp hr' with ⟨j, hj⟩
      rcases hgetc hj with h1 | ⟨_, h2⟩
      · exact hinv.actsSorted r' (List.get?_mem h1)
      · subst h2
        rw [hacts]
        rw [List.pairwise_append]
        refine ⟨hinv.actsSorted r1 hr1mem, by simp, ?_⟩
        intro x hx y hy
        simp only [List.mem_singleton] at hy
        subst hy
        exact hinv.actsLt r1 hr1mem x hx
    · intro ri rj r r2 h1 h2 x0 hx1 hx2
      rcases hgetc h1 with g1 | ⟨hi1, hf1⟩
      · rcases hgetc h2 with g2 | ⟨hi2, hf2⟩
        · exact hinv.actsUnique ri rj r r2 g1 g2 x0 hx1 hx2
        · subst hi2
          subst hf2
          rw [hacts] at hx2
          rcases List.mem_append.mp hx2 with h | h
          · exact hinv.actsUnique ri _ r r1 g1 hr1 x0 hx1 h
          · simp only [List.mem_singleton] at h
            have := hinv.actsLt r (List.get?_mem g1) x0 hx1
            omega
      · subst hi1
        subst hf1
        rw [hacts] at hx1
        rcases hgetc h2 with g2 | ⟨hi2, hf2⟩
        · rcases List.mem_append.mp hx1 with h | h
          · exact hinv.actsUnique _ rj r1 r2 hr1 g2 x0 h hx2
          · simp only [List.mem_singleton] at h
            have := hinv.actsLt r2 (List.get?_mem g2) x0 hx2
            omega
        · subst hi2
          rfl
    · intro oid2 a0 he
      rcases List.mem_append.mp he with h | h
      · rcases hinv.enqOwner oid2 a0 h with ⟨ri, r, hr, hoid, hmem⟩
        by_cases hri : ri = ri1
        · subst hri
          rw [hr1] at hr
          injection hr with hr
          subst hr
          refine ⟨ri, f r1, modifyAt_get?_self f s.recs ri hr1, hoid, ?_⟩
          rw [hacts]
          exact List.mem_append.mpr (Or.inl hmem)
        · exact ⟨ri, r,
            by rw [modifyAt_get?_other f s.recs (fun h => hri h.symm)]; exact hr,
            hoid, hmem⟩
      · simp only [List.mem_singleton] at h
        injection h with ho ha
        subst ho
        subst ha
        refine ⟨ri1, f r1, modifyAt_get?_self f s.recs ri1 hr1, hr1oid, ?_⟩
        rw [hacts]
        simp
    · intro oid2 ri hl
      rcases hinv.mapsTo oid2 ri hl with ⟨r, hr, hoid, hcanc2⟩
      by_cases hri : ri1 = ri
      · subst hri
        rw [hr1] at hr
        injection hr with hr
        subst hr
        exact ⟨f r1, modifyAt_get?_self f s.recs _ hr1, hr1oid ▸ hoid, hcanc2⟩
      · exact ⟨r, by rw [modifyAt_get?_other f s.recs hri]; exact hr, hoid, hcanc2⟩
    · intro ri r' hr' hcanc2
      rcases hgetc hr' with g1 | ⟨hi1, hf1⟩
      · exact hinv.inMap ri r' g1 hcanc2
      · subst hi1
        subst hf1
        exact hinv.inMap _ r1 hr1 hcanc2
    · intro ri rj r r2 hij h1 h2 hoid
      rcases hgetc h1 with g1 | ⟨hi1, hf1⟩
      · rcases hgetc h2 with g2 | ⟨hi2, hf2⟩
        · exact hinv.sameOid ri rj r r2 hij g1 g2 hoid
        · subst hi2
          subst hf2
          have := hinv.sameOid ri _ r r1 hij g1 hr1 hoid
          refine ⟨this.1, ?_⟩
          intro x hx y hy
          rw [hacts] at hy
          rcases List.mem_append.mp hy with h | h
          · exact this.2 x hx y h
          · simp only [List.mem_singleton] at h
            subst h
            exact hinv.actsLt r (List.get?_mem g1) x hx
      · subst hi1
        subst hf1
        rcases hgetc h2 with g2 | ⟨hi2, hf2⟩
        · have := hinv.sameOid _ rj r1 r2 hij hr1 g2 hoid
          rw [this.1] at hr1canc
          exact absurd hr1canc (by simp)
        · omega
    · intro r' hr' x0 hx0
      rcases List.mem_iff_get?.mp hr' with ⟨j, hj⟩
      rcases hgetc hj with h1 | ⟨_, h2⟩
      · rcases hinv.doneEv r' (List.get?_mem h1) x0 hx0 with ⟨ok2, hcm⟩ | hsk
        · exact Or.inl ⟨ok2, List.mem_append.mpr (Or.inl hcm)⟩
        · exact Or.inr (List.mem_append.mpr (Or.inl hsk))
      · subst h2
        simp only at hx0
        rcases hinv.doneEv r1 hr1mem x0 hx0 with ⟨ok2, hcm⟩ | hsk
        · exact Or.inl ⟨ok2, List.mem_append.mpr (Or.inl hcm)⟩
        · exact Or.inr (List.mem_append.mpr (Or.inl hsk))
    · intro r' hr' x0 hx0
      rcases List.mem_iff_get?.mp hr' with ⟨j, hj⟩
      rcases hgetc hj with h1 | ⟨_, h2⟩
      · exact List.mem_append.mpr (Or.inl (hinv.runningEv r' (List.get?_mem h1) x0 hx0))
      · subst h2
        simp only at hx0
        exact List.mem_append.mpr (Or.inl (hinv.runningEv r1 hr1mem x0 hx0))
    · intro x0 hsk ri r' hr' hx0
      have hskold : Ev.skip x0 ∈ s.hist := by
        rcases List.mem_append.mp hsk with h | h
        · exact h
        · simp at h
      rcases hgetc hr' with g1 | ⟨hi1, hf1⟩
      · exact hinv.skipCancelled x0 hskold ri r' g1 hx0
      · subst hf1
        rw [hacts] at hx0
        rcases List.mem_append.mp hx0 with h | h
        · exact hinv.skipCancelled x0 hskold _ r1 hr1 h
        · simp only [List.mem_singleton] at h
          have := hinv.histLt _ hskold x0 (by simp [Ev.acts])
          omega
    · intro x0 ok0 hcm
      rcases List.mem_append.mp hcm with h | h
      · exact List.mem_append.mpr (Or.inl (hinv.completeStarted x0 ok0 h))
      · simp at h
    · intro p b hp ri r' hr' hb x0 hx0 hlt
      rcases get?_append_cases s.hist [Ev.enq oid s.nextAct] p _ hp with
        ⟨hplen, hpold⟩ | ⟨i, hpi, hi⟩
      · rcases hgetc hr' with g1 | ⟨hi1, hf1⟩
        · rcases hinv.startOrder p b hpold ri r' g1 hb x0 hx0 hlt with
            ⟨i, hip, hcase⟩
          refine ⟨i, hip, ?_⟩
          rcases hcase with ⟨ok2, hcm⟩ | hs
          · exact Or.inl ⟨ok2, get?_append_left_of_lt _ hcm⟩
          · exact Or.inr (get?_append_left_of_lt _ hs)
        · subst hf1
          rw [hacts] at hb hx0
          have hblt : b < s.nextAct :=
            hinv.histLt _ (List.get?_mem hpold) b (by simp [Ev.acts])
          have hbold : b ∈ r1.acts := by
            rcases List.mem_append.mp hb with h | h
            · exact h
            · simp only [List.mem_singleton] at h
              omega
          have hx0old : x0 ∈ r1.acts := by
            rcases List.mem_append.mp hx0 with h | h
            · exact h
            · simp only [List.mem_singleton] at h
              omega
          rcases hinv.startOrder p b hpold _ r1 hr1 hbold x0 hx0old hlt with
            ⟨i, hip, hcase⟩
          refine ⟨i, hip, ?_⟩
          rcases hcase with ⟨ok2, hcm⟩ | hs
          · exact Or.inl ⟨ok2, get?_append_left_of_lt _ hcm⟩
          · exact Or.inr (get?_append_left_of_lt _ hs)
      · cases i with
        | zero => simp [List.get?] at hi
        | succ m => simp [List.get?] at hi
    · intro p q oid1 oid2 x0 y hpq hp hq
      rcases get?_append_cases s.hist [Ev.enq oid s.nextAct] q _ hq with
        ⟨hqlen, hqold⟩ | ⟨i, hqi, hi⟩
      · have hplen : p < s.hist.length := Nat.lt_trans hpq hqlen
        rw [List.get?_append hplen] at hp
        exact hinv.enqIncreasing p q oid1 oid2 x0 y hpq hp hqold
      · cases i with
        | zero =>
          simp only [List.get?] at hi
          injection hi with hi
          injection hi with ho hy
          subst hy
          have hplen : p < s.hist.length := by omega
          rw [List.get?_append hplen] at hp
          have := hinv.histLt _ (List.get?_mem hp) x0 (by simp [Ev.acts])
          omega
        | succ m => simp [List.get?] at hi
    · intro p oid2 a0 hcancev henq hnostart
      have hplen : p < s.hist.length := by
        rcases hcancev with hcv | hcv
        all_goals {
          rcases get?_append_cases s.hist [Ev.enq oid s.nextAct] p _ hcv with
            ⟨h1, _⟩ | ⟨i, _, hi⟩
          · exact h1
          · cases i with
            | zero => simp [List.get?] at hi
            | succ m => simp [List.get?] at hi
        }
      have hcancold : s.hist.get? p = some (Ev.cancelOutput oid2) ∨
          s.hist.get? p = some Ev.cancelAll := by
        rcases hcancev with hcv | hcv
        · left
          rwa [List.get?_append hplen] at hcv
        · right
          rwa [List.get?_append hplen] at hcv
      have henqold : ∃ q < p, s.hist.get? q = some (Ev.enq oid2 a0) := by
        rcases henq with ⟨q, hqp, hq⟩
        exact ⟨q, hqp, by rwa [List.get?_append (Nat.lt_trans hqp hplen)] at hq⟩
      have hnostartold : ∀ i < p, s.hist.get? i ≠ some (Ev.start a0) := by
        intro i hip his
        exact hnostart i hip (get?_append_left_of_lt _ his)
      have hold := hinv.cancelSafety p oid2 a0 hcancold henqold hnostartold
      have ha0lt : a0 < s.nextAct := by
        rcases henqold with ⟨q, _, hq⟩
        exact hinv.histLt _ (List.get?_mem hq) a0 (by simp [Ev.acts])
      constructor
      · intro ri r' hr' ha
        rcases hgetc hr' with g1 | ⟨hi1, hf1⟩
        · exact hold.1 ri r' g1 ha
        · subst hf1
          rw [hacts] at ha
          rcases List.mem_append.mp ha with h | h
          · exact hold.1 _ r1 hr1 h
          · simp only [List.mem_singleton] at h
            omega
      · exact no_start_lift s.hist _ a0 hold.2 (by simp)

end OutputsQueue

namespace OutputsQueue

theorem mem_acts_cases (r : QRec) {x : Nat} (h : x ∈ r.acts) :
    x ∈ r.doneActs ∨ r.running = some x ∨ x ∈ r.pending := by
  simp only [QRec.acts, List.mem_append] at h
  rcases h with (h | h) | h
  · exact Or.inl h
  · cases hr : r.running with
    | none =>
      rw [hr] at h
      simp at h
    | some y =>
      rw [hr] at h
      simp only [Option.toList_some, List.mem_singleton] at h
      subst h
      exact Or.inr (Or.inl rfl)
  · exact Or.inr (Or.inr h)

theorem no_start_all (h : List Ev) (a0 p : Nat) (hp : h.length ≤ p)
    (hns : ∀ i < p, h.get? i ≠ some (Ev.start a0)) :
    ∀ i, h.get? i ≠ some (Ev.start a0) := by
  intro i hi
  by_cases hlt : i < p
  · exact hns i hlt hi
  · have := (List.get?_eq_some.mp hi).1
    omega

theorem owner_cancelled_or_mapped (s : QState) (hinv : QInv s) (oid : String)
    (a0 : Nat) (henq : Ev.enq oid a0 ∈ s.hist)
    (hnostart : ∀ i, s.hist.get? i ≠ some (Ev.start a0)) :
    ∀ ri r, s.recs.get? ri = some r → a0 ∈ r.acts →
      r.cancelled = true ∨ (r.oid = oid ∧ lookupKey s.index oid = some ri) := by
  intro ri r hr ha
  obtain ⟨ri2, r2, hr2, hoid2, ha2⟩ := hinv.enqOwner oid a0 henq
  have hri : ri = ri2 := hinv.actsUnique ri ri2 r r2 hr hr2 a0 ha ha2
  subst hri
  rw [hr] at hr2
  injection hr2 with hr2
  subst hr2
  rcases mem_acts_cases r ha with hd | hrn | hpd
  · rcases hinv.doneEv r (List.get?_mem hr) a0 hd with ⟨ok2, hcm⟩ | hsk
    · exfalso
      have := hinv.completeStarted a0 ok2 hcm
      rcases List.mem_iff_get?.mp this with ⟨i, hi⟩
      exact hnostart i hi
    · exact Or.inl (hinv.skipCancelled a0 hsk ri r hr ha)
  · exfalso
    have := hinv.runningEv r (List.get?_mem hr) a0 hrn
    rcases List.mem_iff_get?.mp this with ⟨i, hi⟩
    exact hnostart i hi
  · cases hcr : r.cancelled with
    | true => exact Or.inl rfl
    | false =>
      have := hinv.inMap ri r hr hcr
      rw [hoid2] at this
      exact Or.inr ⟨hoid2, this⟩

theorem cancelFold_get?_or (idx : List (String × Nat)) (rs : List QRec) (j : Nat) :
    (idx.foldl (fun rs kv =>
        modifyAt (fun r => { r with cancelled := true }) rs kv.2) rs).get? j =
      rs.get? j ∨
    (idx.foldl (fun rs kv =>
        modifyAt (fun r => { r with cancelled := true }) rs kv.2) rs).get? j =
      (rs.get? j).map (fun r => { r with cancelled := true }) := by
  induction idx generalizing rs with
  | nil => exact Or.inl rfl
  | cons kv rest ih =>
    simp only [List.foldl]
    rcases ih (modifyAt (fun r => { r with cancelled := true }) rs kv.2) with h | h
    · rw [h, modifyAt_get?]
      by_cases hj : kv.2 = j
      · rw [if_pos hj]
        exact Or.inr rfl
      · rw [if_neg hj]
        exact Or.inl rfl
    · rw [h, modifyAt_get?]
      by_cases hj : kv.2 = j
      · rw [if_pos hj]
        right
        cases rs.get? j <;> rfl
      · rw [if_neg hj]
        exact Or.inr rfl

theorem cancelFold_get?_mem (idx : List (String × Nat)) (rs : List QRec)
    {oid : String} {j : Nat} (h : (oid, j) ∈ idx) :
    (idx.foldl (fun rs kv =>
        modifyAt (fun r => { r with cancelled := true }) rs kv.2) rs).get? j =
      (rs.get? j).map (fun r => { r with cancelled := true }) := by
  induction idx generalizing rs with
  | nil => simp at h
  | cons kv rest ih =>
    simp only [List.foldl]
    rcases List.mem_cons.mp h with h1 | h1
    · have hj : kv.2 = j := by rw [← h1]
      rcases cancelFold_get?_or rest
          (modifyAt (fun r => { r with cancelled := true }) rs kv.2) j with h2 | h2
      · rw [h2, modifyAt_get?, if_pos hj]
      · rw [h2, modifyAt_get?, if_pos hj]
        cases rs.get? j <;> rfl
    · rw [ih (modifyAt (fun r => { r with cancelled := true }) rs kv.2) h1,
        modifyAt_get?]
      by_cases hj : kv.2 = j
      · rw [if_pos hj]
        cases rs.get? j <;> rfl
      · rw [if_neg hj]

end OutputsQueue

namespace OutputsQueue

theorem qinv_cancelOutput (oid0 : String) (s : QState) (hinv : QInv s) :
    QInv (cancelOutput oid0 s) := by
  cases hc : lookupKey s.index oid0 with
  | none =>
    have hstep : cancelOutput oid0 s =
        { s with hist := s.hist ++ [Ev.cancelOutput oid0] } := by
      unfold cancelOutput
      rw [hc]
    rw [hstep]
    refine ⟨?_, ?_, ?_, ?_, ?_, ?_, ?_, ?_, ?_, ?_, ?_, ?_, ?_, ?_, ?_⟩
    · exact hinv.actsLt
    · intro e he a ha
      rcases List.mem_append.mp he with he | he
      · exact hinv.histLt e he a ha
      · simp only [List.mem_singleton] at he
        subst he
        simp [Ev.acts] at ha
    · exact hinv.actsSorted
    · exact hinv.actsUnique
    · intro oid a he
      rcases List.mem_append.mp he with he | he
      · exact hinv.enqOwner oid a he
      · simp at he
    · exact hinv.mapsTo
    · exact hinv.inMap
    · exact hinv.sameOid
    · intro r' hr' x0 hx0
      rcases hinv.doneEv r' hr' x0 hx0 with ⟨ok2, hcm⟩ | hsk
      · exact Or.inl ⟨ok2, List.mem_append.mpr (Or.inl hcm)⟩
      · exact Or.inr (List.mem_append.mpr (Or.inl hsk))
    · intro r' hr' x0 hx0
      exact List.mem_append.mpr (Or.inl (hinv.runningEv r' hr' x0 hx0))
    · intro x0 hsk ri r' hr' hx0
      have hskold : Ev.skip x0 ∈ s.hist := by
        rcases List.mem_append.mp hsk with h | h
        · exact h
        · simp at h
      exact hinv.skipCancelled x0 hskold ri r' hr' hx0
    · intro x0 ok0 hcm
      have hcmold : Ev.complete x0 ok0 ∈ s.hist := by
        rcases List.mem_append.mp hcm with h | h
        · exact h
        · simp at h
      exact List.mem_append.mpr (Or.inl (hinv.completeStarted x0 ok0 hcmold))
    · intro p b hp ri r' hr' hb x0 hx0 hlt
      rcases get?_append_cases s.hist [Ev.cancelOutput oid0] p _ hp with
        ⟨hplen, hpold⟩ | ⟨i, hpi, hi⟩
      · rcases hinv.startOrder p b hpold ri r' hr' hb x0 hx0 hlt with
          ⟨i, hip, hcase⟩
        refine ⟨i, hip, ?_⟩
        rcases hcase with ⟨ok2, hcm⟩ | hs
        · exact Or.inl ⟨ok2, get?_append_left_of_lt _ hcm⟩
        · exact Or.inr (get?_append_left_of_lt _ hs)
      · cases i with
        | zero => simp [List.get?] at hi
        | succ m => simp [List.get?] at hi
    · intro p q oid oid2 x0 y hpq hp hq
      rcases get?_append_cases s.hist [Ev.cancelOutput oid0] p _ hp with
        ⟨_, hpold⟩ | ⟨i, _, hi⟩
      · rcases get?_append_cases s.hist [Ev.cancelOutput oid0] q _ hq with
          ⟨_, hqold⟩ | ⟨i, _, hi⟩
        · exact hinv.enqIncreasing p q oid oid2 x0 y hpq hpold hqold
        · cases i with
          | zero => simp [List.get?] at hi
          | succ m => simp [List.get?] at hi
      · cases i with
        | zero => simp [List.get?] at hi
        | succ m => simp [List.get?] at hi
    · intro p oid a hcanc henq hnostart
      by_cases hplen : p < s.hist.length
      · have hcancold : s.hist.get? p = some (Ev.cancelOutput oid) ∨
            s.hist.get? p = some Ev.cancelAll := by
          rcases hcanc with hcv | hcv
          · left
            rwa [List.get?_append hplen] at hcv
          · right
            rwa [List.get?_append hplen] at hcv
        have henqold : ∃ q < p, s.hist.get? q = some (Ev.enq oid a) := by
          rcases henq with ⟨q, hqp, hq⟩
          exact ⟨q, hqp, by rwa [List.get?_append (Nat.lt_trans hqp hplen)] at hq⟩
        have hnostartold : ∀ i < p, s.hist.get? i ≠ some (Ev.start a) := by
          intro i hip his
          exact hnostart i hip (get?_append_left_of_lt _ his)
        have hold := hinv.cancelSafety p oid a hcancold henqold hnostartold
        exact ⟨hold.1, no_start_lift s.hist _ a hold.2 (by simp)⟩
      · have hoidp : oid = oid0 ∧ p = s.hist.length := by
          rcases hcanc with hcv | hcv
          · rcases get?_append_cases s.hist [Ev.cancelOutput oid0] p _ hcv with
              ⟨h1, _⟩ | ⟨i, hpi, hi⟩
            · omega
            · cases i with
              | zero =>
                simp only [List.get?] at hi
                injection hi with hi
                injection hi with hi
                exact ⟨hi.symm, by omega⟩
              | succ m => simp [List.get?] at hi
          · rcases get?_append_cases s.hist [Ev.cancelOutput oid0] p _ hcv with
              ⟨h1, _⟩ | ⟨i, hpi, hi⟩
            · omega
            · cases i with
              | zero =>
                simp only [List.get?] at hi
                injection hi with hi
                exact Ev.noConfusion hi
              | succ m => simp [List.get?] at hi
        obtain ⟨hoide, hpe⟩ := hoidp
        have henqmem : Ev.enq oid a ∈ s.hist := by
          rcases henq with ⟨q, hqp, hq⟩
          rw [List.get?_append (by omega : q < s.hist.length)] at hq
          exact List.get?_mem hq
        have hnostartall : ∀ i, s.hist.get? i ≠ some (Ev.start a) := by
          apply no_start_all s.hist a p (by omega)
          intro i hip his
          exact hnostart i hip (get?_append_left_of_lt _ his)
        have hmain := owner_cancelled_or_mapped s hinv oid a henqmem hnostartall
        constructor
        · intro ri r' hr' ha
          rcases hmain ri r' hr' ha with h | ⟨_, hlook⟩
          · exact h
          · rw [hoide, hc] at hlook
            exact Option.noConfusion hlook
        · exact no_start_lift s.hist _ a hnostartall (by simp)
  | some ri0 =>
    obtain ⟨r0, hr0, hroid0, hrc0⟩ := hinv.mapsTo oid0 ri0 hc
    have hstep : cancelOutput oid0 s =
        { s with
          recs := modifyAt (fun r => { r with cancelled := true }) s.recs ri0,
          index := removeKey s.index oid0,
          hist := s.hist ++ [Ev.cancelOutput oid0] } := by
      unfold cancelOutput
      rw [hc]
    rw [hstep]
    have hgetc : ∀ {j : Nat} {r' : QRec},
        (modifyAt (fun r => { r with cancelled := true }) s.recs ri0).get? j =
          some r' →
        s.recs.get? j = some r' ∨
          (j = ri0 ∧ r' = { r0 with cancelled := true }) := by
      intro j r' h
      rcases modifyAt_get?_cases _ s.recs ri0 h with h1 | ⟨hij, r, hr, hfr⟩
      · exact Or.inl h1
      · subst hij
        rw [hr0] at hr
        injection hr with hr
        subst hr
        exact Or.inr ⟨rfl, hfr⟩
    refine ⟨?_, ?_, ?_, ?_, ?_, ?_, ?_, ?_, ?_, ?_, ?_, ?_, ?_, ?_, ?_⟩
    · intro r' hr' a ha
      rcases List.mem_iff_get?.mp hr' with ⟨j, hj⟩
      rcases hgetc hj with h1 | ⟨_, h2⟩
      · exact hinv.actsLt r' (List.get?_mem h1) a ha
      · subst h2
        exact hinv.actsLt r0 (List.get?_mem hr0) a ha
    · intro e he a ha
      rcases List.mem_append.mp he with he | he
      · exact hinv.histLt e he a ha
      · simp only [List.mem_singleton] at he
        subst he
        simp [Ev.acts] at ha
    · intro r' hr'
      rcases List.mem_iff_get?.mp hr' with ⟨j, hj⟩
      rcases hgetc hj with h1 | ⟨_, h2⟩
      · exact hinv.actsSorted r' (List.get?_mem h1)
      · subst h2
        exact hinv.actsSorted r0 (List.get?_mem hr0)
    · intro ri rj r r2 h1 h2 x0 hx1 hx2
      rcases hgetc h1 with g1 | ⟨hi1, hf1⟩
      · rcases hgetc h2 with g2 | ⟨hi2, hf2⟩
        · exact hinv.actsUnique ri rj r r2 g1 g2 x0 hx1 hx2
        · subst hf2
          rw [hi2]
          exact hinv.actsUnique ri ri0 r r0 g1 hr0 x0 hx1 hx2
      · subst hf1
        rcases hgetc h2 with g2 | ⟨hi2, hf2⟩
        · rw [hi1]
          exact hinv.actsUnique ri0 rj r0 r2 hr0 g2 x0 hx1 hx2
        · rw [hi1, hi2]
    · intro oid a he
      have heold : Ev.enq oid a ∈ s.hist := by
        rcases List.mem_append.mp he with h | h
        · exact h
        · simp at h
      rcases hinv.enqOwner oid a heold with ⟨ri, r, hr, hoidr, hmem⟩
      by_cases hri : ri = ri0
      · rw [hri] at hr
        rw [hr0] at hr
        injection hr with hr
        subst hr
        exact ⟨ri0, { r0 with cancelled := true },
          modifyAt_get?_self _ s.recs ri0 hr0, hoidr, hmem⟩
      · exact ⟨ri, r,
          by rw [modifyAt_get?_other _ s.recs (fun h => hri h.symm)]; exact hr,
          hoidr, hmem⟩
    · intro oid ri hl
      have hne : oid ≠ oid0 := by
        intro h
        rw [h, lookupKey_removeKey_self] at hl
        exact Option.noConfusion hl
      rw [lookupKey_removeKey_ne s.index oid0 oid hne] at hl
      rcases hinv.mapsTo oid ri hl with ⟨r, hr, hoidr, hcr⟩
      have hri : ri ≠ ri0 := by
        intro h
        rw [h, hr0] at hr
        injection hr with hr
        apply hne
        rw [← hoidr, ← hr]
        exact hroid0
      exact ⟨r,
        by rw [modifyAt_get?_other _ s.recs (fun h => hri h.symm)]; exact hr,
        hoidr, hcr⟩
    · intro ri r' hr' hcanc
      have hri : ri ≠ ri0 := by
        intro h
        rw [h, modifyAt_get?_self _ s.recs ri0 hr0] at hr'
        injection hr' with hr'
        rw [← hr'] at hcanc
        simp at hcanc
      rw [modifyAt_get?_other _ s.recs (fun h => hri h.symm)] at hr'
      have hl := hinv.inMap ri r' hr' hcanc
      have hone : r'.oid ≠ oid0 := by
        intro h
        rw [h, hc] at hl
        injection hl with hl
        exact hri hl.symm
      rw [lookupKey_removeKey_ne s.index oid0 r'.oid hone]
      exact hl
    · intro ri rj r r2 hij h1 h2 hoid
      rcases hgetc h1 with g1 | ⟨hi1, hf1⟩
      · rcases hgetc h2 with g2 | ⟨hi2, hf2⟩
        · exact hinv.sameOid ri rj r r2 hij g1 g2 hoid
        · subst hf2
          exact hinv.sameOid ri rj r r0 hij g1 (by rw [hi2]; exact hr0) hoid
      · subst hf1
        rcases hgetc h2 with g2 | ⟨hi2, hf2⟩
        · have := hinv.sameOid ri rj r0 r2 hij (by rw [hi1]; exact hr0) g2 hoid
          exact ⟨rfl, this.2⟩
        · exfalso
          omega
    · intro r' hr' x0 hx0
      rcases List.mem_iff_get?.mp hr' with ⟨j, hj⟩
      rcases hgetc hj with g1 | ⟨_, h2⟩
      · rcases hinv.doneEv r' (List.get?_mem g1) x0 hx0 with ⟨ok2, hcm⟩ | hsk
        · exact Or.inl ⟨ok2, List.mem_append.mpr (Or.inl hcm)⟩
        · exact Or.inr (List.mem_append.mpr (Or.inl hsk))
      · subst h2
        rcases hinv.doneEv r0 (List.get?_mem hr0) x0 hx0 with ⟨ok2, hcm⟩ | hsk
        · exact Or.inl ⟨ok2, List.mem_append.mpr (Or.inl hcm)⟩
        · exact Or.inr (List.mem_append.mpr (Or.inl hsk))
    · intro r' hr' x0 hx0
      rcases List.mem_iff_get?.mp hr' with ⟨j, hj⟩
      rcases hgetc hj with g1 | ⟨_, h2⟩
      · exact List.mem_append.mpr
          (Or.inl (hinv.runningEv r' (List.get?_mem g1) x0 hx0))
      · subst h2
        exact List.mem_append.mpr
          (Or.inl (hinv.runningEv r0 (List.get?_mem hr0) x0 hx0))
    · intro x0 hsk ri r' hr' hx0
      have hskold : Ev.skip x0 ∈ s.hist := by
        rcases List.mem_append.mp hsk with h | h
        · exact h
        · simp at h
      rcases hgetc hr' with g1 | ⟨_, h2⟩
      · exact hinv.skipCancelled x0 hskold ri r' g1 hx0
      · subst h2
        rfl
    · intro x0 ok0 hcm
      have hcmold : Ev.complete x0 ok0 ∈ s.hist := by
        rcases List.mem_append.mp hcm with h | h
        · exact h
        · simp at h
      exact List.mem_append.mpr (Or.inl (hinv.completeStarted x0 ok0 hcmold))
    · intro p b hp ri r' hr' hb x0 hx0 hlt
      rcases get?_append_cases s.hist [Ev.cancelOutput oid0] p _ hp with
        ⟨hplen, hpold⟩ | ⟨i, hpi, hi⟩
      · have hrec : ∃ rr, s.recs.get? ri = some rr ∧ b ∈ rr.acts ∧
            x0 ∈ rr.acts := by
          rcases hgetc hr' with g1 | ⟨hi1, h2⟩
          · exact ⟨r', g1, hb, hx0⟩
          · subst h2
            exact ⟨r0, by rw [hi1]; exact hr0, hb, hx0⟩
        rcases hrec with ⟨rr, hrr, hbr, hxr⟩
        rcases hinv.startOrder p b hpold ri rr hrr hbr x0 hxr hlt with
          ⟨i, hip, hcase⟩
        refine ⟨i, hip, ?_⟩
        rcases hcase with ⟨ok2, hcm⟩ | hs
        · exact Or.inl ⟨ok2, get?_append_left_of_lt _ hcm⟩
        · exact Or.inr (get?_append_left_of_lt _ hs)
      · cases i with
        | zero => simp [List.get?] at hi
        | succ m => simp [List.get?] at hi
    · intro p q oid oid2 x0 y hpq hp hq
      rcases get?_append_cases s.hist [Ev.cancelOutput oid0] p _ hp with
        ⟨_, hpold⟩ | ⟨i, _, hi⟩
      · rcases get?_append_cases s.hist [Ev.cancelOutput oid0] q _ hq with
          ⟨_, hqold⟩ | ⟨i, _, hi⟩
        · exact hinv.enqIncreasing p q oid oid2 x0 y hpq hpold hqold
        · cases i with
          | zero => simp [List.get?] at hi
          | succ m => simp [List.get?] at hi
      · cases i with
        | zero => simp [List.get?] at hi
        | succ m => simp [List.get?] at hi
    · intro p oid a hcanc henq hnostart
      by_cases hplen : p < s.hist.length
      · have hcancold : s.hist.get? p = some (Ev.cancelOutput oid) ∨
            s.hist.get? p = some Ev.cancelAll := by
          rcases hcanc with hcv | hcv
          · left
            rwa [List.get?_append hplen] at hcv
          · right
            rwa [List.get?_append hplen] at hcv
        have henqold : ∃ q < p, s.hist.get? q = some (Ev.enq oid a) := by
          rcases henq with ⟨q, hqp, hq⟩
          exact ⟨q, hqp, by rwa [List.get?_append (Nat.lt_trans hqp hplen)] at hq⟩
        have hnostartold : ∀ i < p, s.hist.get? i ≠ some (Ev.start a) := by
          intro i hip his
          exact hnostart i hip (get?_append_left_of_lt _ his)
        have hold := hinv.cancelSafety p oid a hcancold henqold hnostartold
        constructor
        · intro ri r' hr' ha
          rcases hgetc hr' with g1 | ⟨_, h2⟩
          · exact hold.1 ri r' g1 ha
          · subst h2
            rfl
        · exact no_start_lift s.hist _ a hold.2 (by simp)
      · have hoidp : oid = oid0 ∧ p = s.hist.length := by
          rcases hcanc with hcv | hcv
          · rcases get?_append_cases s.hist [Ev.cancelOutput oid0] p _ hcv with
              ⟨h1, _⟩ | ⟨i, hpi, hi⟩
            · omega
            · cases i with
              | zero =>
                simp only [List.get?] at hi
                injection hi with hi
                injection hi with hi
                exact ⟨hi.symm, by omega⟩
              | succ m => simp [List.get?] at hi
          · rcases get?_append_cases s.hist [Ev.cancelOutput oid0] p _ hcv with
              ⟨h1, _⟩ | ⟨i, hpi, hi⟩
            · omega
            · cases i with
              | zero =>
                simp only [List.get?] at hi
                injection hi with hi
                exact Ev.noConfusion hi
              | succ m => simp [List.get?] at hi
        obtain ⟨hoide, hpe⟩ := hoidp
        have henqmem : Ev.enq oid a ∈ s.hist := by
          rcases henq with ⟨q, hqp, hq⟩
          rw [List.get?_append (by omega : q < s.hist.length)] at hq
          exact List.get?_mem hq
        have hnostartall : ∀ i, s.hist.get? i ≠ some (Ev.start a) := by
          apply no_start_all s.hist a p (by omega)
          intro i hip his
          exact hnostart i hip (get?_append_left_of_lt _ his)
        have hmain := owner_cancelled_or_mapped s hinv oid a henqmem hnostartall
        constructor
        · intro ri r' hr' ha
          rcases hgetc hr' with g1 | ⟨_, h2⟩
          · rcases hmain ri r' g1 ha with h | ⟨_, hlook⟩
            · exact h
            · rw [hoide, hc] at hlook
              injection hlook with hlook
              rw [← hlook] at hr'
              rw [modifyAt_get?_self _ s.recs ri0 hr0] at hr'
              injection hr' with hr'
              rw [← hr']
          · subst h2
            rfl
        · exact no_start_lift s.hist _ a hnostartall (by simp)

end OutputsQueue

namespace OutputsQueue

theorem qinv_cancelAll (s : QState) (hinv : QInv s) : QInv (cancelAll s) := by
  have hgetc : ∀ {j : Nat} {r' : QRec},
      (s.index.foldl
        (fun rs kv => modifyAt (fun r => { r with cancelled := true }) rs kv.2)
        s.recs).get? j = some r' →
      ∃ r, s.recs.get? j = some r ∧
        (r' = r ∨ r' = { r with cancelled := true }) := by
    intro j r' h
    rcases cancelFold_get?_or s.index s.recs j with h2 | h2
    · rw [h] at h2
      exact ⟨r', h2.symm, Or.inl rfl⟩
    · rw [h] at h2
      cases hj : s.recs.get? j with
      | none =>
        rw [hj] at h2
        exact Option.noConfusion h2
      | some r =>
        rw [hj] at h2
        injection h2 with h2
        exact ⟨r, rfl, Or.inr h2⟩
  have hfields : ∀ {r r' : QRec},
      (r' = r ∨ r' = { r with cancelled := true }) →
      r'.oid = r.oid ∧ r'.acts = r.acts ∧ r'.doneActs = r.doneActs ∧
        r'.running = r.running ∧ (r.cancelled = true → r'.cancelled = true) := by
    intro r r' hv
    rcases hv with rfl | rfl
    · exact ⟨rfl, rfl, rfl, rfl, fun h => h⟩
    · exact ⟨rfl, rfl, rfl, rfl, fun _ => rfl⟩
  unfold cancelAll
  refine ⟨?_, ?_, ?_, ?_, ?_, ?_, ?_, ?_, ?_, ?_, ?_, ?_, ?_, ?_, ?_⟩
  · intro r' hr' a ha
    rcases List.mem_iff_get?.mp hr' with ⟨j, hj⟩
    rcases hgetc hj with ⟨r, hr, hv⟩
    rw [(hfields hv).2.1] at ha
    exact hinv.actsLt r (List.get?_mem hr) a ha
  · intro e he a ha
    rcases List.mem_append.mp he with he | he
    · exact hinv.histLt e he a ha
    · simp only [List.mem_singleton] at he
      subst he
      simp [Ev.acts] at ha
  · intro r' hr'
    rcases List.mem_iff_get?.mp hr' with ⟨j, hj⟩
    rcases hgetc hj with ⟨r, hr, hv⟩
    rw [(hfields hv).2.1]
    exact hinv.actsSorted r (List.get?_mem hr)
  · intro ri rj r1' r2' h1 h2 x0 hx1 hx2
    rcases hgetc h1 with ⟨r1, hr1, hv1⟩
    rcases hgetc h2 with ⟨r2, hr2, hv2⟩
    rw [(hfields hv1).2.1] at hx1
    rw [(hfields hv2).2.1] at hx2
    exact hinv.actsUnique ri rj r1 r2 hr1 hr2 x0 hx1 hx2
  · intro oid a he
    have heold : Ev.enq oid a ∈ s.hist := by
      rcases List.mem_append.mp he with h | h
      · exact h
      · simp at h
    rcases hinv.enqOwner oid a heold with ⟨ri, r, hr, hoidr, hmem⟩
    rcases cancelFold_get?_or s.index s.recs ri with hcase | hcase
    · exact ⟨ri, r, by rw [hcase]; exact hr, hoidr, hmem⟩
    · exact ⟨ri, { r with cancelled := true }, by rw [hcase, hr]; rfl, hoidr, hmem⟩
  · intro oid ri hl
    simp [lookupKey] at hl
  · intro ri r' hr' hcanc
    exfalso
    rcases hgetc hr' with ⟨r, hr, hv⟩
    rcases hv with rfl | rfl
    · have hl := hinv.inMap ri r' hr hcanc
      have hmem := EditorOverrideSvc.lookupKey_mem hl
      have hfold := cancelFold_get?_mem s.index s.recs hmem
      rw [hr', hr] at hfold
      injection hfold with hfold
      have h2 : r'.cancelled = true := congrArg QRec.cancelled hfold
      rw [hcanc] at h2
      exact Bool.noConfusion h2
    · simp at hcanc
  · intro ri rj r1' r2' hij h1 h2 hoid
    rcases hgetc h1 with ⟨r1, hr1, hv1⟩
    rcases hgetc h2 with ⟨r2, hr2, hv2⟩
    rw [(hfields hv1).1, (hfields hv2).1] at hoid
    have hold := hinv.sameOid ri rj r1 r2 hij hr1 hr2 hoid
    refine ⟨(hfields hv1).2.2.2.2 hold.1, ?_⟩
    intro x hx y hy
    rw [(hfields hv1).2.1] at hx
    rw [(hfields hv2).2.1] at hy
    exact hold.2 x hx y hy
  · intro r' hr' x0 hx0
    rcases List.mem_iff_get?.mp hr' with ⟨j, hj⟩
    rcases hgetc hj with ⟨r, hr, hv⟩
    rw [(hfields hv).2.2.1] at hx0
    rcases hinv.doneEv r (List.get?_mem hr) x0 hx0 with ⟨ok2, hcm⟩ | hsk
    · exact Or.inl ⟨ok2, List.mem_append.mpr (Or.inl hcm)⟩
    · exact Or.inr (List.mem_append.mpr (Or.inl hsk))
  · intro r' hr' x0 hx0
    rcases List.mem_iff_get?.mp hr' with ⟨j, hj⟩
    rcases hgetc hj with ⟨r, hr, hv⟩
    rw [(hfields hv).2.2.2.1] at hx0
    exact List.mem_append.mpr (Or.inl (hinv.runningEv r (List.get?_mem hr) x0 hx0))
  · intro x0 hsk ri r' hr' hx0
    have hskold : Ev.skip x0 ∈ s.hist := by
      rcases List.mem_append.mp hsk with h | h
      · exact h
      · simp at h
    rcases hgetc hr' with ⟨r, hr, hv⟩
    rw [(hfields hv).2.1] at hx0
    exact (hfields hv).2.2.2.2 (hinv.skipCancelled x0 hskold ri r hr hx0)
  · intro x0 ok0 hcm
    have hcmold : Ev.complete x0 ok0 ∈ s.hist := by
      rcases List.mem_append.mp hcm with h | h
      · exact h
      · simp at h
    exact List.mem_append.mpr (Or.inl (hinv.completeStarted x0 ok0 hcmold))
  · intro p b hp ri r' hr' hb x0 hx0 hlt
    rcases get?_append_cases s.hist [Ev.cancelAll] p _ hp with
      ⟨hplen, hpold⟩ | ⟨i, hpi, hi⟩
    · rcases hgetc hr' with ⟨rr, hrr, hv⟩
      rw [(hfields hv).2.1] at hb hx0
      rcases hinv.startOrder p b hpold ri rr hrr hb x0 hx0 hlt with
        ⟨i, hip, hcase⟩
      refine ⟨i, hip, ?_⟩
      rcases hcase with ⟨ok2, hcm⟩ | hs
      · exact Or.inl ⟨ok2, get?_append_left_of_lt _ hcm⟩
      · exact Or.inr (get?_append_left_of_lt _ hs)
    · cases i with
      | zero => simp [List.get?] at hi
      | succ m => simp [List.get?] at hi
  · intro p q oid oid2 x0 y hpq hp hq
    rcases get?_append_cases s.hist [Ev.cancelAll] p _ hp with
      ⟨_, hpold⟩ | ⟨i, _, hi⟩
    · rcases get?_append_cases s.hist [Ev.cancelAll] q _ hq with
        ⟨_, hqold⟩ | ⟨i, _, hi⟩
      · exact hinv.enqIncreasing p q oid oid2 x0 y hpq hpold hqold
      · cases i with
        | zero => simp [List.get?] at hi
        | succ m => simp [List.get?] at hi
    · cases i with
      | zero => simp [List.get?] at hi
      | succ m => simp [List.get?] at hi
  · intro p oid a hcanc henq hnostart
    by_cases hplen : p < s.hist.length
    · have hcancold : s.hist.get? p = some (Ev.cancelOutput oid) ∨
          s.hist.get? p = some Ev.cancelAll := by
        rcases hcanc with hcv | hcv
        · left
          rwa [List.get?_append hplen] at hcv
        · right
          rwa [List.get?_append hplen] at hcv
      have henqold : ∃ q < p, s.hist.get? q = some (Ev.enq oid a) := by
        rcases henq with ⟨q, hqp, hq⟩
        exact ⟨q, hqp, by rwa [List.get?_append (Nat.lt_trans hqp hplen)] at hq⟩
      have hnostartold : ∀ i < p, s.hist.get? i ≠ some (Ev.start a) := by
        intro i hip his
        exact hnostart i hip (get?_append_left_of_lt _ his)
      have hold := hinv.cancelSafety p oid a hcancold henqold hnostartold
      constructor
      · intro ri r' hr' ha
        rcases hgetc hr' with ⟨r, hr, hv⟩
        rw [(hfields hv).2.1] at ha
        exact (hfields hv).2.2.2.2 (hold.1 ri r hr ha)
      · exact no_start_lift s.hist _ a hold.2 (by simp)
    · have hpe : p = s.hist.length := by
        rcases hcanc with hcv | hcv
        · rcases get?_append_cases s.hist [Ev.cancelAll] p _ hcv with
            ⟨h1, _⟩ | ⟨i, hpi, hi⟩
          · omega
          · cases i with
            | zero => simp [List.get?] at hi
            | succ m => simp [List.get?] at hi
        · rcases get?_append_cases s.hist [Ev.cancelAll] p _ hcv with
            ⟨h1, _⟩ | ⟨i, hpi, hi⟩
          · omega
          · cases i with
            | zero => omega
            | succ m => simp [List.get?] at hi
      have henqmem : Ev.enq oid a ∈ s.hist := by
        rcases henq with ⟨q, hqp, hq⟩
        rw [List.get?_append (by omega : q < s.hist.length)] at hq
        exact List.get?_mem hq
      have hnostartall : ∀ i, s.hist.get? i ≠ some (Ev.start a) := by
        apply no_start_all s.hist a p (by omega)
        intro i hip his
        exact hnostart i hip (get?_append_left_of_lt _ his)
      have hmain := owner_cancelled_or_mapped s hinv oid a henqmem hnostartall
      constructor
      · intro ri r' hr' ha
        rcases hgetc hr' with ⟨r, hr, hv⟩
        rw [(hfields hv).2.1] at ha
        rcases hmain ri r hr ha with h | ⟨_, hlook⟩
        · exact (hfields hv).2.2.2.2 h
        · have hmem := EditorOverrideSvc.lookupKey_mem hlook
          have hfold := cancelFold_get?_mem s.index s.recs hmem
          rw [hr', hr] at hfold
          injection hfold with hfold
          rw [hfold]
      · exact no_start_lift s.hist _ a hnostartall (by simp)

end OutputsQueue

namespace OutputsQueue

theorem qinv_step (s : QState) (c : Cmd) (hinv : QInv s) : QInv (step s c) := by
  cases c with
  | enqueue oid => exact qinv_enqueue s oid hinv
  | finish ri ok => exact qinv_finish s ri ok hinv
  | next ri => exact qinv_next s ri hinv
  | cancelOutput oid => exact qinv_cancelOutput oid s hinv
  | cancelAll => exact qinv_cancelAll s hinv

theorem qinv_foldl (cmds : List Cmd) (s : QState) (hinv : QInv s) :
    QInv (cmds.foldl step s) := by
  induction cmds generalizing s with
  | nil => exact hinv
  | cons c rest ih =>
    exact ih (step s c) (qinv_step s c hinv)

theorem qinv_run (cmds : List Cmd) : QInv (run cmds) :=
  qinv_foldl cmds initQ qinv_init

end OutputsQueue

namespace OutputsQueue

theorem fifo_of_inv (s : QState) (hinv : QInv s) (oid : String)
    (a b pa pb j : Nat) (hab : pa < pb)
    (ha : s.hist.get? pa = some (Ev.enq oid a))
    (hb : s.hist.get? pb = some (Ev.enq oid b))
    (hnc : ∀ r ∈ s.recs, a ∈ r.acts → r.cancelled = false)
    (hstart : s.hist.get? j = some (Ev.start b)) :
    ∃ i < j, ∃ ok, s.hist.get? i = some (Ev.complete a ok) := by
  have hlt : a < b := hinv.enqIncreasing pa pb oid oid a b hab ha hb
  obtain ⟨ria, ra, hra, hoida, hmema⟩ := hinv.enqOwner oid a (List.get?_mem ha)
  obtain ⟨rib, rb, hrb, hoidb, hmemb⟩ := hinv.enqOwner oid b (List.get?_mem hb)
  have hsame : ria = rib := by
    rcases Nat.lt_trichotomy ria rib with h | h | h
    · exfalso
      have hso := hinv.sameOid ria rib ra rb h hra hrb (by rw [hoida, hoidb])
      have hc := hnc ra (List.get?_mem hra) hmema
      rw [hso.1] at hc
      exact Bool.noConfusion hc
    · exact h
    · exfalso
      have hso := hinv.sameOid rib ria rb ra h hrb hra (by rw [hoidb, hoida])
      have := hso.2 b hmemb a hmema
      omega
  subst hsame
  rw [hra] at hrb
  injection hrb with hrb
  subst hrb
  rcases hinv.startOrder j b hstart ria ra hra hmemb a hmema hlt with
    ⟨i, hij, hcase⟩
  rcases hcase with ⟨ok, hcm⟩ | hsk
  · exact ⟨i, hij, ok, hcm⟩
  · exfalso
    have hcanc := hinv.skipCancelled a (List.get?_mem hsk) ria ra hra hmema
    have hc := hnc ra (List.get?_mem hra) hmema
    rw [hcanc] at hc
    exact Bool.noConfusion hc

/-- C1: per-output FIFO of `outputs.enqueue`.  In any run of the queue
system, if two actions are enqueued for the same output id at history
positions `pa < pb`, the earlier action belongs to no cancelled record,
and the later action starts at position `j`, then the earlier action
completed at some strictly earlier position: the later-enqueued action
never starts before the earlier non-cancelled one has completed. -/
theorem enqueue_fifo (cmds : List Cmd) (oid : String) (a b pa pb j : Nat)
    (hab : pa < pb)
    (ha : (run cmds).hist.get? pa = some (Ev.enq oid a))
    (hb : (run cmds).hist.get? pb = some (Ev.enq oid b))
    (hnc : ∀ r ∈ (run cmds).recs, a ∈ r.acts → r.cancelled = false)
    (hstart : (run cmds).hist.get? j = some (Ev.start b)) :
    ∃ i < j, ∃ ok, (run cmds).hist.get? i = some (Ev.complete a ok) :=
  fifo_of_inv (run cmds) (qinv_run cmds) oid a b pa pb j hab ha hb hnc hstart

/-- Witness for `enqueue_fifo`: in the run enqueue(o) / settle / enqueue(o)
/ pump, action 0 completes (position 2) before action 1 starts
(position 4). -/
theorem enqueue_fifo_witness :
    (run [Cmd.enqueue "o", Cmd.finish 0 true, Cmd.enqueue "o",
        Cmd.next 0]).hist.get? 0 = some (Ev.enq "o" 0) ∧
    (run [Cmd.enqueue "o", Cmd.finish 0 true, Cmd.enqueue "o",
        Cmd.next 0]).hist.get? 3 = some (Ev.enq "o" 1) ∧
    (run [Cmd.enqueue "o", Cmd.finish 0 true, Cmd.enqueue "o",
        Cmd.next 0]).hist.get? 4 = some (Ev.start 1) ∧
    ∃ i < 4, ∃ ok,
      (run [Cmd.enqueue "o", Cmd.finish 0 true, Cmd.enqueue "o",
        Cmd.next 0]).hist.get? i = some (Ev.complete 0 ok) :=
  ⟨by decide, by decide, by decide,
   enqueue_fifo [Cmd.enqueue "o", Cmd.finish 0 true, Cmd.enqueue "o",
       Cmd.next 0] "o" 0 1 0 3 4 (by decide) (by decide) (by decide)
     (by decide) (by decide)⟩

theorem cancel_of_inv (s : QState) (hinv : QInv s) (p : Nat) (oid : String)
    (a : Nat)
    (hc : s.hist.get? p = some (Ev.cancelOutput oid) ∨
      s.hist.get? p = some Ev.cancelAll)
    (henq : ∃ q < p, s.hist.get? q = some (Ev.enq oid a))
    (hns : ∀ i < p, s.hist.get? i ≠ some (Ev.start a)) :
    ∀ j, s.hist.get? j ≠ some (Ev.start a) ∧
      ∀ ok, s.hist.get? j ≠ some (Ev.complete a ok) := by
  have hmain := hinv.cancelSafety p oid a hc henq hns
  intro j
  refine ⟨hmain.2 j, ?_⟩
  intro ok hcm
  have hst := hinv.completeStarted a ok (List.get?_mem hcm)
  rcases List.mem_iff_get?.mp hst with ⟨i, hi⟩
  exact hmain.2 i hi

/-- C2: cancellation skips not-yet-started actions.  In any run of the
queue system, after `cancelOutput oid` at history position `p` — or after
`cancelAll`, for every output id — an action enqueued for `oid` before `p`
that has not started before `p` never starts and never completes anywhere
in the run. -/
theorem cancel_skips_pending (cmds : List Cmd) (p : Nat) (oid : String)
    (a q : Nat) (hqp : q < p)
    (hc : (run cmds).hist.get? p = some (Ev.cancelOutput oid) ∨
      (run cmds).hist.get? p = some Ev.cancelAll)
    (henq : (run cmds).hist.get? q = some (Ev.enq oid a))
    (hns : ∀ i < p, (run cmds).hist.get? i ≠ some (Ev.start a)) :
    ∀ j, (run cmds).hist.get? j ≠ some (Ev.start a) ∧
      ∀ ok, (run cmds).hist.get? j ≠ some (Ev.complete a ok) :=
  cancel_of_inv (run cmds) (qinv_run cmds) p oid a hc ⟨q, hqp, henq⟩ hns

/-- Witness for `cancel_skips_pending`: enqueue(o) / enqueue(o) /
cancelOutput(o); the second action (enqueued at position 2, cancelled at
position 3 before starting) never starts or completes, even if the
scheduler keeps pumping. -/
theorem cancel_skips_pending_witness :
    (2 : Nat) < 3 ∧
    (run [Cmd.enqueue "o", Cmd.enqueue "o",
        Cmd.cancelOutput "o"]).hist.get? 3 = some (Ev.cancelOutput "o") ∧
    (run [Cmd.enqueue "o", Cmd.enqueue "o",
        Cmd.cancelOutput "o"]).hist.get? 2 = some (Ev.enq "o" 1) ∧
    ∀ j, (run [Cmd.enqueue "o", Cmd.enqueue "o",
        Cmd.cancelOutput "o"]).hist.get? j ≠ some (Ev.start 1) ∧
      ∀ ok, (run [Cmd.enqueue "o", Cmd.enqueue "o",
          Cmd.cancelOutput "o"]).hist.get? j ≠ some (Ev.complete 1 ok) :=
  ⟨by decide, by decide, by decide,
   cancel_skips_pending [Cmd.enqueue "o", Cmd.enqueue "o",
       Cmd.cancelOutput "o"] 3 "o" 1 2 (by decide) (Or.inl (by decide))
     (by decide) (by decide)⟩

end OutputsQueue
